import Mathlib

set_option maxHeartbeats 1000000
set_option linter.unusedSectionVars false

namespace TreapSort

/-- Error kinds observable from the Python exceptions raised in `src/treap_sort.py`:
`notFound` is the `ValueError` family with message "... not in treap", `empty` the
`ValueError` family "empty treap has no ...", and `attr` an `AttributeError` coming
from calling a method on `None`. -/
inductive PyErr where
  | notFound
  | empty
  | attr
deriving DecidableEq, Repr

/-- Binary tree of values with priorities. `nil` plays the role of Python's `None`, so
a `TN α` models an `Optional[TreapNode[T]]` from `src/treap_sort.py`. Priorities are
Python floats that the code only ever compares, so they are modelled as rationals. -/
inductive TN (α : Type) where
  | nil : TN α
  | node (value : α) (priority : ℚ) (left right : TN α) : TN α
deriving DecidableEq, Repr

namespace TN

variable {α : Type} [LinearOrder α]

/-- In-order traversal over the values (`TreapNode.__iter__` through `TreapValues`). -/
def toList : TN α → List α
  | nil => []
  | node v _ l r => toList l ++ v :: toList r

/-- Number of nodes (`TreapNode.__len__`). -/
def size : TN α → Nat
  | nil => 0
  | node _ _ l r => 1 + size l + size r

/-- In-order list of the priorities stored in the tree. -/
def prios : TN α → List ℚ
  | nil => []
  | node _ p l r => prios l ++ p :: prios r

/-- Priority of the root node. The default `0` for `nil` is never consulted: the code
only reads `x.priority` at points where the tree is provably nonempty. -/
def prio : TN α → ℚ
  | nil => 0
  | node _ p _ _ => p

/-- `TreapNode.__contains__`. The Python guard chain
`v == w or (v < w and v in left) or (v > w and v in right)` is written as the
equivalent if-chain (in a total order exactly one of the three guards applies). -/
def contains : TN α → α → Bool
  | nil, _ => false
  | node w _ l r, v =>
    if v = w then true
    else if v < w then contains l v
    else contains r v

/-- `TreapNode.rotate_left`. The code only calls it when the right child exists, so
the fallthrough case is unreachable on the modelled paths. -/
def rotateLeft : TN α → TN α
  | node v p l (node rv rp rl rr) => node rv rp (node v p l rl) rr
  | t => t

/-- `TreapNode.rotate_right`. The code only calls it when the left child exists. -/
def rotateRight : TN α → TN α
  | node v p (node lv lp ll lr) r => node lv lp ll (node v p lr r)
  | t => t

/-- `TreapNode.insert`, together with the `Treap.insert` wrapper's empty case (both
create a fresh node): equal values descend to the right (for stable sorting), and the
tree rotates when the updated child's priority is strictly lower than the node's. -/
def insert : TN α → α → ℚ → TN α
  | nil, v, p => node v p nil nil
  | node w q l r, v, p =>
    if v < w then
      let l' := insert l v p
      if l'.prio < q then rotateRight (node w q l' r) else node w q l' r
    else
      let r' := insert r v p
      if r'.prio < q then rotateLeft (node w q l r') else node w q l r'

/-- `TreapNode.add` / `OrderedSet.insert`: like `insert` but a no-op when the value is
already present. -/
def add : TN α → α → ℚ → TN α
  | nil, v, p => node v p nil nil
  | node w q l r, v, p =>
    if v < w then
      let l' := add l v p
      if l'.prio < q then rotateRight (node w q l' r) else node w q l' r
    else if w < v then
      let r' := add r v p
      if r'.prio < q then rotateLeft (node w q l r') else node w q l r'
    else node w q l r

/-- `TreapNode.search`: returns the first node with a matching value along the
comparison-guided path, `ValueError` (modelled as `notFound`) otherwise. -/
def search : TN α → α → Except PyErr (TN α)
  | nil, _ => .error .notFound
  | node w q l r, v =>
    if v = w then .ok (node w q l r)
    else if v < w ∧ l ≠ nil then search l v
    else if w < v ∧ r ≠ nil then search r v
    else .error .notFound

/-- `TreapNode.delete`: deletes the first node with the given value found on the
comparison-guided path; `none` models the raised `ValueError`. The last two branches
inline `rotate_right`/`rotate_left` followed by the recursive delete into the rotated
child, exactly as the source does. -/
def delete : TN α → α → Option (TN α)
  | nil, _ => none
  | node w q l r, v =>
    if (l = nil ∧ v < w) ∨ (r = nil ∧ w < v) then none
    else if v < w then (delete l v).map fun l' => node w q l' r
    else if w < v then (delete r v).map fun r' => node w q l r'
    else
      match l, r with
      | nil, _ => some r
      | node lv lp ll lr, nil => some (node lv lp ll lr)
      | node lv lp ll lr, node rv rp rl rr =>
        if lp < rp then
          (delete (node w q lr (node rv rp rl rr)) v).map fun r' => node lv lp ll r'
        else
          (delete (node w q (node lv lp ll lr) rl) v).map fun l' => node rv rp l' rr
termination_by t _ => t.size
decreasing_by all_goals (simp only [size]; omega)

theorem delete_nil_eq (v : α) : (nil : TN α).delete v = none := by
  simp [delete]

theorem delete_guard {w : α} {q : ℚ} {l r : TN α} {v : α}
    (hg : (l = nil ∧ v < w) ∨ (r = nil ∧ w < v)) :
    (node w q l r).delete v = none := by
  rw [delete.eq_def]
  simp only [if_pos hg]

theorem delete_lt {w : α} {q : ℚ} {l r : TN α} {v : α}
    (hg : ¬ ((l = nil ∧ v < w) ∨ (r = nil ∧ w < v))) (hlt : v < w) :
    (node w q l r).delete v = (delete l v).map fun l' => node w q l' r := by
  rw [delete.eq_def]
  simp only [if_neg hg, if_pos hlt]

theorem delete_gt {w : α} {q : ℚ} {l r : TN α} {v : α}
    (hg : ¬ ((l = nil ∧ v < w) ∨ (r = nil ∧ w < v))) (hnlt : ¬ v < w) (hgt : w < v) :
    (node w q l r).delete v = (delete r v).map fun r' => node w q l r' := by
  rw [delete.eq_def]
  simp only [if_neg hg, if_neg hnlt, if_pos hgt]

theorem delete_left_nil {w : α} {q : ℚ} {r : TN α} {v : α}
    (hnlt : ¬ v < w) (hngt : ¬ w < v) :
    (node w q nil r).delete v = some r := by
  have hg : ¬ (((nil : TN α) = nil ∧ v < w) ∨ (r = nil ∧ w < v)) := by
    intro hc
    rcases hc with ⟨_, hc⟩ | ⟨_, hc⟩ <;> [exact hnlt hc; exact hngt hc]
  rw [delete.eq_def]
  simp [hnlt, hngt]

theorem delete_right_nil {w : α} {q : ℚ} {lv : α} {lp : ℚ} {ll lr : TN α} {v : α}
    (hnlt : ¬ v < w) (hngt : ¬ w < v) :
    (node w q (node lv lp ll lr) nil).delete v = some (node lv lp ll lr) := by
  have hg : ¬ ((node lv lp ll lr = nil ∧ v < w) ∨ ((nil : TN α) = nil ∧ w < v)) := by
    intro hc
    rcases hc with ⟨_, hc⟩ | ⟨_, hc⟩ <;> [exact hnlt hc; exact hngt hc]
  rw [delete.eq_def]
  simp [hnlt, hngt]

theorem delete_both_left {w : α} {q : ℚ} {lv : α} {lp : ℚ} {ll lr : TN α}
    {rv : α} {rp : ℚ} {rl rr : TN α} {v : α}
    (hnlt : ¬ v < w) (hngt : ¬ w < v) (hp : lp < rp) :
    (node w q (node lv lp ll lr) (node rv rp rl rr)).delete v =
      (delete (node w q lr (node rv rp rl rr)) v).map fun r' => node lv lp ll r' := by
  have hg : ¬ ((node lv lp ll lr = nil ∧ v < w) ∨ (node rv rp rl rr = nil ∧ w < v)) := by
    intro hc
    rcases hc with ⟨_, hc⟩ | ⟨_, hc⟩ <;> [exact hnlt hc; exact hngt hc]
  rw [delete.eq_def]
  simp only [if_neg hg, if_neg hnlt, if_neg hngt, if_pos hp]

theorem delete_both_right {w : α} {q : ℚ} {lv : α} {lp : ℚ} {ll lr : TN α}
    {rv : α} {rp : ℚ} {rl rr : TN α} {v : α}
    (hnlt : ¬ v < w) (hngt : ¬ w < v) (hp : ¬ lp < rp) :
    (node w q (node lv lp ll lr) (node rv rp rl rr)).delete v =
      (delete (node w q (node lv lp ll lr) rl) v).map fun l' => node rv rp l' rr := by
  have hg : ¬ ((node lv lp ll lr = nil ∧ v < w) ∨ (node rv rp rl rr = nil ∧ w < v)) := by
    intro hc
    rcases hc with ⟨_, hc⟩ | ⟨_, hc⟩ <;> [exact hnlt hc; exact hngt hc]
  rw [delete.eq_def]
  simp only [if_neg hg, if_neg hnlt, if_neg hngt, if_neg hp]

theorem size_delete {t : TN α} {v : α} {t' : TN α} (h : delete t v = some t') :
    t'.size + 1 = t.size := by
  induction t, v using delete.induct generalizing t' with
  | case1 v => rw [delete_nil_eq] at h; cases h
  | case2 w q l r v hg => rw [delete_guard hg] at h; cases h
  | case3 w q l r v hg hlt ih =>
    rw [delete_lt hg hlt, Option.map_eq_some'] at h
    obtain ⟨l', hl', rfl⟩ := h
    have := ih hl'
    simp only [size]; omega
  | case4 w q l r v hg hnlt hgt ih =>
    rw [delete_gt hg hnlt hgt, Option.map_eq_some'] at h
    obtain ⟨r', hr', rfl⟩ := h
    have := ih hr'
    simp only [size]; omega
  | case5 w q r v hnlt hngt hg =>
    rw [delete_left_nil hnlt hngt] at h
    cases h
    simp only [size]; omega
  | case6 w q v hnlt hngt lv lp ll lr hg =>
    rw [delete_right_nil hnlt hngt] at h
    cases h
    simp only [size]; omega
  | case7 w q v hnlt hngt lv lp ll lr rv rp rl rr hp hg ih =>
    rw [delete_both_left hnlt hngt hp, Option.map_eq_some'] at h
    obtain ⟨r', hr', rfl⟩ := h
    have := ih hr'
    simp only [size] at this ⊢; omega
  | case8 w q v hnlt hngt lv lp ll lr rv rp rl rr hp hg ih =>
    rw [delete_both_right hnlt hngt hp, Option.map_eq_some'] at h
    obtain ⟨l', hl', rfl⟩ := h
    have := ih hl'
    simp only [size] at this ⊢; omega

theorem isSome_delete {t : TN α} {v : α} (h : contains t v = true) :
    (delete t v).isSome := by
  induction t, v using delete.induct with
  | case1 v => simp [contains] at h
  | case2 w q l r v hg =>
    rcases hg with ⟨hl, hvw⟩ | ⟨hr, hwv⟩
    · subst hl
      rw [contains, if_neg (ne_of_lt hvw), if_pos hvw] at h
      simp [contains] at h
    · subst hr
      rw [contains, if_neg (ne_of_gt hwv), if_neg (not_lt_of_gt hwv)] at h
      simp [contains] at h
  | case3 w q l r v hg hlt ih =>
    rw [contains, if_neg (ne_of_lt hlt), if_pos hlt] at h
    rw [delete_lt hg hlt]
    simpa using ih h
  | case4 w q l r v hg hnlt hgt ih =>
    rw [contains, if_neg (ne_of_gt hgt), if_neg hnlt] at h
    rw [delete_gt hg hnlt hgt]
    simpa using ih h
  | case5 w q r v hnlt hngt hg =>
    rw [delete_left_nil hnlt hngt]
    simp
  | case6 w q v hnlt hngt lv lp ll lr hg =>
    rw [delete_right_nil hnlt hngt]
    simp
  | case7 w q v hnlt hngt lv lp ll lr rv rp rl rr hp hg ih =>
    rw [delete_both_left hnlt hngt hp]
    have hvw : v = w := le_antisymm (not_lt.mp hngt) (not_lt.mp hnlt)
    have hc : contains (node w q lr (node rv rp rl rr)) v = true := by
      rw [contains, if_pos hvw]
    simpa using ih hc
  | case8 w q v hnlt hngt lv lp ll lr rv rp rl rr hp hg ih =>
    rw [delete_both_right hnlt hngt hp]
    have hvw : v = w := le_antisymm (not_lt.mp hngt) (not_lt.mp hnlt)
    have hc : contains (node w q (node lv lp ll lr) rl) v = true := by
      rw [contains, if_pos hvw]
    simpa using ih hc


/-- `TreapNode.delete_all`: the loop `while value in self: self = self.delete(value)`.
The `Option.get` is justified by `isSome_delete`: inside the loop the value is
present, so `delete` cannot raise. -/
def delete_all (t : TN α) (v : α) : TN α :=
  if h : contains t v then delete_all ((delete t v).get (isSome_delete h)) v else t
termination_by t.size
decreasing_by
  have hs := size_delete (t := t) (v := v) (Option.some_get (isSome_delete h)).symm
  omega

theorem delete_all_of_contains {t : TN α} {v : α} (h : contains t v = true) :
    delete_all t v = delete_all ((delete t v).get (isSome_delete h)) v := by
  rw [delete_all, dif_pos h]

theorem delete_all_of_not_contains {t : TN α} {v : α} (h : ¬ contains t v = true) :
    delete_all t v = t := by
  rw [delete_all, dif_neg h]

theorem size_delete_all_le (t : TN α) (v : α) : (delete_all t v).size ≤ t.size := by
  induction t, v using delete_all.induct with
  | case1 t v h ih =>
    rw [delete_all_of_contains h]
    have hs := size_delete (t := t) (v := v) (Option.some_get (isSome_delete h)).symm
    omega
  | case2 t v h =>
    rw [delete_all_of_not_contains h]

/-- `TreapNode.delete_all_except`: find the first node equal to `value` along the
search path and delete all occurrences of the value from that node's subtrees.
Fallthrough cases where `search` would raise `ValueError` return the tree unchanged,
which coincides with recursing into a `nil` child. -/
def delete_all_except : TN α → α → TN α
  | nil, _ => nil
  | node w q l r, v =>
    if v = w then node w q (delete_all l v) (delete_all r v)
    else if v < w then node w q (delete_all_except l v) r
    else node w q l (delete_all_except r v)

theorem size_eq_zero_iff {t : TN α} : t.size = 0 ↔ t = nil := by
  cases t <;> simp [size]

theorem size_rotateLeft (t : TN α) : (rotateLeft t).size = t.size := by
  match t with
  | nil => rfl
  | node v p l nil => rfl
  | node v p l (node rv rp rl rr) => simp only [rotateLeft, size]; omega

theorem size_rotateRight (t : TN α) : (rotateRight t).size = t.size := by
  match t with
  | nil => rfl
  | node v p nil r => rfl
  | node v p (node lv lp ll lr) r => simp only [rotateRight, size]; omega

theorem size_insert (t : TN α) (v : α) (p : ℚ) : (insert t v p).size = t.size + 1 := by
  induction t with
  | nil => simp [insert, size]
  | node w q l r ihl ihr =>
    rw [insert]
    by_cases hv : v < w
    · simp only [if_pos hv]
      by_cases hp : (insert l v p).prio < q
      · simp only [if_pos hp, size_rotateRight, size]
        omega
      · simp only [if_neg hp, size]
        omega
    · simp only [if_neg hv]
      by_cases hp : (insert r v p).prio < q
      · simp only [if_pos hp, size_rotateLeft, size]
        omega
      · simp only [if_neg hp, size]
        omega

theorem insert_ne_nil (t : TN α) (v : α) (p : ℚ) : insert t v p ≠ nil := by
  intro h
  have := size_insert t v p
  rw [h] at this
  simp [size] at this

/-- `TreapNode.split`: insert the pivot with priority `0.0` (so that, when all stored
priorities are positive, it wins every rotation on the way up and becomes the root)
and return the root's two children. The `nil` arm is unreachable (`insert_ne_nil`). -/
def split (t : TN α) (v : α) : TN α × TN α :=
  match insert t v 0 with
  | nil => (nil, nil)
  | node _ _ l r => (l, r)

theorem size_split (t : TN α) (v : α) :
    (split t v).1.size + (split t v).2.size = t.size := by
  rcases hI : insert t v 0 with _ | ⟨a, b, L, R⟩
  · exact absurd hI (insert_ne_nil t v 0)
  · have hs := size_insert t v 0
    rw [hI] at hs
    simp only [size] at hs
    simp only [split, hI]
    omega

theorem contains_root (w : α) (q : ℚ) (l r : TN α) :
    contains (node w q l r) w = true := by
  rw [contains, if_pos rfl]

/-- `TreapNode.unique`: `delete_all_except` at the root's own value (whose first
search match is the root itself, so the children become `delete_all` of the original
children), then recurse into both children; a `None` child stays `None`. -/
def unique : TN α → TN α
  | nil => nil
  | node w q l r => node w q (unique (delete_all l w)) (unique (delete_all r w))
termination_by t => t.size
decreasing_by
  all_goals
    (rename_i w q l r
     first
       | (have hs := size_delete_all_le l w; simp only [size]; omega)
       | (have hs := size_delete_all_le r w; simp only [size]; omega))

/-- Value of the rightmost node: `maxVal r w` is `TreapNode.max_().value` of a node
with value `w` and right child `r`. -/
def maxVal : TN α → α → α
  | nil, d => d
  | node w _ _ r, _ => maxVal r w

/-- `TreapNode.delete_node` specialised to the only call pattern occurring in the
source: the target is the root of the receiver (`join` and `__sub__` both build a
synthetic root and delete that very node).  The identity test then succeeds at the
root of every recursive call (after a rotation the old root is the root of the
rotated-into child), so the function reduces to this root-deletion recursion. -/
def delete_root : TN α → TN α
  | nil => nil
  | node _ _ nil r => r
  | node _ _ (node lv lp ll lr) nil => node lv lp ll lr
  | node w q (node lv lp ll lr) (node rv rp rl rr) =>
    if lp < rp then node lv lp ll (delete_root (node w q lr (node rv rp rl rr)))
    else node rv rp (delete_root (node w q (node lv lp ll lr) rl)) rr
termination_by t => t.size
decreasing_by all_goals (simp only [size]; omega)

/-- `TreapNode.join`: synthesise a root at `left`'s maximum value with an
always-losing priority `0.0`, then delete that node again. -/
def join : TN α → TN α → TN α
  | nil, b => b
  | node aw ap al ar, nil => node aw ap al ar
  | node aw ap al ar, b => delete_root (node (maxVal ar aw) 0 (node aw ap al ar) b)

/-- `TreapNode.copy`: a node-by-node clone.  In this pure model the clone is equal to
the original tree; the Python-level fact that it shares no object with the original
has no counterpart here. -/
def copy : TN α → TN α
  | nil => nil
  | node v p l r => node v p (copy l) (copy r)

theorem copy_eq (t : TN α) : copy t = t := by
  induction t with
  | nil => rfl
  | node v p l r ihl ihr => rw [copy, ihl, ihr]

/-- `TreapNode.__sub__`: removes every occurrence of each of `other`'s values from
`self`: delete all copies of `other`'s root value, split at it, recurse on the two
sides against `other`'s children, and re-join through a synthetic `0.0`-priority
root that is deleted again via `delete_node` (here `delete_root`). -/
def sub : TN α → TN α → TN α
  | nil, _ => nil
  | node av ap al ar, nil => node av ap al ar
  | node av ap al ar, node bv bp bl br =>
    match hd : delete_all (node av ap al ar) bv with
    | nil => nil
    | node cv cp cl cr =>
      delete_root (node bv 0
        (sub (split (node cv cp cl cr) bv).1 bl)
        (sub (split (node cv cp cl cr) bv).2 br))
termination_by a b => a.size + b.size
decreasing_by
  all_goals
    (have h1 := size_split (node cv cp cl cr) rv
     have h2 := size_delete_all_le (node lv lp ll lr) rv
     rw [hd] at h2
     simp only [size] at *
     omega)

/-- `TreapNode.__or__`: set-union.  The lower-priority root wins; that operand is
deduplicated at its root value (`delete_all_except`, whose first match is the root),
all copies of the value are removed from the other operand, which is then split at
the value, and the two sides are united recursively. -/
def union : TN α → TN α → TN α
  | nil, nil => nil
  | nil, node bv bp bl br => unique (node bv bp bl br)
  | node av ap al ar, nil => unique (node av ap al ar)
  | node av ap al ar, node bv bp bl br =>
    if ap < bp then
      match hd : (if contains (node bv bp bl br) av
                  then delete_all (node bv bp bl br) av
                  else node bv bp bl br) with
      | nil => node av ap (delete_all al av) (delete_all ar av)
      | node cv cp cl cr =>
        node av ap
          (union (delete_all al av) (split (node cv cp cl cr) av).1)
          (union (delete_all ar av) (split (node cv cp cl cr) av).2)
    else
      match hd : (if contains (node av ap al ar) bv
                  then delete_all (node av ap al ar) bv
                  else node av ap al ar) with
      | nil => node bv bp (delete_all bl bv) (delete_all br bv)
      | node cv cp cl cr =>
        node bv bp
          (union (split (node cv cp cl cr) bv).1 (delete_all bl bv))
          (union (split (node cv cp cl cr) bv).2 (delete_all br bv))
termination_by a b => a.size + b.size
decreasing_by
  all_goals
    (rename_i av ap al ar bv bp bl br hc
     first
       | (have h1 := size_delete_all_le al av
          have h2 := size_split (node cv cp cl cr) av
          have h3 : (node cv cp cl cr).size ≤ (node bv bp bl br).size := by
            rw [← hd]
            split
            · exact size_delete_all_le _ _
            · exact le_rfl
          simp only [size] at *
          omega)
       | (have h1 := size_delete_all_le ar av
          have h2 := size_split (node cv cp cl cr) av
          have h3 : (node cv cp cl cr).size ≤ (node bv bp bl br).size := by
            rw [← hd]
            split
            · exact size_delete_all_le _ _
            · exact le_rfl
          simp only [size] at *
          omega)
       | (have h1 := size_delete_all_le bl bv
          have h2 := size_split (node cv cp cl cr) bv
          have h3 : (node cv cp cl cr).size ≤ (node av ap al ar).size := by
            rw [← hd]
            split
            · exact size_delete_all_le _ _
            · exact le_rfl
          simp only [size] at *
          omega)
       | (have h1 := size_delete_all_le br bv
          have h2 := size_split (node cv cp cl cr) bv
          have h3 : (node cv cp cl cr).size ≤ (node av ap al ar).size := by
            rw [← hd]
            split
            · exact size_delete_all_le _ _
            · exact le_rfl
          simp only [size] at *
          omega))


/-- Tail of `TreapNode.__and__` after the two recursive calls: keep the root node if
its value occurred in both operands, otherwise remove it again
(`self = self.delete(self.value)`, which always succeeds because the value sits at
the root). -/
def interTail (v : α) (p : ℚ) (x y : TN α) (in_both : Bool) : TN α :=
  if in_both then node v p x y
  else ((node v p x y).delete v).get (isSome_delete (contains_root v p x y))

/-- `TreapNode.__and__`: set-intersection.  The lower-priority root wins; its operand
is deduplicated at the root value, all copies of the value are removed from the other
operand when shared (`in_both`), the other operand is split at the value and the
children are intersected recursively; finally the root is kept only when shared. -/
def inter : TN α → TN α → TN α
  | nil, _ => nil
  | node _ _ _ _, nil => nil
  | node av ap al ar, node bv bp bl br =>
    if ap < bp then
      match hd : (if contains (node bv bp bl br) av
                  then delete_all (node bv bp bl br) av
                  else node bv bp bl br) with
      | nil => node av ap (delete_all al av) (delete_all ar av)
      | node cv cp cl cr =>
        interTail av ap
          (inter (delete_all al av) (split (node cv cp cl cr) av).1)
          (inter (delete_all ar av) (split (node cv cp cl cr) av).2)
          (contains (node bv bp bl br) av)
    else
      match hd : (if contains (node av ap al ar) bv
                  then delete_all (node av ap al ar) bv
                  else node av ap al ar) with
      | nil => node bv bp (delete_all bl bv) (delete_all br bv)
      | node cv cp cl cr =>
        interTail bv bp
          (inter (split (node cv cp cl cr) bv).1 (delete_all bl bv))
          (inter (split (node cv cp cl cr) bv).2 (delete_all br bv))
          (contains (node av ap al ar) bv)
termination_by a b => a.size + b.size
decreasing_by
  all_goals
    (first
       | (have h1 := size_delete_all_le ll lv
          have h2 := size_split (node cv cp cl cr) lv
          have h3 : (node cv cp cl cr).size ≤ (node rv rp rl rr).size := by
            rw [← hd]
            split
            · exact size_delete_all_le _ _
            · exact le_rfl
          simp only [size] at *
          omega)
       | (have h1 := size_delete_all_le lr lv
          have h2 := size_split (node cv cp cl cr) lv
          have h3 : (node cv cp cl cr).size ≤ (node rv rp rl rr).size := by
            rw [← hd]
            split
            · exact size_delete_all_le _ _
            · exact le_rfl
          simp only [size] at *
          omega)
       | (have h1 := size_delete_all_le rl rv
          have h2 := size_split (node cv cp cl cr) rv
          have h3 : (node cv cp cl cr).size ≤ (node lv lp ll lr).size := by
            rw [← hd]
            split
            · exact size_delete_all_le _ _
            · exact le_rfl
          simp only [size] at *
          omega)
       | (have h1 := size_delete_all_le rr rv
          have h2 := size_split (node cv cp cl cr) rv
          have h3 : (node cv cp cl cr).size ≤ (node lv lp ll lr).size := by
            rw [← hd]
            split
            · exact size_delete_all_le _ _
            · exact le_rfl
          simp only [size] at *
          omega))

/-- Tail of `TreapNode.__xor__` after the two recursive calls: delete every copy of
the root value when it occurred in both operands, otherwise all but one copy. -/
def xorTail (v : α) (p : ℚ) (x y : TN α) (in_both : Bool) : TN α :=
  if in_both then delete_all (node v p x y) v else delete_all_except (node v p x y) v

/-- `TreapNode.__xor__`: symmetric difference.  The lower-priority root wins; every
copy of its value is removed from the other operand, the other operand is split at
the value, the original children are xor-ed against the parts, and the root value is
then fully removed (if shared) or deduplicated (if not). -/
def symdiff : TN α → TN α → TN α
  | nil, nil => nil
  | nil, node bv bp bl br => unique (node bv bp bl br)
  | node av ap al ar, nil => unique (node av ap al ar)
  | node av ap al ar, node bv bp bl br =>
    if ap < bp then
      match hd : delete_all (node bv bp bl br) av with
      | nil => delete_all (node av ap al ar) av
      | node cv cp cl cr =>
        xorTail av ap
          (symdiff al (split (node cv cp cl cr) av).1)
          (symdiff ar (split (node cv cp cl cr) av).2)
          (contains (node bv bp bl br) av)
    else
      match hd : delete_all (node av ap al ar) bv with
      | nil => delete_all (node bv bp bl br) bv
      | node cv cp cl cr =>
        xorTail bv bp
          (symdiff (split (node cv cp cl cr) bv).1 bl)
          (symdiff (split (node cv cp cl cr) bv).2 br)
          (contains (node av ap al ar) bv)
termination_by a b => a.size + b.size
decreasing_by
  all_goals
    (rename_i av ap al ar bv bp bl br hc
     first
       | (have h1 := size_split (node cv cp cl cr) av
          have h2 := size_delete_all_le (node bv bp bl br) av
          rw [hd] at h2
          simp only [size] at *
          omega)
       | (have h1 := size_split (node cv cp cl cr) bv
          have h2 := size_delete_all_le (node av ap al ar) bv
          rw [hd] at h2
          simp only [size] at *
          omega))

/-- `TreapNode.isdisjoint`.  The `random() < 0.5` that decides whether to swap the
operands is modelled by an oracle `coin` consulted on the current operand pair; all
claims proved below hold for every oracle. -/
def isdisjoint (coin : TN α → TN α → Bool) : TN α → TN α → Bool
  | nil, _ => true
  | node _ _ _ _, nil => true
  | node av ap al ar, node bv bp bl br =>
    if coin (node av ap al ar) (node bv bp bl br) then
      if contains (node av ap al ar) bv then false
      else
        isdisjoint coin bl (split (node av ap al ar) bv).1 &&
        isdisjoint coin br (split (node av ap al ar) bv).2
    else
      if contains (node bv bp bl br) av then false
      else
        isdisjoint coin al (split (node bv bp bl br) av).1 &&
        isdisjoint coin ar (split (node bv bp bl br) av).2
termination_by a b => a.size + b.size
decreasing_by
  all_goals
    (first
       | (have h1 := size_split (node lv lp ll lr) rv
          simp only [size] at *
          omega)
       | (have h1 := size_split (node rv rp rl rr) lv
          simp only [size] at *
          omega))

/-- `TreapNode.__le__`: `not (self.copy() - other)`.  A `None` receiver raises
`AttributeError` on `None.copy()` before anything else happens. -/
def leE : TN α → TN α → Except PyErr Bool
  | nil, _ => .error .attr
  | node av ap al ar, b => .ok (decide (sub (copy (node av ap al ar)) b = nil))

/-- `TreapNode.__ge__`: `not (other.copy() - self)`.  A `None` second operand raises
`AttributeError` on `None.copy()`. -/
def geE : TN α → TN α → Except PyErr Bool
  | _, nil => .error .attr
  | a, node bv bp bl br => .ok (decide (sub (copy (node bv bp bl br)) a = nil))

/-- `TreapNode.__lt__`: `self.copy().unique() != other.copy().unique() and self <= other`,
where `!=` compares in-order value sequences and `and` short-circuits.  Either operand
being `None` raises `AttributeError` on its `.copy()`. -/
def ltE : TN α → TN α → Except PyErr Bool
  | nil, _ => .error .attr
  | node _ _ _ _, nil => .error .attr
  | node av ap al ar, node bv bp bl br =>
    if toList (unique (copy (node av ap al ar))) ≠ toList (unique (copy (node bv bp bl br)))
    then leE (node av ap al ar) (node bv bp bl br)
    else .ok false

/-- `TreapNode.__gt__`: `self.copy().unique() != other.copy().unique() and self >= other`. -/
def gtE : TN α → TN α → Except PyErr Bool
  | nil, _ => .error .attr
  | node _ _ _ _, nil => .error .attr
  | node av ap al ar, node bv bp bl br =>
    if toList (unique (copy (node av ap al ar))) ≠ toList (unique (copy (node bv bp bl br)))
    then geE (node av ap al ar) (node bv bp bl br)
    else .ok false

/-- `Treap.search`: delegate to the root when it exists, otherwise raise the
`ValueError` "... not in treap" (the `notFound` kind, not the `empty` kind). -/
def searchT : TN α → α → Except PyErr (TN α)
  | nil, _ => .error .notFound
  | node w q l r, v => search (node w q l r) v

/-- `Treap.delete`: when the root exists the deletion runs and mutates the root, but
the missing `return` in the source makes the method fall through to
`raise ValueError(f"{value} not in treap")` in every case.  The result is the final
root paired with the error kind that escapes (always `notFound`). -/
def treapDelete (t : TN α) (v : α) : TN α × PyErr :=
  match t with
  | nil => (nil, .notFound)
  | node w q l r =>
    match delete (node w q l r) v with
    | some t' => (t', .notFound)
    | none => (node w q l r, .notFound)

/-- `Treap.min_`: leftmost node of the root, or the `ValueError`
"empty treap has no min" (the `empty` kind). -/
def minT : TN α → Except PyErr (TN α)
  | nil => .error .empty
  | node w q nil r => .ok (node w q nil r)
  | node _ _ (node lv lp ll lr) _ => minT (node lv lp ll lr)

/-- `Treap.max_`: rightmost node of the root, or the `ValueError`
"empty treap has no max" (the `empty` kind). -/
def maxT : TN α → Except PyErr (TN α)
  | nil => .error .empty
  | node w q l nil => .ok (node w q l nil)
  | node _ _ _ (node rv rp rl rr) => maxT (node rv rp rl rr)

/-- `Treap.isdisjoint`: `not self or not other or self.root.isdisjoint(other.root)` —
an empty operand short-circuits to `True` before any node-level work. -/
def isdisjointT (coin : TN α → TN α → Bool) : TN α → TN α → Bool
  | nil, _ => true
  | node _ _ _ _, nil => true
  | node av ap al ar, node bv bp bl br => isdisjoint coin (node av ap al ar) (node bv bp bl br)

/-- `Treap.__or__`: unions copies of both roots (the copies make the Python-level
operation non-destructive; in this pure model `copy` is the identity). -/
def treapOr (a b : TN α) : TN α := union (copy a) (copy b)

/-- `Treap.__and__`: intersects copies of both roots. -/
def treapAnd (a b : TN α) : TN α := inter (copy a) (copy b)

/-- `Treap.__xor__`: symmetric difference of copies of both roots. -/
def treapXor (a b : TN α) : TN α := symdiff (copy a) (copy b)

/-- `Treap.__sub__`: difference of a copy of the left root and the right root (only
the left operand is mutated by `TreapNode.__sub__`, so only it is copied). -/
def treapSub (a b : TN α) : TN α := sub (copy a) b

/-- `Treap.insert` (and the per-element step of the `Treap` constructor): delegate to
the root, or create a fresh root.  Both coincide with node-level `insert` on `nil`. -/
def treapInsert (t : TN α) (v : α) (p : ℚ) : TN α := insert t v p


/-- Weak order invariant (the one the code actually maintains): every value in the
left subtree is ≤ the node's value, every value in the right subtree is ≥ it. -/
def bst : TN α → Bool
  | nil => true
  | node v _ l r =>
    decide (∀ x ∈ toList l, x ≤ v) && decide (∀ x ∈ toList r, v ≤ x) && bst l && bst r

/-- The order invariant exactly as the specification states it: values in the left
subtree strictly precede the node's value, equal values sit to the right. -/
def strictBst : TN α → Bool
  | nil => true
  | node v _ l r =>
    decide (∀ x ∈ toList l, x < v) && decide (∀ x ∈ toList r, v ≤ x) &&
      strictBst l && strictBst r

/-- Heap invariant: a node's priority is numerically ≤ every priority below it. -/
def heap : TN α → Bool
  | nil => true
  | node _ p l r =>
    decide (∀ x ∈ prios l, p ≤ x) && decide (∀ x ∈ prios r, p ≤ x) && heap l && heap r

/-- All stored priorities are positive.  `random()` draws from `[0, 1)` and the
synthetic `0.0` priorities used by `split`/`join`/`__sub__` never survive into a
result, so trees built with nonzero draws satisfy this throughout. -/
def posPrio : TN α → Bool
  | nil => true
  | node _ p l r => decide (0 < p) && posPrio l && posPrio r

theorem bst_node_iff {v : α} {p : ℚ} {l r : TN α} :
    bst (node v p l r) = true ↔
      (∀ x ∈ toList l, x ≤ v) ∧ (∀ x ∈ toList r, v ≤ x) ∧ bst l = true ∧ bst r = true := by
  simp [bst, and_assoc]

theorem heap_node_iff {v : α} {p : ℚ} {l r : TN α} :
    heap (node v p l r) = true ↔
      (∀ x ∈ prios l, p ≤ x) ∧ (∀ x ∈ prios r, p ≤ x) ∧ heap l = true ∧ heap r = true := by
  simp [heap, and_assoc]

theorem posPrio_node_iff {v : α} {p : ℚ} {l r : TN α} :
    posPrio (node v p l r) = true ↔ 0 < p ∧ posPrio l = true ∧ posPrio r = true := by
  simp [posPrio, and_assoc]

theorem posPrio_iff_forall {t : TN α} : posPrio t = true ↔ ∀ x ∈ prios t, 0 < x := by
  induction t with
  | nil => simp [posPrio, prios]
  | node v p l r ihl ihr =>
    rw [posPrio_node_iff, ihl, ihr]
    simp only [prios, List.mem_append, List.mem_cons]
    constructor
    · rintro ⟨hp, hl, hr⟩ x hx
      rcases hx with hx | hx | hx
      · exact hl x hx
      · exact hx ▸ hp
      · exact hr x hx
    · intro h
      exact ⟨h p (Or.inr (Or.inl rfl)), fun x hx => h x (Or.inl hx),
        fun x hx => h x (Or.inr (Or.inr hx))⟩

theorem sorted_toList {t : TN α} (hb : bst t = true) :
    (toList t).Sorted (· ≤ ·) := by
  induction t with
  | nil => simp [toList]
  | node v p l r ihl ihr =>
    rw [bst_node_iff] at hb
    obtain ⟨hl, hr, hbl, hbr⟩ := hb
    rw [toList]
    rw [show ((toList l ++ v :: toList r).Sorted fun a b => a ≤ b) =
      ((toList l ++ v :: toList r).Pairwise fun a b => a ≤ b) from rfl]
    rw [List.pairwise_append]
    refine ⟨ihl hbl, ?_, ?_⟩
    · rw [List.pairwise_cons]
      exact ⟨hr, ihr hbr⟩
    · intro x hx y hy
      rcases List.mem_cons.mp hy with rfl | hy
      · exact hl x hx
      · exact le_trans (hl x hx) (hr y hy)

theorem heap_prio_le {t : TN α} (hh : heap t = true) : ∀ x ∈ prios t, t.prio ≤ x := by
  cases t with
  | nil => simp [prios]
  | node v p l r =>
    rw [heap_node_iff] at hh
    obtain ⟨hl, hr, _, _⟩ := hh
    intro x hx
    rw [prios, List.mem_append, List.mem_cons] at hx
    rcases hx with hx | hx | hx
    · exact hl x hx
    · exact hx ▸ le_rfl
    · exact hr x hx

theorem contains_iff_mem {t : TN α} {v : α} (hb : bst t = true) :
    contains t v = true ↔ v ∈ toList t := by
  induction t with
  | nil => simp [contains, toList]
  | node w p l r ihl ihr =>
    rw [bst_node_iff] at hb
    obtain ⟨hl, hr, hbl, hbr⟩ := hb
    rw [contains, toList]
    by_cases hvw : v = w
    · simp [hvw]
    · rw [if_neg hvw]
      by_cases hlt : v < w
      · rw [if_pos hlt, ihl hbl]
        simp only [List.mem_append, List.mem_cons]
        constructor
        · exact Or.inl
        · rintro (h | h | h)
          · exact h
          · exact absurd h hvw
          · exact absurd (hr v h) (not_le.mpr hlt)
      · rw [if_neg hlt, ihr hbr]
        have hgt : w < v := lt_of_le_of_ne (not_lt.mp hlt) (Ne.symm hvw)
        simp only [List.mem_append, List.mem_cons]
        constructor
        · intro h
          exact Or.inr (Or.inr h)
        · rintro (h | h | h)
          · exact absurd (hl v h) (not_le.mpr hgt)
          · exact absurd h hvw
          · exact h

theorem toList_rotateLeft (t : TN α) : toList (rotateLeft t) = toList t := by
  match t with
  | nil => rfl
  | node v p l nil => rfl
  | node v p l (node rv rp rl rr) => simp [rotateLeft, toList]

theorem toList_rotateRight (t : TN α) : toList (rotateRight t) = toList t := by
  match t with
  | nil => rfl
  | node v p nil r => rfl
  | node v p (node lv lp ll lr) r => simp [rotateRight, toList]

theorem prios_rotateLeft (t : TN α) : prios (rotateLeft t) = prios t := by
  match t with
  | nil => rfl
  | node v p l nil => rfl
  | node v p l (node rv rp rl rr) => simp [rotateLeft, prios]

theorem prios_rotateRight (t : TN α) : prios (rotateRight t) = prios t := by
  match t with
  | nil => rfl
  | node v p nil r => rfl
  | node v p (node lv lp ll lr) r => simp [rotateRight, prios]

/-- Specification-side description of where the stable insert places a value in a
sequence: after every element ≤ it, before the first strictly greater element. -/
def insLe (v : α) : List α → List α
  | [] => [v]
  | x :: xs => if x ≤ v then x :: insLe v xs else v :: x :: xs

theorem mem_insLe {v x : α} {l : List α} : x ∈ insLe v l ↔ x = v ∨ x ∈ l := by
  induction l with
  | nil => simp [insLe]
  | cons y ys ih =>
    rw [insLe]
    by_cases h : y ≤ v
    · rw [if_pos h]
      simp only [List.mem_cons, ih]
      tauto
    · rw [if_neg h]
      simp only [List.mem_cons]

theorem insLe_append_gt {v w : α} (hvw : v < w) (L R : List α) :
    insLe v (L ++ w :: R) = insLe v L ++ w :: R := by
  induction L with
  | nil => simp [insLe, not_le.mpr hvw]
  | cons x xs ih =>
    by_cases h : x ≤ v
    · simp only [List.cons_append, List.append_eq, insLe, if_pos h, ih]
    · simp only [List.cons_append, List.append_eq, insLe, if_neg h]

theorem insLe_append_le {v w : α} (hwv : w ≤ v) (L R : List α)
    (hL : ∀ x ∈ L, x ≤ v) :
    insLe v (L ++ w :: R) = L ++ w :: insLe v R := by
  induction L with
  | nil => simp [insLe, hwv]
  | cons x xs ih =>
    simp only [List.cons_append, List.append_eq, insLe, if_pos (hL x (List.mem_cons_self x xs)),
      ih fun y hy => hL y (List.mem_cons_of_mem x hy)]

theorem toList_insert {t : TN α} (v : α) (p : ℚ) (hb : bst t = true) :
    toList (insert t v p) = insLe v (toList t) := by
  induction t with
  | nil => simp [insert, toList, insLe]
  | node w q l r ihl ihr =>
    rw [bst_node_iff] at hb
    obtain ⟨hl, hr, hbl, hbr⟩ := hb
    rw [insert]
    by_cases hv : v < w
    · rw [if_pos hv]
      have hres : toList (if (insert l v p).prio < q
          then rotateRight (node w q (insert l v p) r)
          else node w q (insert l v p) r) = toList (insert l v p) ++ w :: toList r := by
        split
        · rw [toList_rotateRight, toList]
        · rw [toList]
      rw [hres, ihl hbl, toList, insLe_append_gt hv]
    · rw [if_neg hv]
      have hres : toList (if (insert r v p).prio < q
          then rotateLeft (node w q l (insert r v p))
          else node w q l (insert r v p)) = toList l ++ w :: toList (insert r v p) := by
        split
        · rw [toList_rotateLeft, toList]
        · rw [toList]
      rw [hres, ihr hbr, toList, insLe_append_le (not_lt.mp hv) _ _
        fun x hx => le_trans (hl x hx) (not_lt.mp hv)]

theorem bst_rotateLeft {t : TN α} (hb : bst t = true) : bst (rotateLeft t) = true := by
  match t with
  | nil => exact hb
  | node v p l nil => exact hb
  | node v p l (node rv rp rl rr) =>
    rw [bst_node_iff] at hb
    obtain ⟨hl, hr, hbl, hbr⟩ := hb
    rw [bst_node_iff] at hbr
    obtain ⟨hrl, hrr, hbrl, hbrr⟩ := hbr
    have hvrv : v ≤ rv := hr rv (by simp [toList])
    rw [rotateLeft, bst_node_iff]
    refine ⟨?_, ?_, ?_, hbrr⟩
    · intro x hx
      rw [toList, List.mem_append, List.mem_cons] at hx
      rcases hx with hx | hx | hx
      · exact le_trans (hl x hx) hvrv
      · exact hx ▸ hvrv
      · exact hrl x hx
    · exact hrr
    · rw [bst_node_iff]
      refine ⟨hl, ?_, hbl, hbrl⟩
      intro x hx
      exact hr x (by rw [toList]; exact List.mem_append.mpr (Or.inl hx))

theorem bst_rotateRight {t : TN α} (hb : bst t = true) : bst (rotateRight t) = true := by
  match t with
  | nil => exact hb
  | node v p nil r => exact hb
  | node v p (node lv lp ll lr) r =>
    rw [bst_node_iff] at hb
    obtain ⟨hl, hr, hbl, hbr⟩ := hb
    rw [bst_node_iff] at hbl
    obtain ⟨hll, hlr, hbll, hblr⟩ := hbl
    have hlvv : lv ≤ v := hl lv (by simp [toList])
    rw [rotateRight, bst_node_iff]
    refine ⟨hll, ?_, hbll, ?_⟩
    · intro x hx
      rw [toList, List.mem_append, List.mem_cons] at hx
      rcases hx with hx | hx | hx
      · exact hlr x hx
      · exact hx ▸ hlvv
      · exact le_trans hlvv (hr x hx)
    · rw [bst_node_iff]
      refine ⟨?_, hr, hblr, hbr⟩
      intro x hx
      exact hl x (by rw [toList]; exact List.mem_append.mpr (Or.inr (List.mem_cons_of_mem _ hx)))

theorem bst_insert {t : TN α} (v : α) (p : ℚ) (hb : bst t = true) :
    bst (insert t v p) = true := by
  induction t with
  | nil => simp [insert, bst, toList]
  | node w q l r ihl ihr =>
    rw [bst_node_iff] at hb
    obtain ⟨hl, hr, hbl, hbr⟩ := hb
    rw [insert]
    by_cases hv : v < w
    · rw [if_pos hv]
      have hmid : bst (node w q (insert l v p) r) = true := by
        rw [bst_node_iff]
        refine ⟨?_, hr, ihl hbl, hbr⟩
        intro x hx
        rw [toList_insert v p hbl, mem_insLe] at hx
        rcases hx with rfl | hx
        · exact le_of_lt hv
        · exact hl x hx
      show bst (if (l.insert v p).prio < q
        then (node w q (l.insert v p) r).rotateRight
        else node w q (l.insert v p) r) = true
      split
      · exact bst_rotateRight hmid
      · exact hmid
    · rw [if_neg hv]
      have hmid : bst (node w q l (insert r v p)) = true := by
        rw [bst_node_iff]
        refine ⟨hl, ?_, hbl, ihr hbr⟩
        intro x hx
        rw [toList_insert v p hbr, mem_insLe] at hx
        rcases hx with rfl | hx
        · exact not_lt.mp hv
        · exact hr x hx
      show bst (if (r.insert v p).prio < q
        then (node w q l (r.insert v p)).rotateLeft
        else node w q l (r.insert v p)) = true
      split
      · exact bst_rotateLeft hmid
      · exact hmid


theorem prios_insert (t : TN α) (v : α) (p : ℚ) :
    (prios (insert t v p)).Perm (p :: prios t) := by
  induction t with
  | nil => simp [insert, prios]
  | node w q l r ihl ihr =>
    rw [insert]
    by_cases hv : v < w
    · rw [if_pos hv]
      show (prios (if (l.insert v p).prio < q then (node w q (l.insert v p) r).rotateRight
        else node w q (l.insert v p) r)).Perm (p :: prios (node w q l r))
      have hmid : (prios (node w q (l.insert v p) r)).Perm (p :: prios (node w q l r)) := by
        rw [prios, prios]
        exact ihl.append_right _
      split
      · rw [prios_rotateRight]
        exact hmid
      · exact hmid
    · rw [if_neg hv]
      show (prios (if (r.insert v p).prio < q then (node w q l (r.insert v p)).rotateLeft
        else node w q l (r.insert v p))).Perm (p :: prios (node w q l r))
      have hmid : (prios (node w q l (r.insert v p))).Perm (p :: prios (node w q l r)) := by
        rw [prios, prios]
        refine ((ihr.cons q).append_left _).trans ?_
        refine (((List.Perm.swap p q _)).append_left _).trans ?_
        exact List.perm_middle
      split
      · rw [prios_rotateLeft]
        exact hmid
      · exact hmid

theorem posPrio_insert {t : TN α} (v : α) {p : ℚ} (hp : 0 < p)
    (ht : posPrio t = true) : posPrio (insert t v p) = true := by
  rw [posPrio_iff_forall] at ht ⊢
  intro x hx
  rcases List.mem_cons.mp ((prios_insert t v p).mem_iff.mp hx) with rfl | hx
  · exact hp
  · exact ht x hx

theorem heap_insert {t : TN α} (v : α) (p : ℚ) (hh : heap t = true) :
    heap (insert t v p) = true := by
  induction t with
  | nil => simp [insert, heap, prios]
  | node w q l r ihl ihr =>
    rw [heap_node_iff] at hh
    obtain ⟨hql, hqr, hhl, hhr⟩ := hh
    rw [insert]
    by_cases hv : v < w
    · rw [if_pos hv]
      have hperm := prios_insert l v p
      have hhl' := ihl hhl
      have hcl : (prios l).countP (fun y => decide (y < q)) = 0 :=
        List.countP_eq_zero.mpr fun a ha => by
          simpa using not_lt.mpr (hql a ha)
      show heap (if (l.insert v p).prio < q then (node w q (l.insert v p) r).rotateRight
        else node w q (l.insert v p) r) = true
      by_cases hp : (l.insert v p).prio < q
      · rw [if_pos hp]
        rcases hEq : l.insert v p with _ | ⟨x, px, A, B⟩
        · exact absurd hEq (insert_ne_nil l v p)
        rw [hEq] at hperm hhl' hp
        have hpx : px < q := hp
        have hcnt : (prios A).countP (fun y => decide (y < q)) +
            ((px :: prios B).countP (fun y => decide (y < q))) =
            (p :: prios l).countP (fun y => decide (y < q)) := by
          have := hperm.countP_eq (fun y => decide (y < q))
          rw [prios, List.countP_append] at this
          exact this
        rw [List.countP_cons, List.countP_cons, hcl] at hcnt
        have e1 : (if decide (px < q) = true then 1 else 0) = 1 := by simp [hpx]
        have hplt : p < q := by
          by_contra hh
          rw [e1, if_neg (by simpa using hh)] at hcnt
          omega
        have e2 : (if decide (p < q) = true then 1 else 0) = 1 := by simp [hplt]
        rw [e1, e2] at hcnt
        have hcA : (prios A).countP (fun y => decide (y < q)) = 0 := by omega
        have hcB : (prios B).countP (fun y => decide (y < q)) = 0 := by omega
        have hqA : ∀ y ∈ prios A, q ≤ y := fun y hy => by
          have := List.countP_eq_zero.mp hcA y hy
          simpa [not_lt] using this
        have hqB : ∀ y ∈ prios B, q ≤ y := fun y hy => by
          have := List.countP_eq_zero.mp hcB y hy
          simpa [not_lt] using this
        rw [heap_node_iff] at hhl'
        obtain ⟨hxA, hxB, hhA, hhB⟩ := hhl'
        rw [rotateRight, heap_node_iff]
        refine ⟨hxA, ?_, hhA, ?_⟩
        · intro y hy
          rw [prios, List.mem_append, List.mem_cons] at hy
          rcases hy with hy | hy | hy
          · exact hxB y hy
          · exact hy ▸ le_of_lt hpx
          · exact le_trans (le_of_lt hpx) (hqr y hy)
        · rw [heap_node_iff]
          exact ⟨hqB, hqr, hhB, hhr⟩
      · rw [if_neg hp]
        rw [heap_node_iff]
        refine ⟨?_, hqr, hhl', hhr⟩
        intro y hy
        rcases List.mem_cons.mp (hperm.mem_iff.mp hy) with rfl | hyl
        · by_contra hqp
          push_neg at hqp
          have hproot := heap_prio_le hhl' y (hperm.mem_iff.mpr (List.mem_cons_self _ _))
          exact hp (lt_of_le_of_lt hproot hqp)
        · exact hql y hyl
    · rw [if_neg hv]
      have hperm := prios_insert r v p
      have hhr' := ihr hhr
      have hcr : (prios r).countP (fun y => decide (y < q)) = 0 :=
        List.countP_eq_zero.mpr fun a ha => by
          simpa using not_lt.mpr (hqr a ha)
      show heap (if (r.insert v p).prio < q then (node w q l (r.insert v p)).rotateLeft
        else node w q l (r.insert v p)) = true
      by_cases hp : (r.insert v p).prio < q
      · rw [if_pos hp]
        rcases hEq : r.insert v p with _ | ⟨x, px, A, B⟩
        · exact absurd hEq (insert_ne_nil r v p)
        rw [hEq] at hperm hhr' hp
        have hpx : px < q := hp
        have hcnt : (prios A).countP (fun y => decide (y < q)) +
            ((px :: prios B).countP (fun y => decide (y < q))) =
            (p :: prios r).countP (fun y => decide (y < q)) := by
          have := hperm.countP_eq (fun y => decide (y < q))
          rw [prios, List.countP_append] at this
          exact this
        rw [List.countP_cons, List.countP_cons, hcr] at hcnt
        have e1 : (if decide (px < q) = true then 1 else 0) = 1 := by simp [hpx]
        have hplt : p < q := by
          by_contra hh
          rw [e1, if_neg (by simpa using hh)] at hcnt
          omega
        have e2 : (if decide (p < q) = true then 1 else 0) = 1 := by simp [hplt]
        rw [e1, e2] at hcnt
        have hcA : (prios A).countP (fun y => decide (y < q)) = 0 := by omega
        have hcB : (prios B).countP (fun y => decide (y < q)) = 0 := by omega
        have hqA : ∀ y ∈ prios A, q ≤ y := fun y hy => by
          have := List.countP_eq_zero.mp hcA y hy
          simpa [not_lt] using this
        rw [heap_node_iff] at hhr'
        obtain ⟨hxA, hxB, hhA, hhB⟩ := hhr'
        rw [rotateLeft, heap_node_iff]
        refine ⟨?_, hxB, ?_, hhB⟩
        · intro y hy
          rw [prios, List.mem_append, List.mem_cons] at hy
          rcases hy with hy | hy | hy
          · exact le_trans (le_of_lt hpx) (hql y hy)
          · exact hy ▸ le_of_lt hpx
          · exact hxA y hy
        · rw [heap_node_iff]
          exact ⟨hql, hqA, hhl, hhA⟩
      · rw [if_neg hp]
        rw [heap_node_iff]
        refine ⟨hql, ?_, hhl, hhr'⟩
        intro y hy
        rcases List.mem_cons.mp (hperm.mem_iff.mp hy) with rfl | hyr
        · by_contra hqp
          push_neg at hqp
          have hproot := heap_prio_le hhr' y (hperm.mem_iff.mpr (List.mem_cons_self _ _))
          exact hp (lt_of_le_of_lt hproot hqp)
        · exact hqr y hyr


theorem takeWhile_append_break {p : α → Bool} {w : α} (hw : p w = false) (L R : List α) :
    ((L ++ w :: R).takeWhile p) = L.takeWhile p := by
  induction L with
  | nil => simp [List.takeWhile_cons, hw]
  | cons x xs ih =>
    rw [List.cons_append, List.takeWhile_cons, List.takeWhile_cons]
    cases hx : p x
    · rfl
    · rw [ih]

theorem dropWhile_append_break {p : α → Bool} {w : α} (hw : p w = false) (L R : List α) :
    ((L ++ w :: R).dropWhile p) = L.dropWhile p ++ w :: R := by
  induction L with
  | nil => simp [List.dropWhile_cons, hw]
  | cons x xs ih =>
    rw [List.cons_append, List.dropWhile_cons, List.dropWhile_cons]
    cases hx : p x
    · simp
    · simpa using ih

theorem takeWhile_append_pass {p : α → Bool} {w : α} (hw : p w = true) (L R : List α)
    (hL : ∀ x ∈ L, p x = true) :
    ((L ++ w :: R).takeWhile p) = L ++ w :: R.takeWhile p := by
  induction L with
  | nil => simp [List.takeWhile_cons, hw]
  | cons x xs ih =>
    rw [List.cons_append, List.takeWhile_cons, hL x (List.mem_cons_self x xs)]
    simpa using ih fun y hy => hL y (List.mem_cons_of_mem x hy)

theorem dropWhile_append_pass {p : α → Bool} {w : α} (hw : p w = true) (L R : List α)
    (hL : ∀ x ∈ L, p x = true) :
    ((L ++ w :: R).dropWhile p) = R.dropWhile p := by
  induction L with
  | nil => simp [List.dropWhile_cons, hw]
  | cons x xs ih =>
    rw [List.cons_append, List.dropWhile_cons, hL x (List.mem_cons_self x xs)]
    simpa using ih fun y hy => hL y (List.mem_cons_of_mem x hy)

theorem insert_zero_parts {t : TN α} (v : α) (hpos : posPrio t = true)
    (hb : bst t = true) :
    ∃ A B, insert t v 0 = node v 0 A B ∧
      toList A = (toList t).takeWhile (fun x => decide (x ≤ v)) ∧
      toList B = (toList t).dropWhile (fun x => decide (x ≤ v)) := by
  induction t with
  | nil => exact ⟨nil, nil, by simp [insert], by simp [toList], by simp [toList]⟩
  | node w q l r ihl ihr =>
    rw [posPrio_node_iff] at hpos
    obtain ⟨hq, hpl, hpr⟩ := hpos
    rw [bst_node_iff] at hb
    obtain ⟨hl, hr, hbl, hbr⟩ := hb
    rw [insert]
    by_cases hv : v < w
    · rw [if_pos hv]
      obtain ⟨A, B, hshape, hA, hB⟩ := ihl hpl hbl
      refine ⟨A, node w q B r, ?_, ?_, ?_⟩
      · show (if (l.insert v 0).prio < q then (node w q (l.insert v 0) r).rotateRight
          else node w q (l.insert v 0) r) = node v 0 A (node w q B r)
        rw [hshape]
        rw [if_pos (show (node v 0 A B).prio < q from hq)]
        rfl
      · rw [hA, toList, takeWhile_append_break (by simp [not_le.mpr hv])]
      · rw [toList, toList, hB, dropWhile_append_break (by simp [not_le.mpr hv])]
    · rw [if_neg hv]
      obtain ⟨A, B, hshape, hA, hB⟩ := ihr hpr hbr
      have hwv : w ≤ v := not_lt.mp hv
      refine ⟨node w q l A, B, ?_, ?_, ?_⟩
      · show (if (r.insert v 0).prio < q then (node w q l (r.insert v 0)).rotateLeft
          else node w q l (r.insert v 0)) = node v 0 (node w q l A) B
        rw [hshape]
        rw [if_pos (show (node v 0 A B).prio < q from hq)]
        rfl
      · rw [toList, toList, hA,
          takeWhile_append_pass (by simp [hwv]) _ _
            fun x hx => by simp [le_trans (hl x hx) hwv]]
      · rw [toList, hB, dropWhile_append_pass (by simp [hwv]) _ _
            fun x hx => by simp [le_trans (hl x hx) hwv]]

theorem insert_zero_eq_split {t : TN α} (v : α) (hpos : posPrio t = true)
    (hb : bst t = true) :
    insert t v 0 = node v 0 (split t v).1 (split t v).2 := by
  obtain ⟨A, B, hshape, -, -⟩ := insert_zero_parts v hpos hb
  rw [split, hshape]

theorem split_toList₁ {t : TN α} (v : α) (hpos : posPrio t = true)
    (hb : bst t = true) :
    toList (split t v).1 = (toList t).takeWhile (fun x => decide (x ≤ v)) := by
  obtain ⟨A, B, hshape, hA, hB⟩ := insert_zero_parts v hpos hb
  rw [split, hshape]
  exact hA

theorem split_toList₂ {t : TN α} (v : α) (hpos : posPrio t = true)
    (hb : bst t = true) :
    toList (split t v).2 = (toList t).dropWhile (fun x => decide (x ≤ v)) := by
  obtain ⟨A, B, hshape, hA, hB⟩ := insert_zero_parts v hpos hb
  rw [split, hshape]
  exact hB

theorem toList_split_append {t : TN α} (v : α) (hpos : posPrio t = true)
    (hb : bst t = true) :
    toList (split t v).1 ++ toList (split t v).2 = toList t := by
  rw [split_toList₁ v hpos hb, split_toList₂ v hpos hb,
    List.takeWhile_append_dropWhile]

theorem bst_split {t : TN α} (v : α) (hpos : posPrio t = true) (hb : bst t = true) :
    bst (split t v).1 = true ∧ bst (split t v).2 = true ∧
      (∀ x ∈ toList (split t v).1, x ≤ v) ∧ (∀ x ∈ toList (split t v).2, v ≤ x) := by
  have hins := bst_insert v 0 hb
  rw [insert_zero_eq_split v hpos hb, bst_node_iff] at hins
  obtain ⟨h1, h2, h3, h4⟩ := hins
  exact ⟨h3, h4, h1, h2⟩

theorem heap_split {t : TN α} (v : α) (hpos : posPrio t = true) (hb : bst t = true)
    (hh : heap t = true) :
    heap (split t v).1 = true ∧ heap (split t v).2 = true := by
  have hins := heap_insert v 0 hh
  rw [insert_zero_eq_split v hpos hb, heap_node_iff] at hins
  exact ⟨hins.2.2.1, hins.2.2.2⟩

theorem prios_split_perm {t : TN α} (v : α) (hpos : posPrio t = true)
    (hb : bst t = true) :
    (prios (split t v).1 ++ prios (split t v).2).Perm (prios t) := by
  have hperm := prios_insert t v 0
  rw [insert_zero_eq_split v hpos hb] at hperm
  rw [prios] at hperm
  have h2 := (List.perm_middle.symm.trans hperm)
  exact h2.cons_inv

theorem posPrio_split {t : TN α} (v : α) (hpos : posPrio t = true)
    (hb : bst t = true) :
    posPrio (split t v).1 = true ∧ posPrio (split t v).2 = true := by
  have hperm := prios_split_perm v hpos hb
  rw [posPrio_iff_forall] at hpos
  constructor
  · rw [posPrio_iff_forall]
    intro x hx
    exact hpos x (hperm.mem_iff.mp (List.mem_append.mpr (Or.inl hx)))
  · rw [posPrio_iff_forall]
    intro x hx
    exact hpos x (hperm.mem_iff.mp (List.mem_append.mpr (Or.inr hx)))

theorem mem_dropWhile_sorted {L : List α} (hs : L.Sorted (· ≤ ·)) {v x : α}
    (hx : x ∈ L.dropWhile (fun y => decide (y ≤ v))) : v < x := by
  induction L with
  | nil => simp [List.dropWhile] at hx
  | cons a as ih =>
    rw [List.dropWhile_cons] at hx
    by_cases ha : a ≤ v
    · rw [if_pos (by simpa using ha)] at hx
      exact ih hs.of_cons hx
    · rw [if_neg (by simpa using ha)] at hx
      rcases List.mem_cons.mp hx with rfl | hx
      · exact not_le.mp ha
      · exact lt_of_lt_of_le (not_le.mp ha) (List.rel_of_sorted_cons hs x hx)

theorem split_snd_gt {t : TN α} (v : α) (hpos : posPrio t = true)
    (hb : bst t = true) : ∀ x ∈ toList (split t v).2, v < x := by
  intro x hx
  rw [split_toList₂ v hpos hb] at hx
  exact mem_dropWhile_sorted (sorted_toList hb) hx

theorem split_fst_le {t : TN α} (v : α) (hpos : posPrio t = true)
    (hb : bst t = true) : ∀ x ∈ toList (split t v).1, x ≤ v := by
  intro x hx
  rw [split_toList₁ v hpos hb] at hx
  simpa using List.mem_takeWhile_imp hx


theorem toList_delete_root (w : α) (q : ℚ) (l r : TN α) :
    toList (delete_root (node w q l r)) = toList l ++ toList r := by
  have H : ∀ n (w : α) (q : ℚ) (l r : TN α), size l + size r < n →
      toList (delete_root (node w q l r)) = toList l ++ toList r := by
    intro n
    induction n with
    | zero => intro _ _ _ _ h; omega
    | succ n ih =>
      intro w q l r hlt
      match l, r with
      | nil, r => rw [delete_root]; simp [toList]
      | node lv lp ll lr, nil => rw [delete_root]; simp [toList]
      | node lv lp ll lr, node rv rp rl rr =>
        rw [delete_root]
        by_cases hp : lp < rp
        · rw [if_pos hp, toList,
            ih w q lr (node rv rp rl rr) (by simp only [size] at hlt ⊢; omega)]
          simp [toList]
        · rw [if_neg hp, toList,
            ih w q (node lv lp ll lr) rl (by simp only [size] at hlt ⊢; omega)]
          simp [toList]
  exact H (size l + size r + 1) w q l r (by omega)

theorem prios_delete_root_perm (w : α) (q : ℚ) (l r : TN α) :
    (prios (delete_root (node w q l r))).Perm (prios l ++ prios r) := by
  have H : ∀ n (w : α) (q : ℚ) (l r : TN α), size l + size r < n →
      (prios (delete_root (node w q l r))).Perm (prios l ++ prios r) := by
    intro n
    induction n with
    | zero => intro _ _ _ _ h; omega
    | succ n ih =>
      intro w q l r hlt
      match l, r with
      | nil, r => rw [delete_root]; simp [prios]
      | node lv lp ll lr, nil => rw [delete_root]; simp [prios]
      | node lv lp ll lr, node rv rp rl rr =>
        rw [delete_root]
        by_cases hp : lp < rp
        · rw [if_pos hp]
          simp only [prios]
          have hrec := ih w q lr (node rv rp rl rr) (by simp only [size] at hlt ⊢; omega)
          simp only [prios] at hrec
          rw [List.append_assoc, List.cons_append]
          exact (hrec.cons lp).append_left (prios ll)
        · rw [if_neg hp]
          simp only [prios]
          have hrec := ih w q (node lv lp ll lr) rl (by simp only [size] at hlt ⊢; omega)
          simp only [prios] at hrec
          refine (hrec.append_right (rp :: prios rr)).trans ?_
          rw [List.append_assoc]
  exact H (size l + size r + 1) w q l r (by omega)

theorem delete_at_root (w : α) (q : ℚ) (l r : TN α) :
    delete (node w q l r) w = some (delete_root (node w q l r)) := by
  have H : ∀ n (w : α) (q : ℚ) (l r : TN α), size l + size r < n →
      delete (node w q l r) w = some (delete_root (node w q l r)) := by
    intro n
    induction n with
    | zero => intro _ _ _ _ h; omega
    | succ n ih =>
      intro w q l r hlt
      match l, r with
      | nil, r => rw [delete_left_nil (lt_irrefl w) (lt_irrefl w), delete_root]
      | node lv lp ll lr, nil => rw [delete_right_nil (lt_irrefl w) (lt_irrefl w), delete_root]
      | node lv lp ll lr, node rv rp rl rr =>
        rw [delete_root]
        by_cases hp : lp < rp
        · rw [delete_both_left (lt_irrefl w) (lt_irrefl w) hp,
            ih w q lr (node rv rp rl rr) (by simp only [size] at hlt ⊢; omega),
            if_pos hp]
          rfl
        · rw [delete_both_right (lt_irrefl w) (lt_irrefl w) hp,
            ih w q (node lv lp ll lr) rl (by simp only [size] at hlt ⊢; omega),
            if_neg hp]
          rfl
  exact H (size l + size r + 1) w q l r (by omega)

theorem mem_of_delete {t : TN α} {v : α} {t' : TN α} (h : delete t v = some t') :
    v ∈ toList t := by
  induction t, v using delete.induct generalizing t' with
  | case1 v => rw [delete_nil_eq] at h; cases h
  | case2 w q l r v hg => rw [delete_guard hg] at h; cases h
  | case3 w q l r v hg hlt ih =>
    rw [delete_lt hg hlt, Option.map_eq_some'] at h
    obtain ⟨l', hl', rfl⟩ := h
    rw [toList]
    exact List.mem_append.mpr (Or.inl (ih hl'))
  | case4 w q l r v hg hnlt hgt ih =>
    rw [delete_gt hg hnlt hgt, Option.map_eq_some'] at h
    obtain ⟨r', hr', rfl⟩ := h
    rw [toList]
    exact List.mem_append.mpr (Or.inr (List.mem_cons_of_mem _ (ih hr')))
  | case5 w q r v hnlt hngt hg =>
    have hvw : v = w := le_antisymm (not_lt.mp hngt) (not_lt.mp hnlt)
    rw [toList, hvw]
    exact List.mem_append.mpr (Or.inr (List.mem_cons_self _ _))
  | case6 w q v hnlt hngt lv lp ll lr hg =>
    have hvw : v = w := le_antisymm (not_lt.mp hngt) (not_lt.mp hnlt)
    rw [toList, hvw]
    exact List.mem_append.mpr (Or.inr (List.mem_cons_self _ _))
  | case7 w q v hnlt hngt lv lp ll lr rv rp rl rr hp hg ih =>
    have hvw : v = w := le_antisymm (not_lt.mp hngt) (not_lt.mp hnlt)
    rw [toList, hvw]
    exact List.mem_append.mpr (Or.inr (List.mem_cons_self _ _))
  | case8 w q v hnlt hngt lv lp ll lr rv rp rl rr hp hg ih =>
    have hvw : v = w := le_antisymm (not_lt.mp hngt) (not_lt.mp hnlt)
    rw [toList, hvw]
    exact List.mem_append.mpr (Or.inr (List.mem_cons_self _ _))

theorem perm_erase_root {v : α} (L R : List α) :
    ((L ++ v :: R).erase v).Perm (L ++ R) := by
  have h1 : (L ++ v :: R).Perm (v :: ((L ++ v :: R).erase v)) :=
    List.perm_cons_erase (List.mem_append.mpr (Or.inr (List.mem_cons_self _ _)))
  have h2 : (L ++ v :: R).Perm (v :: (L ++ R)) := List.perm_middle
  exact (h1.symm.trans h2).cons_inv

theorem delete_perm {t : TN α} {v : α} {t' : TN α} (h : delete t v = some t') :
    (toList t').Perm ((toList t).erase v) := by
  induction t, v using delete.induct generalizing t' with
  | case1 v => rw [delete_nil_eq] at h; cases h
  | case2 w q l r v hg => rw [delete_guard hg] at h; cases h
  | case3 w q l r v hg hlt ih =>
    rw [delete_lt hg hlt, Option.map_eq_some'] at h
    obtain ⟨l', hl', rfl⟩ := h
    rw [toList, toList, List.erase_append_left _ (mem_of_delete hl')]
    exact (ih hl').append_right _
  | case4 w q l r v hg hnlt hgt ih =>
    rw [delete_gt hg hnlt hgt, Option.map_eq_some'] at h
    obtain ⟨r', hr', rfl⟩ := h
    have hvr : v ∈ toList r := mem_of_delete hr'
    rw [toList, toList]
    have h2 : ((toList l ++ w :: toList r).erase v).Perm
        (toList l ++ w :: (toList r).erase v) := by
      have e1 : (toList l ++ w :: toList r).Perm
          (v :: ((toList l ++ w :: toList r).erase v)) :=
        List.perm_cons_erase (by
          exact List.mem_append.mpr (Or.inr (List.mem_cons_of_mem _ hvr)))
      have e2 : (toList l ++ w :: toList r).Perm
          (v :: (toList l ++ w :: (toList r).erase v)) := by
        have e3 : (toList r).Perm (v :: (toList r).erase v) := List.perm_cons_erase hvr
        have e4 : (toList l ++ w :: toList r).Perm
            (toList l ++ w :: v :: (toList r).erase v) := (e3.cons w).append_left _
        refine e4.trans ?_
        have e5 : (w :: v :: (toList r).erase v).Perm (v :: w :: (toList r).erase v) :=
          List.Perm.swap v w _
        refine (e5.append_left (toList l)).trans ?_
        exact List.perm_middle
      exact (e1.symm.trans e2).cons_inv
    exact (((ih hr').cons w).append_left (toList l)).trans h2.symm
  | case5 w q r v hnlt hngt hg =>
    have hvw : v = w := le_antisymm (not_lt.mp hngt) (not_lt.mp hnlt)
    subst hvw
    rw [delete_left_nil hnlt hngt] at h
    cases h
    rw [toList]
    exact (perm_erase_root (toList nil) (toList r)).symm
  | case6 w q v hnlt hngt lv lp ll lr hg =>
    have hvw : v = w := le_antisymm (not_lt.mp hngt) (not_lt.mp hnlt)
    subst hvw
    rw [delete_right_nil hnlt hngt] at h
    cases h
    simpa [toList] using (perm_erase_root (toList (node lv lp ll lr)) ([] : List α)).symm
  | case7 w q v hnlt hngt lv lp ll lr rv rp rl rr hp hg ih =>
    have hvw : v = w := le_antisymm (not_lt.mp hngt) (not_lt.mp hnlt)
    subst hvw
    rw [delete_at_root] at h
    cases h
    rw [toList, toList_delete_root]
    exact (perm_erase_root _ _).symm
  | case8 w q v hnlt hngt lv lp ll lr rv rp rl rr hp hg ih =>
    have hvw : v = w := le_antisymm (not_lt.mp hngt) (not_lt.mp hnlt)
    subst hvw
    rw [delete_at_root] at h
    cases h
    rw [toList, toList_delete_root]
    exact (perm_erase_root _ _).symm

theorem mem_toList_delete_subset {t : TN α} {v : α} {t' : TN α}
    (h : delete t v = some t') : ∀ x ∈ toList t', x ∈ toList t :=
  fun x hx => List.erase_subset _ _ ((delete_perm h).mem_iff.mp hx)

theorem prios_delete_subset {t : TN α} {v : α} {t' : TN α} (h : delete t v = some t') :
    ∀ x ∈ prios t', x ∈ prios t := by
  induction t, v using delete.induct generalizing t' with
  | case1 v => rw [delete_nil_eq] at h; cases h
  | case2 w q l r v hg => rw [delete_guard hg] at h; cases h
  | case3 w q l r v hg hlt ih =>
    rw [delete_lt hg hlt, Option.map_eq_some'] at h
    obtain ⟨l', hl', rfl⟩ := h
    intro x hx
    rw [prios, List.mem_append] at hx ⊢
    rcases hx with hx | hx
    · exact Or.inl (ih hl' x hx)
    · exact Or.inr hx
  | case4 w q l r v hg hnlt hgt ih =>
    rw [delete_gt hg hnlt hgt, Option.map_eq_some'] at h
    obtain ⟨r', hr', rfl⟩ := h
    intro x hx
    rw [prios, List.mem_append, List.mem_cons] at hx ⊢
    rcases hx with hx | hx | hx
    · exact Or.inl hx
    · exact Or.inr (Or.inl hx)
    · exact Or.inr (Or.inr (ih hr' x hx))
  | case5 w q r v hnlt hngt hg =>
    rw [delete_left_nil hnlt hngt] at h
    cases h
    intro x hx
    rw [prios, List.mem_append, List.mem_cons]
    exact Or.inr (Or.inr hx)
  | case6 w q v hnlt hngt lv lp ll lr hg =>
    rw [delete_right_nil hnlt hngt] at h
    cases h
    intro x hx
    rw [prios, List.mem_append]
    exact Or.inl hx
  | case7 w q v hnlt hngt lv lp ll lr rv rp rl rr hp hg ih =>
    have hvw : v = w := le_antisymm (not_lt.mp hngt) (not_lt.mp hnlt)
    subst hvw
    rw [delete_at_root] at h
    cases h
    intro x hx
    have := (prios_delete_root_perm v q (node lv lp ll lr) (node rv rp rl rr)).mem_iff.mp hx
    rw [prios, List.mem_append, List.mem_cons]
    rcases List.mem_append.mp this with hx | hx
    · exact Or.inl hx
    · exact Or.inr (Or.inr hx)
  | case8 w q v hnlt hngt lv lp ll lr rv rp rl rr hp hg ih =>
    have hvw : v = w := le_antisymm (not_lt.mp hngt) (not_lt.mp hnlt)
    subst hvw
    rw [delete_at_root] at h
    cases h
    intro x hx
    have := (prios_delete_root_perm v q (node lv lp ll lr) (node rv rp rl rr)).mem_iff.mp hx
    rw [prios, List.mem_append, List.mem_cons]
    rcases List.mem_append.mp this with hx | hx
    · exact Or.inl hx
    · exact Or.inr (Or.inr hx)


theorem bst_delete_root {w : α} {q : ℚ} {l r : TN α}
    (hb : bst (node w q l r) = true) : bst (delete_root (node w q l r)) = true := by
  have H : ∀ n (w : α) (q : ℚ) (l r : TN α), size l + size r < n →
      bst (node w q l r) = true → bst (delete_root (node w q l r)) = true := by
    intro n
    induction n with
    | zero => intro _ _ _ _ h; omega
    | succ n ih =>
      intro w q l r hlt hb
      rw [bst_node_iff] at hb
      obtain ⟨hl, hr, hbl, hbr⟩ := hb
      match l, r with
      | nil, r => rw [delete_root]; exact hbr
      | node lv lp ll lr, nil => rw [delete_root]; exact hbl
      | node lv lp ll lr, node rv rp rl rr =>
        rw [bst_node_iff] at hbl hbr
        obtain ⟨hll, hlr, hbll, hblr⟩ := hbl
        obtain ⟨hrl, hrr, hbrl, hbrr⟩ := hbr
        have hlvw : lv ≤ w := hl lv (by
          rw [toList]; exact List.mem_append.mpr (Or.inr (List.mem_cons_self _ _)))
        have hwrv : w ≤ rv := hr rv (by
          rw [toList]; exact List.mem_append.mpr (Or.inr (List.mem_cons_self _ _)))
        rw [delete_root]
        by_cases hp : lp < rp
        · rw [if_pos hp, bst_node_iff]
          have hbmid : bst (node w q lr (node rv rp rl rr)) = true := by
            rw [bst_node_iff]
            refine ⟨?_, hr, hblr, ?_⟩
            · intro x hx
              exact hl x (by
                rw [toList]
                exact List.mem_append.mpr (Or.inr (List.mem_cons_of_mem _ hx)))
            · rw [bst_node_iff]
              exact ⟨hrl, hrr, hbrl, hbrr⟩
          refine ⟨hll, ?_, hbll, ?_⟩
          · intro x hx
            rw [toList_delete_root, List.mem_append] at hx
            rcases hx with hx | hx
            · exact hlr x hx
            · exact le_trans hlvw (hr x hx)
          · exact ih w q lr (node rv rp rl rr) (by simp only [size] at hlt ⊢; omega) hbmid
        · rw [if_neg hp, bst_node_iff]
          have hbmid : bst (node w q (node lv lp ll lr) rl) = true := by
            rw [bst_node_iff]
            refine ⟨hl, ?_, ?_, hbrl⟩
            · intro x hx
              exact hr x (by
                rw [toList]
                exact List.mem_append.mpr (Or.inl hx))
            · rw [bst_node_iff]
              exact ⟨hll, hlr, hbll, hblr⟩
          refine ⟨?_, hrr, ?_, hbrr⟩
          · intro x hx
            rw [toList_delete_root, List.mem_append] at hx
            rcases hx with hx | hx
            · exact le_trans (hl x hx) hwrv
            · exact hrl x hx
          · exact ih w q (node lv lp ll lr) rl (by simp only [size] at hlt ⊢; omega) hbmid
  exact H (size l + size r + 1) w q l r (by omega) hb

theorem heap_delete_root {w : α} {q : ℚ} {l r : TN α}
    (hl : heap l = true) (hr : heap r = true) :
    heap (delete_root (node w q l r)) = true := by
  have H : ∀ n (w : α) (q : ℚ) (l r : TN α), size l + size r < n →
      heap l = true → heap r = true → heap (delete_root (node w q l r)) = true := by
    intro n
    induction n with
    | zero => intro _ _ _ _ h; omega
    | succ n ih =>
      intro w q l r hlt hl hr
      match l, r with
      | nil, r => rw [delete_root]; exact hr
      | node lv lp ll lr, nil => rw [delete_root]; exact hl
      | node lv lp ll lr, node rv rp rl rr =>
        rw [heap_node_iff] at hl hr
        obtain ⟨hpll, hplr, hhll, hhlr⟩ := hl
        obtain ⟨hprl, hprr, hhrl, hhrr⟩ := hr
        rw [delete_root]
        by_cases hp : lp < rp
        · rw [if_pos hp, heap_node_iff]
          refine ⟨hpll, ?_, hhll, ?_⟩
          · intro x hx
            have := (prios_delete_root_perm w q lr (node rv rp rl rr)).mem_iff.mp hx
            rcases List.mem_append.mp this with hx | hx
            · exact hplr x hx
            · refine le_of_lt (lt_of_lt_of_le hp ?_)
              exact heap_prio_le (by rw [heap_node_iff]; exact ⟨hprl, hprr, hhrl, hhrr⟩) x hx
          · exact ih w q lr (node rv rp rl rr) (by simp only [size] at hlt ⊢; omega)
              hhlr (by rw [heap_node_iff]; exact ⟨hprl, hprr, hhrl, hhrr⟩)
        · rw [if_neg hp, heap_node_iff]
          refine ⟨?_, hprr, ?_, hhrr⟩
          · intro x hx
            have := (prios_delete_root_perm w q (node lv lp ll lr) rl).mem_iff.mp hx
            rcases List.mem_append.mp this with hx | hx
            · refine le_trans (not_lt.mp hp) ?_
              exact heap_prio_le (by rw [heap_node_iff]; exact ⟨hpll, hplr, hhll, hhlr⟩) x hx
            · exact hprl x hx
          · exact ih w q (node lv lp ll lr) rl (by simp only [size] at hlt ⊢; omega)
              (by rw [heap_node_iff]; exact ⟨hpll, hplr, hhll, hhlr⟩) hhrl
  exact H (size l + size r + 1) w q l r (by omega) hl hr

theorem bst_delete {t : TN α} {v : α} {t' : TN α} (h : delete t v = some t')
    (hb : bst t = true) : bst t' = true := by
  induction t, v using delete.induct generalizing t' with
  | case1 v => rw [delete_nil_eq] at h; cases h
  | case2 w q l r v hg => rw [delete_guard hg] at h; cases h
  | case3 w q l r v hg hlt ih =>
    rw [delete_lt hg hlt, Option.map_eq_some'] at h
    obtain ⟨l', hl', rfl⟩ := h
    rw [bst_node_iff] at hb ⊢
    obtain ⟨hl, hr, hbl, hbr⟩ := hb
    exact ⟨fun x hx => hl x (mem_toList_delete_subset hl' x hx), hr, ih hl' hbl, hbr⟩
  | case4 w q l r v hg hnlt hgt ih =>
    rw [delete_gt hg hnlt hgt, Option.map_eq_some'] at h
    obtain ⟨r', hr', rfl⟩ := h
    rw [bst_node_iff] at hb ⊢
    obtain ⟨hl, hr, hbl, hbr⟩ := hb
    exact ⟨hl, fun x hx => hr x (mem_toList_delete_subset hr' x hx), hbl, ih hr' hbr⟩
  | case5 w q r v hnlt hngt hg =>
    rw [delete_left_nil hnlt hngt] at h
    cases h
    exact (bst_node_iff.mp hb).2.2.2
  | case6 w q v hnlt hngt lv lp ll lr hg =>
    rw [delete_right_nil hnlt hngt] at h
    cases h
    exact (bst_node_iff.mp hb).2.2.1
  | case7 w q v hnlt hngt lv lp ll lr rv rp rl rr hp hg ih =>
    have hvw : v = w := le_antisymm (not_lt.mp hngt) (not_lt.mp hnlt)
    subst hvw
    rw [delete_at_root] at h
    cases h
    exact bst_delete_root hb
  | case8 w q v hnlt hngt lv lp ll lr rv rp rl rr hp hg ih =>
    have hvw : v = w := le_antisymm (not_lt.mp hngt) (not_lt.mp hnlt)
    subst hvw
    rw [delete_at_root] at h
    cases h
    exact bst_delete_root hb

theorem heap_delete {t : TN α} {v : α} {t' : TN α} (h : delete t v = some t')
    (hh : heap t = true) : heap t' = true := by
  induction t, v using delete.induct generalizing t' with
  | case1 v => rw [delete_nil_eq] at h; cases h
  | case2 w q l r v hg => rw [delete_guard hg] at h; cases h
  | case3 w q l r v hg hlt ih =>
    rw [delete_lt hg hlt, Option.map_eq_some'] at h
    obtain ⟨l', hl', rfl⟩ := h
    rw [heap_node_iff] at hh ⊢
    obtain ⟨hql, hqr, hhl, hhr⟩ := hh
    exact ⟨fun x hx => hql x (prios_delete_subset hl' x hx), hqr, ih hl' hhl, hhr⟩
  | case4 w q l r v hg hnlt hgt ih =>
    rw [delete_gt hg hnlt hgt, Option.map_eq_some'] at h
    obtain ⟨r', hr', rfl⟩ := h
    rw [heap_node_iff] at hh ⊢
    obtain ⟨hql, hqr, hhl, hhr⟩ := hh
    exact ⟨hql, fun x hx => hqr x (prios_delete_subset hr' x hx), hhl, ih hr' hhr⟩
  | case5 w q r v hnlt hngt hg =>
    rw [delete_left_nil hnlt hngt] at h
    cases h
    exact (heap_node_iff.mp hh).2.2.2
  | case6 w q v hnlt hngt lv lp ll lr hg =>
    rw [delete_right_nil hnlt hngt] at h
    cases h
    exact (heap_node_iff.mp hh).2.2.1
  | case7 w q v hnlt hngt lv lp ll lr rv rp rl rr hp hg ih =>
    have hvw : v = w := le_antisymm (not_lt.mp hngt) (not_lt.mp hnlt)
    subst hvw
    rw [delete_at_root] at h
    cases h
    rw [heap_node_iff] at hh
    exact heap_delete_root hh.2.2.1 hh.2.2.2
  | case8 w q v hnlt hngt lv lp ll lr rv rp rl rr hp hg ih =>
    have hvw : v = w := le_antisymm (not_lt.mp hngt) (not_lt.mp hnlt)
    subst hvw
    rw [delete_at_root] at h
    cases h
    rw [heap_node_iff] at hh
    exact heap_delete_root hh.2.2.1 hh.2.2.2

theorem posPrio_delete {t : TN α} {v : α} {t' : TN α} (h : delete t v = some t')
    (hp : posPrio t = true) : posPrio t' = true := by
  rw [posPrio_iff_forall] at hp ⊢
  exact fun x hx => hp x (prios_delete_subset h x hx)

theorem toList_delete_eq {t : TN α} {v : α} {t' : TN α} (h : delete t v = some t')
    (hb : bst t = true) : toList t' = (toList t).erase v := by
  refine List.eq_of_perm_of_sorted (delete_perm h) (sorted_toList (bst_delete h hb)) ?_
  exact List.Pairwise.sublist (List.erase_sublist v (toList t)) (sorted_toList hb)

theorem bst_delete_all {t : TN α} (v : α) (hb : bst t = true) :
    bst (delete_all t v) = true := by
  induction t, v using delete_all.induct with
  | case1 t v h ih =>
    rw [delete_all_of_contains h]
    exact ih (bst_delete (Option.some_get (isSome_delete h)).symm hb)
  | case2 t v h => rw [delete_all_of_not_contains h]; exact hb

theorem heap_delete_all {t : TN α} (v : α) (hb : bst t = true) (hh : heap t = true) :
    heap (delete_all t v) = true := by
  induction t, v using delete_all.induct with
  | case1 t v h ih =>
    rw [delete_all_of_contains h]
    exact ih (bst_delete (Option.some_get (isSome_delete h)).symm hb)
      (heap_delete (Option.some_get (isSome_delete h)).symm hh)
  | case2 t v h => rw [delete_all_of_not_contains h]; exact hh

theorem mem_toList_delete_all_subset (t : TN α) (v : α) :
    ∀ x ∈ toList (delete_all t v), x ∈ toList t := by
  induction t, v using delete_all.induct with
  | case1 t v h ih =>
    rw [delete_all_of_contains h]
    intro x hx
    exact mem_toList_delete_subset (Option.some_get (isSome_delete h)).symm x (ih x hx)
  | case2 t v h => rw [delete_all_of_not_contains h]; exact fun x hx => hx

theorem prios_delete_all_subset (t : TN α) (v : α) :
    ∀ x ∈ prios (delete_all t v), x ∈ prios t := by
  induction t, v using delete_all.induct with
  | case1 t v h ih =>
    rw [delete_all_of_contains h]
    intro x hx
    exact prios_delete_subset (Option.some_get (isSome_delete h)).symm x (ih x hx)
  | case2 t v h => rw [delete_all_of_not_contains h]; exact fun x hx => hx

theorem posPrio_delete_all {t : TN α} (v : α) (hp : posPrio t = true) :
    posPrio (delete_all t v) = true := by
  rw [posPrio_iff_forall] at hp ⊢
  exact fun x hx => hp x (prios_delete_all_subset t v x hx)

theorem filter_ne_erase (v : α) (L : List α) :
    (L.erase v).filter (fun x => decide (x ≠ v)) = L.filter (fun x => decide (x ≠ v)) := by
  induction L with
  | nil => rfl
  | cons a as ih =>
    by_cases hav : a = v
    · subst hav
      rw [List.erase_cons_head]
      rw [List.filter_cons]
      simp
    · rw [List.erase_cons_tail (by simpa using hav)]
      rw [List.filter_cons, List.filter_cons, ih]

theorem toList_delete_all_eq {t : TN α} (v : α) (hb : bst t = true) :
    toList (delete_all t v) = (toList t).filter (fun x => decide (x ≠ v)) := by
  induction t, v using delete_all.induct with
  | case1 t v h ih =>
    rw [delete_all_of_contains h]
    have hs : delete t v = some ((delete t v).get (isSome_delete h)) :=
      (Option.some_get (isSome_delete h)).symm
    rw [ih (bst_delete hs hb), toList_delete_eq hs hb, filter_ne_erase]
  | case2 t v h =>
    rw [delete_all_of_not_contains h]
    refine (List.filter_eq_self.mpr ?_).symm
    intro a ha
    have hav : a ≠ v := by
      rintro rfl
      exact h ((contains_iff_mem hb).mpr ha)
    simpa using hav


/-- Bundled invariant: weak order invariant, heap invariant, positive priorities. -/
def valid (t : TN α) : Bool := bst t && heap t && posPrio t

theorem valid_iff {t : TN α} :
    valid t = true ↔ bst t = true ∧ heap t = true ∧ posPrio t = true := by
  simp [valid, and_assoc]

theorem valid_nil : valid (nil : TN α) = true := by
  simp [valid, bst, heap, posPrio]

theorem valid_delete_all {t : TN α} (v : α) (h : valid t = true) :
    valid (delete_all t v) = true := by
  rw [valid_iff] at h ⊢
  obtain ⟨hb, hh, hp⟩ := h
  exact ⟨bst_delete_all v hb, heap_delete_all v hb hh, posPrio_delete_all v hp⟩

theorem valid_node_parts {v : α} {p : ℚ} {l r : TN α} (h : valid (node v p l r) = true) :
    valid l = true ∧ valid r = true := by
  rw [valid_iff] at h
  obtain ⟨hb, hh, hp⟩ := h
  rw [bst_node_iff] at hb
  rw [heap_node_iff] at hh
  rw [posPrio_node_iff] at hp
  exact ⟨valid_iff.mpr ⟨hb.2.2.1, hh.2.2.1, hp.2.1⟩,
    valid_iff.mpr ⟨hb.2.2.2, hh.2.2.2, hp.2.2⟩⟩

theorem valid_split {t : TN α} (v : α) (h : valid t = true) :
    valid (split t v).1 = true ∧ valid (split t v).2 = true := by
  rw [valid_iff] at h
  obtain ⟨hb, hh, hp⟩ := h
  obtain ⟨hb1, hb2, -, -⟩ := bst_split v hp hb
  obtain ⟨hh1, hh2⟩ := heap_split v hp hb hh
  obtain ⟨hp1, hp2⟩ := posPrio_split v hp hb
  exact ⟨valid_iff.mpr ⟨hb1, hh1, hp1⟩, valid_iff.mpr ⟨hb2, hh2, hp2⟩⟩

theorem mem_split {t : TN α} (v : α) (hp : posPrio t = true) (hb : bst t = true) :
    (∀ x ∈ toList (split t v).1, x ∈ toList t) ∧
    (∀ x ∈ toList (split t v).2, x ∈ toList t) := by
  have h := toList_split_append v hp hb
  constructor
  · intro x hx
    rw [← h]
    exact List.mem_append.mpr (Or.inl hx)
  · intro x hx
    rw [← h]
    exact List.mem_append.mpr (Or.inr hx)

theorem prios_mem_split {t : TN α} (v : α) (hp : posPrio t = true) (hb : bst t = true) :
    (∀ x ∈ prios (split t v).1, x ∈ prios t) ∧
    (∀ x ∈ prios (split t v).2, x ∈ prios t) := by
  have h := prios_split_perm v hp hb
  constructor
  · intro x hx
    exact h.mem_iff.mp (List.mem_append.mpr (Or.inl hx))
  · intro x hx
    exact h.mem_iff.mp (List.mem_append.mpr (Or.inr hx))

theorem delete_all_except_root (v : α) (p : ℚ) (l r : TN α) :
    delete_all_except (node v p l r) v = node v p (delete_all l v) (delete_all r v) := by
  rw [delete_all_except, if_pos rfl]

theorem unique_props {t : TN α} (h : valid t = true) :
    valid (unique t) = true ∧
    (∀ x ∈ toList (unique t), x ∈ toList t) ∧
    (∀ x ∈ prios (unique t), x ∈ prios t) := by
  have H : ∀ n (t : TN α), size t < n → valid t = true →
      valid (unique t) = true ∧
      (∀ x ∈ toList (unique t), x ∈ toList t) ∧
      (∀ x ∈ prios (unique t), x ∈ prios t) := by
    intro n
    induction n with
    | zero => intro _ h; omega
    | succ n ih =>
      intro t hlt hv
      match t with
      | nil => rw [unique]; exact ⟨hv, fun x hx => hx, fun x hx => hx⟩
      | node w q l r =>
        obtain ⟨hvl, hvr⟩ := valid_node_parts hv
        rw [valid_iff] at hv
        obtain ⟨hb, hh, hp⟩ := hv
        rw [bst_node_iff] at hb
        rw [heap_node_iff] at hh
        rw [posPrio_node_iff] at hp
        have hsl := size_delete_all_le l w
        have hsr := size_delete_all_le r w
        have hL := ih (delete_all l w)
          (by simp only [size] at hlt; omega) (valid_delete_all w hvl)
        have hR := ih (delete_all r w)
          (by simp only [size] at hlt; omega) (valid_delete_all w hvr)
        obtain ⟨hvL, hmL, hpL⟩ := hL
        obtain ⟨hvR, hmR, hpR⟩ := hR
        rw [valid_iff] at hvL hvR
        have hmL' : ∀ x ∈ toList (unique (delete_all l w)), x ∈ toList l :=
          fun x hx => mem_toList_delete_all_subset l w x (hmL x hx)
        have hmR' : ∀ x ∈ toList (unique (delete_all r w)), x ∈ toList r :=
          fun x hx => mem_toList_delete_all_subset r w x (hmR x hx)
        have hpL' : ∀ x ∈ prios (unique (delete_all l w)), x ∈ prios l :=
          fun x hx => prios_delete_all_subset l w x (hpL x hx)
        have hpR' : ∀ x ∈ prios (unique (delete_all r w)), x ∈ prios r :=
          fun x hx => prios_delete_all_subset r w x (hpR x hx)
        rw [unique]
        refine ⟨valid_iff.mpr ⟨?_, ?_, ?_⟩, ?_, ?_⟩
        · rw [bst_node_iff]
          exact ⟨fun x hx => hb.1 x (hmL' x hx), fun x hx => hb.2.1 x (hmR' x hx),
            hvL.1, hvR.1⟩
        · rw [heap_node_iff]
          exact ⟨fun x hx => hh.1 x (hpL' x hx), fun x hx => hh.2.1 x (hpR' x hx),
            hvL.2.1, hvR.2.1⟩
        · rw [posPrio_node_iff]
          exact ⟨hp.1, hvL.2.2, hvR.2.2⟩
        · intro x hx
          rw [toList, List.mem_append, List.mem_cons] at hx ⊢
          rcases hx with hx | hx | hx
          · exact Or.inl (hmL' x hx)
          · exact Or.inr (Or.inl hx)
          · exact Or.inr (Or.inr (hmR' x hx))
        · intro x hx
          rw [prios, List.mem_append, List.mem_cons] at hx ⊢
          rcases hx with hx | hx | hx
          · exact Or.inl (hpL' x hx)
          · exact Or.inr (Or.inl hx)
          · exact Or.inr (Or.inr (hpR' x hx))
  exact H (size t + 1) t (by omega) h

theorem toList_join (a b : TN α) : toList (join a b) = toList a ++ toList b := by
  match a, b with
  | nil, b => rw [join]; rfl
  | node aw ap al ar, nil => rw [join]; simp [toList]
  | node aw ap al ar, node bw bp bl br =>
    rw [join, toList_delete_root]
    intro h
    cases h


theorem cond_delete_all_props {b : TN α} (v : α) (hvb : valid b = true) :
    valid (if contains b v then delete_all b v else b) = true ∧
    (∀ x ∈ toList (if contains b v then delete_all b v else b), x ∈ toList b) ∧
    (∀ x ∈ prios (if contains b v then delete_all b v else b), x ∈ prios b) ∧
    size (if contains b v then delete_all b v else b) ≤ size b := by
  split
  · exact ⟨valid_delete_all _ hvb, mem_toList_delete_all_subset _ _,
      prios_delete_all_subset _ _, size_delete_all_le _ _⟩
  · exact ⟨hvb, fun x hx => hx, fun x hx => hx, le_rfl⟩

theorem union_valid (a b : TN α) (hva : valid a = true) (hvb : valid b = true) :
    valid (union a b) = true ∧
    (∀ x ∈ toList (union a b), x ∈ toList a ∨ x ∈ toList b) ∧
    (∀ x ∈ prios (union a b), x ∈ prios a ∨ x ∈ prios b) := by
  have H : ∀ n (a b : TN α), size a + size b < n →
      valid a = true → valid b = true →
      valid (union a b) = true ∧
      (∀ x ∈ toList (union a b), x ∈ toList a ∨ x ∈ toList b) ∧
      (∀ x ∈ prios (union a b), x ∈ prios a ∨ x ∈ prios b) := by
    intro n
    induction n with
    | zero => intro _ _ h; omega
    | succ n ih =>
      intro a b hlt hva hvb
      match a, b with
      | nil, nil =>
        rw [union]
        exact ⟨valid_nil, by simp [toList], by simp [prios]⟩
      | nil, node bv bp bl br =>
        rw [union]
        obtain ⟨h1, h2, h3⟩ := unique_props hvb
        exact ⟨h1, fun x hx => Or.inr (h2 x hx), fun x hx => Or.inr (h3 x hx)⟩
      | node av ap al ar, nil =>
        rw [union]
        obtain ⟨h1, h2, h3⟩ := unique_props hva
        exact ⟨h1, fun x hx => Or.inl (h2 x hx), fun x hx => Or.inl (h3 x hx)⟩
      | node av ap al ar, node bv bp bl br =>
        obtain ⟨hval, hvar⟩ := valid_node_parts hva
        obtain ⟨hvbl, hvbr⟩ := valid_node_parts hvb
        have hba := (valid_iff.mp hva).1
        have hbb := (valid_iff.mp hvb).1
        have hha := (valid_iff.mp hva).2.1
        have hhb := (valid_iff.mp hvb).2.1
        have hpa := (valid_iff.mp hva).2.2
        have hpb := (valid_iff.mp hvb).2.2
        rw [union]
        by_cases hap : ap < bp
        · rw [if_pos hap]
          obtain ⟨hvc, hmc, hpc, hsc⟩ :=
            cond_delete_all_props (b := node bv bp bl br) av hvb
          split
          · rename_i heq
            refine ⟨valid_iff.mpr ⟨?_, ?_, ?_⟩, ?_, ?_⟩
            · rw [bst_node_iff]
              rw [bst_node_iff] at hba
              exact ⟨fun x hx => hba.1 x (mem_toList_delete_all_subset _ _ x hx),
                fun x hx => hba.2.1 x (mem_toList_delete_all_subset _ _ x hx),
                (valid_iff.mp (valid_delete_all _ hval)).1,
                (valid_iff.mp (valid_delete_all _ hvar)).1⟩
            · rw [heap_node_iff]
              rw [heap_node_iff] at hha
              exact ⟨fun x hx => hha.1 x (prios_delete_all_subset _ _ x hx),
                fun x hx => hha.2.1 x (prios_delete_all_subset _ _ x hx),
                (valid_iff.mp (valid_delete_all _ hval)).2.1,
                (valid_iff.mp (valid_delete_all _ hvar)).2.1⟩
            · rw [posPrio_node_iff]
              rw [posPrio_node_iff] at hpa
              exact ⟨hpa.1, (valid_iff.mp (valid_delete_all _ hval)).2.2,
                (valid_iff.mp (valid_delete_all _ hvar)).2.2⟩
            · intro x hx
              rw [toList, List.mem_append, List.mem_cons] at hx
              refine Or.inl ?_
              rw [toList, List.mem_append, List.mem_cons]
              rcases hx with hx | hx | hx
              · exact Or.inl (mem_toList_delete_all_subset _ _ x hx)
              · exact Or.inr (Or.inl hx)
              · exact Or.inr (Or.inr (mem_toList_delete_all_subset _ _ x hx))
            · intro x hx
              rw [prios, List.mem_append, List.mem_cons] at hx
              refine Or.inl ?_
              rw [prios, List.mem_append, List.mem_cons]
              rcases hx with hx | hx | hx
              · exact Or.inl (prios_delete_all_subset _ _ x hx)
              · exact Or.inr (Or.inl hx)
              · exact Or.inr (Or.inr (prios_delete_all_subset _ _ x hx))
          · rename_i cv cp cl cr heq
            rw [heq] at hvc hmc hpc hsc
            have hbc := (valid_iff.mp hvc).1
            have hpc' := (valid_iff.mp hvc).2.2
            have hX := ih (delete_all al av) (split (node cv cp cl cr) av).1
              (by
                have h1 := size_delete_all_le al av
                have h2 := size_split (node cv cp cl cr) av
                simp only [size] at hlt hsc h1 h2 ⊢
                omega)
              (valid_delete_all _ hval) (valid_split av hvc).1
            have hY := ih (delete_all ar av) (split (node cv cp cl cr) av).2
              (by
                have h1 := size_delete_all_le ar av
                have h2 := size_split (node cv cp cl cr) av
                simp only [size] at hlt hsc h1 h2 ⊢
                omega)
              (valid_delete_all _ hvar) (valid_split av hvc).2
            obtain ⟨hvX, hmX, hpX⟩ := hX
            obtain ⟨hvY, hmY, hpY⟩ := hY
            have hmsplit := mem_split av hpc' hbc
            have hpsplit := prios_mem_split av hpc' hbc
            rw [bst_node_iff] at hba
            rw [heap_node_iff] at hha
            rw [posPrio_node_iff] at hpa
            refine ⟨valid_iff.mpr ⟨?_, ?_, ?_⟩, ?_, ?_⟩
            · rw [bst_node_iff]
              refine ⟨?_, ?_, (valid_iff.mp hvX).1, (valid_iff.mp hvY).1⟩
              · intro x hx
                rcases hmX x hx with hx | hx
                · exact hba.1 x (mem_toList_delete_all_subset _ _ x hx)
                · exact split_fst_le av hpc' hbc x hx
              · intro x hx
                rcases hmY x hx with hx | hx
                · exact hba.2.1 x (mem_toList_delete_all_subset _ _ x hx)
                · exact le_of_lt (split_snd_gt av hpc' hbc x hx)
            · rw [heap_node_iff]
              refine ⟨?_, ?_, (valid_iff.mp hvX).2.1, (valid_iff.mp hvY).2.1⟩
              · intro x hx
                rcases hpX x hx with hx | hx
                · exact hha.1 x (prios_delete_all_subset _ _ x hx)
                · exact le_trans (le_of_lt hap)
                    (heap_prio_le hhb x (hpc x (hpsplit.1 x hx)))
              · intro x hx
                rcases hpY x hx with hx | hx
                · exact hha.2.1 x (prios_delete_all_subset _ _ x hx)
                · exact le_trans (le_of_lt hap)
                    (heap_prio_le hhb x (hpc x (hpsplit.2 x hx)))
            · rw [posPrio_node_iff]
              exact ⟨hpa.1, (valid_iff.mp hvX).2.2, (valid_iff.mp hvY).2.2⟩
            · intro x hx
              rw [toList, List.mem_append, List.mem_cons] at hx
              rcases hx with hx | hx | hx
              · rcases hmX x hx with hx | hx
                · exact Or.inl (by
                    rw [toList, List.mem_append]
                    exact Or.inl (mem_toList_delete_all_subset _ _ x hx))
                · exact Or.inr (hmc x (hmsplit.1 x hx))
              · exact Or.inl (by
                  rw [toList, List.mem_append, List.mem_cons]
                  exact Or.inr (Or.inl hx))
              · rcases hmY x hx with hx | hx
                · exact Or.inl (by
                    rw [toList, List.mem_append, List.mem_cons]
                    exact Or.inr (Or.inr (mem_toList_delete_all_subset _ _ x hx)))
                · exact Or.inr (hmc x (hmsplit.2 x hx))
            · intro x hx
              rw [prios, List.mem_append, List.mem_cons] at hx
              rcases hx with hx | hx | hx
              · rcases hpX x hx with hx | hx
                · exact Or.inl (by
                    rw [prios, List.mem_append]
                    exact Or.inl (prios_delete_all_subset _ _ x hx))
                · exact Or.inr (hpc x (hpsplit.1 x hx))
              · exact Or.inl (by
                  rw [prios, List.mem_append, List.mem_cons]
                  exact Or.inr (Or.inl hx))
              · rcases hpY x hx with hx | hx
                · exact Or.inl (by
                    rw [prios, List.mem_append, List.mem_cons]
                    exact Or.inr (Or.inr (prios_delete_all_subset _ _ x hx)))
                · exact Or.inr (hpc x (hpsplit.2 x hx))
        · rw [if_neg hap]
          have hbpap : bp ≤ ap := not_lt.mp hap
          obtain ⟨hvc, hmc, hpc, hsc⟩ :=
            cond_delete_all_props (b := node av ap al ar) bv hva
          split
          · rename_i heq
            refine ⟨valid_iff.mpr ⟨?_, ?_, ?_⟩, ?_, ?_⟩
            · rw [bst_node_iff]
              rw [bst_node_iff] at hbb
              exact ⟨fun x hx => hbb.1 x (mem_toList_delete_all_subset _ _ x hx),
                fun x hx => hbb.2.1 x (mem_toList_delete_all_subset _ _ x hx),
                (valid_iff.mp (valid_delete_all _ hvbl)).1,
                (valid_iff.mp (valid_delete_all _ hvbr)).1⟩
            · rw [heap_node_iff]
              rw [heap_node_iff] at hhb
              exact ⟨fun x hx => hhb.1 x (prios_delete_all_subset _ _ x hx),
                fun x hx => hhb.2.1 x (prios_delete_all_subset _ _ x hx),
                (valid_iff.mp (valid_delete_all _ hvbl)).2.1,
                (valid_iff.mp (valid_delete_all _ hvbr)).2.1⟩
            · rw [posPrio_node_iff]
              rw [posPrio_node_iff] at hpb
              exact ⟨hpb.1, (valid_iff.mp (valid_delete_all _ hvbl)).2.2,
                (valid_iff.mp (valid_delete_all _ hvbr)).2.2⟩
            · intro x hx
              rw [toList, List.mem_append, List.mem_cons] at hx
              refine Or.inr ?_
              rw [toList, List.mem_append, List.mem_cons]
              rcases hx with hx | hx | hx
              · exact Or.inl (mem_toList_delete_all_subset _ _ x hx)
              · exact Or.inr (Or.inl hx)
              · exact Or.inr (Or.inr (mem_toList_delete_all_subset _ _ x hx))
            · intro x hx
              rw [prios, List.mem_append, List.mem_cons] at hx
              refine Or.inr ?_
              rw [prios, List.mem_append, List.mem_cons]
              rcases hx with hx | hx | hx
              · exact Or.inl (prios_delete_all_subset _ _ x hx)
              · exact Or.inr (Or.inl hx)
              · exact Or.inr (Or.inr (prios_delete_all_subset _ _ x hx))
          · rename_i cv cp cl cr heq
            rw [heq] at hvc hmc hpc hsc
            have hbc := (valid_iff.mp hvc).1
            have hpc' := (valid_iff.mp hvc).2.2
            have hX := ih (split (node cv cp cl cr) bv).1 (delete_all bl bv)
              (by
                have h1 := size_delete_all_le bl bv
                have h2 := size_split (node cv cp cl cr) bv
                simp only [size] at hlt hsc h1 h2 ⊢
                omega)
              (valid_split bv hvc).1 (valid_delete_all _ hvbl)
            have hY := ih (split (node cv cp cl cr) bv).2 (delete_all br bv)
              (by
                have h1 := size_delete_all_le br bv
                have h2 := size_split (node cv cp cl cr) bv
                simp only [size] at hlt hsc h1 h2 ⊢
                omega)
              (valid_split bv hvc).2 (valid_delete_all _ hvbr)
            obtain ⟨hvX, hmX, hpX⟩ := hX
            obtain ⟨hvY, hmY, hpY⟩ := hY
            have hmsplit := mem_split bv hpc' hbc
            have hpsplit := prios_mem_split bv hpc' hbc
            rw [bst_node_iff] at hbb
            rw [heap_node_iff] at hhb
            rw [posPrio_node_iff] at hpb
            refine ⟨valid_iff.mpr ⟨?_, ?_, ?_⟩, ?_, ?_⟩
            · rw [bst_node_iff]
              refine ⟨?_, ?_, (valid_iff.mp hvX).1, (valid_iff.mp hvY).1⟩
              · intro x hx
                rcases hmX x hx with hx | hx
                · exact split_fst_le bv hpc' hbc x hx
                · exact hbb.1 x (mem_toList_delete_all_subset _ _ x hx)
              · intro x hx
                rcases hmY x hx with hx | hx
                · exact le_of_lt (split_snd_gt bv hpc' hbc x hx)
                · exact hbb.2.1 x (mem_toList_delete_all_subset _ _ x hx)
            · rw [heap_node_iff]
              refine ⟨?_, ?_, (valid_iff.mp hvX).2.1, (valid_iff.mp hvY).2.1⟩
              · intro x hx
                rcases hpX x hx with hx | hx
                · exact le_trans hbpap (heap_prio_le hha x (hpc x (hpsplit.1 x hx)))
                · exact hhb.1 x (prios_delete_all_subset _ _ x hx)
              · intro x hx
                rcases hpY x hx with hx | hx
                · exact le_trans hbpap (heap_prio_le hha x (hpc x (hpsplit.2 x hx)))
                · exact hhb.2.1 x (prios_delete_all_subset _ _ x hx)
            · rw [posPrio_node_iff]
              exact ⟨hpb.1, (valid_iff.mp hvX).2.2, (valid_iff.mp hvY).2.2⟩
            · intro x hx
              rw [toList, List.mem_append, List.mem_cons] at hx
              rcases hx with hx | hx | hx
              · rcases hmX x hx with hx | hx
                · exact Or.inl (hmc x (hmsplit.1 x hx))
                · exact Or.inr (by
                    rw [toList, List.mem_append]
                    exact Or.inl (mem_toList_delete_all_subset _ _ x hx))
              · exact Or.inr (by
                  rw [toList, List.mem_append, List.mem_cons]
                  exact Or.inr (Or.inl hx))
              · rcases hmY x hx with hx | hx
                · exact Or.inl (hmc x (hmsplit.2 x hx))
                · exact Or.inr (by
                    rw [toList, List.mem_append, List.mem_cons]
                    exact Or.inr (Or.inr (mem_toList_delete_all_subset _ _ x hx)))
            · intro x hx
              rw [prios, List.mem_append, List.mem_cons] at hx
              rcases hx with hx | hx | hx
              · rcases hpX x hx with hx | hx
                · exact Or.inl (hpc x (hpsplit.1 x hx))
                · exact Or.inr (by
                    rw [prios, List.mem_append]
                    exact Or.inl (prios_delete_all_subset _ _ x hx))
              · exact Or.inr (by
                  rw [prios, List.mem_append, List.mem_cons]
                  exact Or.inr (Or.inl hx))
              · rcases hpY x hx with hx | hx
                · exact Or.inl (hpc x (hpsplit.2 x hx))
                · exact Or.inr (by
                    rw [prios, List.mem_append, List.mem_cons]
                    exact Or.inr (Or.inr (prios_delete_all_subset _ _ x hx)))
  exact H (size a + size b + 1) a b (by omega) hva hvb


theorem interTail_true (v : α) (p : ℚ) (x y : TN α) :
    interTail v p x y true = node v p x y := by
  rw [interTail]
  simp

theorem interTail_false (v : α) (p : ℚ) (x y : TN α) :
    interTail v p x y false = delete_root (node v p x y) := by
  rw [interTail]
  simp only [Bool.false_eq_true, if_false]
  exact Option.some_inj.mp (by rw [Option.some_get, delete_at_root])

theorem xorTail_true (v : α) (p : ℚ) (x y : TN α) :
    xorTail v p x y true = delete_all (node v p x y) v := by
  rw [xorTail]
  simp

theorem xorTail_false (v : α) (p : ℚ) (x y : TN α) :
    xorTail v p x y false = node v p (delete_all x v) (delete_all y v) := by
  rw [xorTail]
  simp only [Bool.false_eq_true, if_false]
  exact delete_all_except_root v p x y

theorem delete_root_props {w : α} {q : ℚ} {l r : TN α}
    (hb : bst (node w q l r) = true) (hhl : heap l = true) (hhr : heap r = true) :
    bst (delete_root (node w q l r)) = true ∧
    heap (delete_root (node w q l r)) = true ∧
    (∀ x ∈ toList (delete_root (node w q l r)), x ∈ toList l ∨ x ∈ toList r) ∧
    (∀ x ∈ prios (delete_root (node w q l r)), x ∈ prios l ∨ x ∈ prios r) := by
  refine ⟨bst_delete_root hb, heap_delete_root hhl hhr, ?_, ?_⟩
  · intro x hx
    rw [toList_delete_root] at hx
    exact List.mem_append.mp hx
  · intro x hx
    exact List.mem_append.mp ((prios_delete_root_perm w q l r).mem_iff.mp hx)

/-- Validity and membership bounds for a freshly assembled node whose children's
values and priorities are drawn from known pools. -/
theorem valid_build {v : α} {p : ℚ} {x y : TN α}
    (hvx : valid x = true) (hvy : valid y = true) (hp : 0 < p)
    (hxv : ∀ z ∈ toList x, z ≤ v) (hyv : ∀ z ∈ toList y, v ≤ z)
    (hpx : ∀ z ∈ prios x, p ≤ z) (hpy : ∀ z ∈ prios y, p ≤ z) :
    valid (node v p x y) = true := by
  rw [valid_iff] at hvx hvy
  refine valid_iff.mpr ⟨?_, ?_, ?_⟩
  · rw [bst_node_iff]
    exact ⟨hxv, hyv, hvx.1, hvy.1⟩
  · rw [heap_node_iff]
    exact ⟨hpx, hpy, hvx.2.1, hvy.2.1⟩
  · rw [posPrio_node_iff]
    exact ⟨hp, hvx.2.2, hvy.2.2⟩


theorem dedup_root_props {v : α} {p : ℚ} {l r : TN α}
    (hv : valid (node v p l r) = true) :
    valid (node v p (delete_all l v) (delete_all r v)) = true ∧
    (∀ x ∈ toList (node v p (delete_all l v) (delete_all r v)), x ∈ toList (node v p l r)) ∧
    (∀ x ∈ prios (node v p (delete_all l v) (delete_all r v)), x ∈ prios (node v p l r)) := by
  obtain ⟨hvl, hvr⟩ := valid_node_parts hv
  rw [valid_iff] at hv
  obtain ⟨hb, hh, hp⟩ := hv
  rw [bst_node_iff] at hb
  rw [heap_node_iff] at hh
  rw [posPrio_node_iff] at hp
  refine ⟨?_, ?_, ?_⟩
  · refine valid_build (valid_delete_all _ hvl) (valid_delete_all _ hvr) hp.1 ?_ ?_ ?_ ?_
    · exact fun z hz => hb.1 z (mem_toList_delete_all_subset _ _ z hz)
    · exact fun z hz => hb.2.1 z (mem_toList_delete_all_subset _ _ z hz)
    · exact fun z hz => hh.1 z (prios_delete_all_subset _ _ z hz)
    · exact fun z hz => hh.2.1 z (prios_delete_all_subset _ _ z hz)
  · intro x hx
    rw [toList, List.mem_append, List.mem_cons] at hx ⊢
    rcases hx with hx | hx | hx
    · exact Or.inl (mem_toList_delete_all_subset _ _ x hx)
    · exact Or.inr (Or.inl hx)
    · exact Or.inr (Or.inr (mem_toList_delete_all_subset _ _ x hx))
  · intro x hx
    rw [prios, List.mem_append, List.mem_cons] at hx ⊢
    rcases hx with hx | hx | hx
    · exact Or.inl (prios_delete_all_subset _ _ x hx)
    · exact Or.inr (Or.inl hx)
    · exact Or.inr (Or.inr (prios_delete_all_subset _ _ x hx))

theorem inter_valid (a b : TN α) (hva : valid a = true) (hvb : valid b = true) :
    valid (inter a b) = true ∧
    (∀ x ∈ toList (inter a b), x ∈ toList a ∨ x ∈ toList b) ∧
    (∀ x ∈ prios (inter a b), x ∈ prios a ∨ x ∈ prios b) := by
  have H : ∀ n (a b : TN α), size a + size b < n →
      valid a = true → valid b = true →
      valid (inter a b) = true ∧
      (∀ x ∈ toList (inter a b), x ∈ toList a ∨ x ∈ toList b) ∧
      (∀ x ∈ prios (inter a b), x ∈ prios a ∨ x ∈ prios b) := by
    intro n
    induction n with
    | zero => intro _ _ h; omega
    | succ n ih =>
      intro a b hlt hva hvb
      match a, b with
      | nil, b =>
        rw [inter]
        exact ⟨valid_nil, by simp [toList], by simp [prios]⟩
      | node av ap al ar, nil =>
        rw [inter]
        exact ⟨valid_nil, by simp [toList], by simp [prios]⟩
      | node av ap al ar, node bv bp bl br =>
        obtain ⟨hval, hvar⟩ := valid_node_parts hva
        obtain ⟨hvbl, hvbr⟩ := valid_node_parts hvb
        have hba := (valid_iff.mp hva).1
        have hbb := (valid_iff.mp hvb).1
        have hha := (valid_iff.mp hva).2.1
        have hhb := (valid_iff.mp hvb).2.1
        have hpa := (valid_iff.mp hva).2.2
        have hpb := (valid_iff.mp hvb).2.2
        rw [inter]
        by_cases hap : ap < bp
        · rw [if_pos hap]
          obtain ⟨hvc, hmc, hpc, hsc⟩ :=
            cond_delete_all_props (b := node bv bp bl br) av hvb
          split
          · rename_i heq
            obtain ⟨h1, h2, h3⟩ := dedup_root_props (v := av) (p := ap) hva
            exact ⟨h1, fun x hx => Or.inl (h2 x hx), fun x hx => Or.inl (h3 x hx)⟩
          · rename_i cv cp cl cr heq
            rw [heq] at hvc hmc hpc hsc
            have hbc := (valid_iff.mp hvc).1
            have hpc' := (valid_iff.mp hvc).2.2
            have hX := ih (delete_all al av) (split (node cv cp cl cr) av).1
              (by
                have h1 := size_delete_all_le al av
                have h2 := size_split (node cv cp cl cr) av
                simp only [size] at hlt hsc h1 h2 ⊢
                omega)
              (valid_delete_all _ hval) (valid_split av hvc).1
            have hY := ih (delete_all ar av) (split (node cv cp cl cr) av).2
              (by
                have h1 := size_delete_all_le ar av
                have h2 := size_split (node cv cp cl cr) av
                simp only [size] at hlt hsc h1 h2 ⊢
                omega)
              (valid_delete_all _ hvar) (valid_split av hvc).2
            obtain ⟨hvX, hmX, hpX⟩ := hX
            obtain ⟨hvY, hmY, hpY⟩ := hY
            have hmsplit := mem_split av hpc' hbc
            have hpsplit := prios_mem_split av hpc' hbc
            rw [bst_node_iff] at hba
            rw [heap_node_iff] at hha
            rw [posPrio_node_iff] at hpa
            have hXle : ∀ x ∈ toList (inter (delete_all al av) (split (node cv cp cl cr) av).1),
                x ≤ av := by
              intro x hx
              rcases hmX x hx with hx | hx
              · exact hba.1 x (mem_toList_delete_all_subset _ _ x hx)
              · exact split_fst_le av hpc' hbc x hx
            have hYge : ∀ x ∈ toList (inter (delete_all ar av) (split (node cv cp cl cr) av).2),
                av ≤ x := by
              intro x hx
              rcases hmY x hx with hx | hx
              · exact hba.2.1 x (mem_toList_delete_all_subset _ _ x hx)
              · exact le_of_lt (split_snd_gt av hpc' hbc x hx)
            have hXp : ∀ x ∈ prios (inter (delete_all al av) (split (node cv cp cl cr) av).1),
                ap ≤ x := by
              intro x hx
              rcases hpX x hx with hx | hx
              · exact hha.1 x (prios_delete_all_subset _ _ x hx)
              · exact le_trans (le_of_lt hap) (heap_prio_le hhb x (hpc x (hpsplit.1 x hx)))
            have hYp : ∀ x ∈ prios (inter (delete_all ar av) (split (node cv cp cl cr) av).2),
                ap ≤ x := by
              intro x hx
              rcases hpY x hx with hx | hx
              · exact hha.2.1 x (prios_delete_all_subset _ _ x hx)
              · exact le_trans (le_of_lt hap) (heap_prio_le hhb x (hpc x (hpsplit.2 x hx)))
            have hvZ := valid_build hvX hvY hpa.1 hXle hYge hXp hYp
            have hmZ : ∀ x ∈ toList (node av ap
                (inter (delete_all al av) (split (node cv cp cl cr) av).1)
                (inter (delete_all ar av) (split (node cv cp cl cr) av).2)),
                x ∈ toList (node av ap al ar) ∨ x ∈ toList (node bv bp bl br) := by
              intro x hx
              rw [toList, List.mem_append, List.mem_cons] at hx
              rcases hx with hx | hx | hx
              · rcases hmX x hx with hx | hx
                · exact Or.inl (by
                    rw [toList, List.mem_append]
                    exact Or.inl (mem_toList_delete_all_subset _ _ x hx))
                · exact Or.inr (hmc x (hmsplit.1 x hx))
              · exact Or.inl (by
                  rw [toList, List.mem_append, List.mem_cons]
                  exact Or.inr (Or.inl hx))
              · rcases hmY x hx with hx | hx
                · exact Or.inl (by
                    rw [toList, List.mem_append, List.mem_cons]
                    exact Or.inr (Or.inr (mem_toList_delete_all_subset _ _ x hx)))
                · exact Or.inr (hmc x (hmsplit.2 x hx))
            have hpZ : ∀ x ∈ prios (node av ap
                (inter (delete_all al av) (split (node cv cp cl cr) av).1)
                (inter (delete_all ar av) (split (node cv cp cl cr) av).2)),
                x ∈ prios (node av ap al ar) ∨ x ∈ prios (node bv bp bl br) := by
              intro x hx
              rw [prios, List.mem_append, List.mem_cons] at hx
              rcases hx with hx | hx | hx
              · rcases hpX x hx with hx | hx
                · exact Or.inl (by
                    rw [prios, List.mem_append]
                    exact Or.inl (prios_delete_all_subset _ _ x hx))
                · exact Or.inr (hpc x (hpsplit.1 x hx))
              · exact Or.inl (by
                  rw [prios, List.mem_append, List.mem_cons]
                  exact Or.inr (Or.inl hx))
              · rcases hpY x hx with hx | hx
                · exact Or.inl (by
                    rw [prios, List.mem_append, List.mem_cons]
                    exact Or.inr (Or.inr (prios_delete_all_subset _ _ x hx)))
                · exact Or.inr (hpc x (hpsplit.2 x hx))
            by_cases hib : contains (node bv bp bl br) av = true
            · rw [hib, interTail_true]
              exact ⟨hvZ, hmZ, hpZ⟩
            · have hfalse : contains (node bv bp bl br) av = false := by
                simpa using hib
              rw [hfalse, interTail_false]
              rw [valid_iff] at hvZ
              have hXh := (valid_iff.mp hvX).2.1
              have hYh := (valid_iff.mp hvY).2.1
              obtain ⟨hd1, hd2, hd3, hd4⟩ := delete_root_props hvZ.1 hXh hYh
              refine ⟨valid_iff.mpr ⟨hd1, hd2, ?_⟩, ?_, ?_⟩
              · rw [posPrio_iff_forall]
                intro x hx
                have hxz : x ∈ prios (node av ap
                    (inter (delete_all al av) (split (node cv cp cl cr) av).1)
                    (inter (delete_all ar av) (split (node cv cp cl cr) av).2)) := by
                  rcases hd4 x hx with hx | hx
                  · rw [prios, List.mem_append]
                    exact Or.inl hx
                  · rw [prios, List.mem_append, List.mem_cons]
                    exact Or.inr (Or.inr hx)
                rcases hpZ x hxz with hx | hx
                · exact posPrio_iff_forall.mp (valid_iff.mp hva).2.2 x hx
                · exact posPrio_iff_forall.mp hpb x hx
              · intro x hx
                have hxz : x ∈ toList (node av ap
                    (inter (delete_all al av) (split (node cv cp cl cr) av).1)
                    (inter (delete_all ar av) (split (node cv cp cl cr) av).2)) := by
                  rcases hd3 x hx with hx | hx
                  · rw [toList, List.mem_append]
                    exact Or.inl hx
                  · rw [toList, List.mem_append, List.mem_cons]
                    exact Or.inr (Or.inr hx)
                exact hmZ x hxz
              · intro x hx
                have hxz : x ∈ prios (node av ap
                    (inter (delete_all al av) (split (node cv cp cl cr) av).1)
                    (inter (delete_all ar av) (split (node cv cp cl cr) av).2)) := by
                  rcases hd4 x hx with hx | hx
                  · rw [prios, List.mem_append]
                    exact Or.inl hx
                  · rw [prios, List.mem_append, List.mem_cons]
                    exact Or.inr (Or.inr hx)
                exact hpZ x hxz
        · rw [if_neg hap]
          have hbpap : bp ≤ ap := not_lt.mp hap
          obtain ⟨hvc, hmc, hpc, hsc⟩ :=
            cond_delete_all_props (b := node av ap al ar) bv hva
          split
          · rename_i heq
            obtain ⟨h1, h2, h3⟩ := dedup_root_props (v := bv) (p := bp) hvb
            exact ⟨h1, fun x hx => Or.inr (h2 x hx), fun x hx => Or.inr (h3 x hx)⟩
          · rename_i cv cp cl cr heq
            rw [heq] at hvc hmc hpc hsc
            have hbc := (valid_iff.mp hvc).1
            have hpc' := (valid_iff.mp hvc).2.2
            have hX := ih (split (node cv cp cl cr) bv).1 (delete_all bl bv)
              (by
                have h1 := size_delete_all_le bl bv
                have h2 := size_split (node cv cp cl cr) bv
                simp only [size] at hlt hsc h1 h2 ⊢
                omega)
              (valid_split bv hvc).1 (valid_delete_all _ hvbl)
            have hY := ih (split (node cv cp cl cr) bv).2 (delete_all br bv)
              (by
                have h1 := size_delete_all_le br bv
                have h2 := size_split (node cv cp cl cr) bv
                simp only [size] at hlt hsc h1 h2 ⊢
                omega)
              (valid_split bv hvc).2 (valid_delete_all _ hvbr)
            obtain ⟨hvX, hmX, hpX⟩ := hX
            obtain ⟨hvY, hmY, hpY⟩ := hY
            have hmsplit := mem_split bv hpc' hbc
            have hpsplit := prios_mem_split bv hpc' hbc
            rw [bst_node_iff] at hbb
            rw [heap_node_iff] at hhb
            rw [posPrio_node_iff] at hpb
            have hXle : ∀ x ∈ toList (inter (split (node cv cp cl cr) bv).1 (delete_all bl bv)),
                x ≤ bv := by
              intro x hx
              rcases hmX x hx with hx | hx
              · exact split_fst_le bv hpc' hbc x hx
              · exact hbb.1 x (mem_toList_delete_all_subset _ _ x hx)
            have hYge : ∀ x ∈ toList (inter (split (node cv cp cl cr) bv).2 (delete_all br bv)),
                bv ≤ x := by
              intro x hx
              rcases hmY x hx with hx | hx
              · exact le_of_lt (split_snd_gt bv hpc' hbc x hx)
              · exact hbb.2.1 x (mem_toList_delete_all_subset _ _ x hx)
            have hXp : ∀ x ∈ prios (inter (split (node cv cp cl cr) bv).1 (delete_all bl bv)),
                bp ≤ x := by
              intro x hx
              rcases hpX x hx with hx | hx
              · exact le_trans hbpap (heap_prio_le hha x (hpc x (hpsplit.1 x hx)))
              · exact hhb.1 x (prios_delete_all_subset _ _ x hx)
            have hYp : ∀ x ∈ prios (inter (split (node cv cp cl cr) bv).2 (delete_all br bv)),
                bp ≤ x := by
              intro x hx
              rcases hpY x hx with hx | hx
              · exact le_trans hbpap (heap_prio_le hha x (hpc x (hpsplit.2 x hx)))
              · exact hhb.2.1 x (prios_delete_all_subset _ _ x hx)
            have hvZ := valid_build hvX hvY hpb.1 hXle hYge hXp hYp
            have hmZ : ∀ x ∈ toList (node bv bp
                (inter (split (node cv cp cl cr) bv).1 (delete_all bl bv))
                (inter (split (node cv cp cl cr) bv).2 (delete_all br bv))),
                x ∈ toList (node av ap al ar) ∨ x ∈ toList (node bv bp bl br) := by
              intro x hx
              rw [toList, List.mem_append, List.mem_cons] at hx
              rcases hx with hx | hx | hx
              · rcases hmX x hx with hx | hx
                · exact Or.inl (hmc x (hmsplit.1 x hx))
                · exact Or.inr (by
                    rw [toList, List.mem_append]
                    exact Or.inl (mem_toList_delete_all_subset _ _ x hx))
              · exact Or.inr (by
                  rw [toList, List.mem_append, List.mem_cons]
                  exact Or.inr (Or.inl hx))
              · rcases hmY x hx with hx | hx
                · exact Or.inl (hmc x (hmsplit.2 x hx))
                · exact Or.inr (by
                    rw [toList, List.mem_append, List.mem_cons]
                    exact Or.inr (Or.inr (mem_toList_delete_all_subset _ _ x hx)))
            have hpZ : ∀ x ∈ prios (node bv bp
                (inter (split (node cv cp cl cr) bv).1 (delete_all bl bv))
                (inter (split (node cv cp cl cr) bv).2 (delete_all br bv))),
                x ∈ prios (node av ap al ar) ∨ x ∈ prios (node bv bp bl br) := by
              intro x hx
              rw [prios, List.mem_append, List.mem_cons] at hx
              rcases hx with hx | hx | hx
              · rcases hpX x hx with hx | hx
                · exact Or.inl (hpc x (hpsplit.1 x hx))
                · exact Or.inr (by
                    rw [prios, List.mem_append]
                    exact Or.inl (prios_delete_all_subset _ _ x hx))
              · exact Or.inr (by
                  rw [prios, List.mem_append, List.mem_cons]
                  exact Or.inr (Or.inl hx))
              · rcases hpY x hx with hx | hx
                · exact Or.inl (hpc x (hpsplit.2 x hx))
                · exact Or.inr (by
                    rw [prios, List.mem_append, List.mem_cons]
                    exact Or.inr (Or.inr (prios_delete_all_subset _ _ x hx)))
            by_cases hib : contains (node av ap al ar) bv = true
            · rw [hib, interTail_true]
              exact ⟨hvZ, hmZ, hpZ⟩
            · have hfalse : contains (node av ap al ar) bv = false := by
                simpa using hib
              rw [hfalse, interTail_false]
              rw [valid_iff] at hvZ
              have hXh := (valid_iff.mp hvX).2.1
              have hYh := (valid_iff.mp hvY).2.1
              obtain ⟨hd1, hd2, hd3, hd4⟩ := delete_root_props hvZ.1 hXh hYh
              refine ⟨valid_iff.mpr ⟨hd1, hd2, ?_⟩, ?_, ?_⟩
              · rw [posPrio_iff_forall]
                intro x hx
                have hxz : x ∈ prios (node bv bp
                    (inter (split (node cv cp cl cr) bv).1 (delete_all bl bv))
                    (inter (split (node cv cp cl cr) bv).2 (delete_all br bv))) := by
                  rcases hd4 x hx with hx | hx
                  · rw [prios, List.mem_append]
                    exact Or.inl hx
                  · rw [prios, List.mem_append, List.mem_cons]
                    exact Or.inr (Or.inr hx)
                rcases hpZ x hxz with hx | hx
                · exact posPrio_iff_forall.mp hpa x hx
                · exact posPrio_iff_forall.mp (valid_iff.mp hvb).2.2 x hx
              · intro x hx
                have hxz : x ∈ toList (node bv bp
                    (inter (split (node cv cp cl cr) bv).1 (delete_all bl bv))
                    (inter (split (node cv cp cl cr) bv).2 (delete_all br bv))) := by
                  rcases hd3 x hx with hx | hx
                  · rw [toList, List.mem_append]
                    exact Or.inl hx
                  · rw [toList, List.mem_append, List.mem_cons]
                    exact Or.inr (Or.inr hx)
                exact hmZ x hxz
              · intro x hx
                have hxz : x ∈ prios (node bv bp
                    (inter (split (node cv cp cl cr) bv).1 (delete_all bl bv))
                    (inter (split (node cv cp cl cr) bv).2 (delete_all br bv))) := by
                  rcases hd4 x hx with hx | hx
                  · rw [prios, List.mem_append]
                    exact Or.inl hx
                  · rw [prios, List.mem_append, List.mem_cons]
                    exact Or.inr (Or.inr hx)
                exact hpZ x hxz
  exact H (size a + size b + 1) a b (by omega) hva hvb


theorem symdiff_valid (a b : TN α) (hva : valid a = true) (hvb : valid b = true) :
    valid (symdiff a b) = true ∧
    (∀ x ∈ toList (symdiff a b), x ∈ toList a ∨ x ∈ toList b) ∧
    (∀ x ∈ prios (symdiff a b), x ∈ prios a ∨ x ∈ prios b) := by
  have H : ∀ n (a b : TN α), size a + size b < n →
      valid a = true → valid b = true →
      valid (symdiff a b) = true ∧
      (∀ x ∈ toList (symdiff a b), x ∈ toList a ∨ x ∈ toList b) ∧
      (∀ x ∈ prios (symdiff a b), x ∈ prios a ∨ x ∈ prios b) := by
    intro n
    induction n with
    | zero => intro _ _ h; omega
    | succ n ih =>
      intro a b hlt hva hvb
      match a, b with
      | nil, nil =>
        rw [symdiff]
        exact ⟨valid_nil, by simp [toList], by simp [prios]⟩
      | nil, node bv bp bl br =>
        rw [symdiff]
        obtain ⟨h1, h2, h3⟩ := unique_props hvb
        exact ⟨h1, fun x hx => Or.inr (h2 x hx), fun x hx => Or.inr (h3 x hx)⟩
      | node av ap al ar, nil =>
        rw [symdiff]
        obtain ⟨h1, h2, h3⟩ := unique_props hva
        exact ⟨h1, fun x hx => Or.inl (h2 x hx), fun x hx => Or.inl (h3 x hx)⟩
      | node av ap al ar, node bv bp bl br =>
        obtain ⟨hval, hvar⟩ := valid_node_parts hva
        obtain ⟨hvbl, hvbr⟩ := valid_node_parts hvb
        have hba := (valid_iff.mp hva).1
        have hbb := (valid_iff.mp hvb).1
        have hha := (valid_iff.mp hva).2.1
        have hhb := (valid_iff.mp hvb).2.1
        have hpa := (valid_iff.mp hva).2.2
        have hpb := (valid_iff.mp hvb).2.2
        rw [symdiff]
        by_cases hap : ap < bp
        · rw [if_pos hap]
          split
          · rename_i heq
            exact ⟨valid_delete_all _ hva,
              fun x hx => Or.inl (mem_toList_delete_all_subset _ _ x hx),
              fun x hx => Or.inl (prios_delete_all_subset _ _ x hx)⟩
          · rename_i cv cp cl cr heq
            have hvc : valid (node cv cp cl cr) = true := by
              rw [← heq]
              exact valid_delete_all _ hvb
            have hmc : ∀ x ∈ toList (node cv cp cl cr), x ∈ toList (node bv bp bl br) := by
              rw [← heq]
              exact mem_toList_delete_all_subset _ _
            have hpc : ∀ x ∈ prios (node cv cp cl cr), x ∈ prios (node bv bp bl br) := by
              rw [← heq]
              exact prios_delete_all_subset _ _
            have hsc : size (node cv cp cl cr) ≤ size (node bv bp bl br) := by
              rw [← heq]
              exact size_delete_all_le _ _
            have hbc := (valid_iff.mp hvc).1
            have hpc' := (valid_iff.mp hvc).2.2
            have hX := ih al (split (node cv cp cl cr) av).1
              (by
                have h2 := size_split (node cv cp cl cr) av
                simp only [size] at hlt hsc h2 ⊢
                omega)
              hval (valid_split av hvc).1
            have hY := ih ar (split (node cv cp cl cr) av).2
              (by
                have h2 := size_split (node cv cp cl cr) av
                simp only [size] at hlt hsc h2 ⊢
                omega)
              hvar (valid_split av hvc).2
            obtain ⟨hvX, hmX, hpX⟩ := hX
            obtain ⟨hvY, hmY, hpY⟩ := hY
            have hmsplit := mem_split av hpc' hbc
            have hpsplit := prios_mem_split av hpc' hbc
            rw [bst_node_iff] at hba
            rw [heap_node_iff] at hha
            rw [posPrio_node_iff] at hpa
            have hXle : ∀ x ∈ toList (symdiff al (split (node cv cp cl cr) av).1),
                x ≤ av := by
              intro x hx
              rcases hmX x hx with hx | hx
              · exact hba.1 x hx
              · exact split_fst_le av hpc' hbc x hx
            have hYge : ∀ x ∈ toList (symdiff ar (split (node cv cp cl cr) av).2),
                av ≤ x := by
              intro x hx
              rcases hmY x hx with hx | hx
              · exact hba.2.1 x hx
              · exact le_of_lt (split_snd_gt av hpc' hbc x hx)
            have hXp : ∀ x ∈ prios (symdiff al (split (node cv cp cl cr) av).1),
                ap ≤ x := by
              intro x hx
              rcases hpX x hx with hx | hx
              · exact hha.1 x hx
              · exact le_trans (le_of_lt hap) (heap_prio_le hhb x (hpc x (hpsplit.1 x hx)))
            have hYp : ∀ x ∈ prios (symdiff ar (split (node cv cp cl cr) av).2),
                ap ≤ x := by
              intro x hx
              rcases hpY x hx with hx | hx
              · exact hha.2.1 x hx
              · exact le_trans (le_of_lt hap) (heap_prio_le hhb x (hpc x (hpsplit.2 x hx)))
            have hvZ := valid_build hvX hvY hpa.1 hXle hYge hXp hYp
            have hmZ : ∀ x ∈ toList (node av ap
                (symdiff al (split (node cv cp cl cr) av).1)
                (symdiff ar (split (node cv cp cl cr) av).2)),
                x ∈ toList (node av ap al ar) ∨ x ∈ toList (node bv bp bl br) := by
              intro x hx
              rw [toList, List.mem_append, List.mem_cons] at hx
              rcases hx with hx | hx | hx
              · rcases hmX x hx with hx | hx
                · exact Or.inl (by
                    rw [toList, List.mem_append]
                    exact Or.inl hx)
                · exact Or.inr (hmc x (hmsplit.1 x hx))
              · exact Or.inl (by
                  rw [toList, List.mem_append, List.mem_cons]
                  exact Or.inr (Or.inl hx))
              · rcases hmY x hx with hx | hx
                · exact Or.inl (by
                    rw [toList, List.mem_append, List.mem_cons]
                    exact Or.inr (Or.inr hx))
                · exact Or.inr (hmc x (hmsplit.2 x hx))
            have hpZ : ∀ x ∈ prios (node av ap
                (symdiff al (split (node cv cp cl cr) av).1)
                (symdiff ar (split (node cv cp cl cr) av).2)),
                x ∈ prios (node av ap al ar) ∨ x ∈ prios (node bv bp bl br) := by
              intro x hx
              rw [prios, List.mem_append, List.mem_cons] at hx
              rcases hx with hx | hx | hx
              · rcases hpX x hx with hx | hx
                · exact Or.inl (by
                    rw [prios, List.mem_append]
                    exact Or.inl hx)
                · exact Or.inr (hpc x (hpsplit.1 x hx))
              · exact Or.inl (by
                  rw [prios, List.mem_append, List.mem_cons]
                  exact Or.inr (Or.inl hx))
              · rcases hpY x hx with hx | hx
                · exact Or.inl (by
                    rw [prios, List.mem_append, List.mem_cons]
                    exact Or.inr (Or.inr hx))
                · exact Or.inr (hpc x (hpsplit.2 x hx))
            by_cases hib : contains (node bv bp bl br) av = true
            · rw [hib, xorTail_true]
              exact ⟨valid_delete_all _ hvZ,
                fun x hx => hmZ x (mem_toList_delete_all_subset _ _ x hx),
                fun x hx => hpZ x (prios_delete_all_subset _ _ x hx)⟩
            · have hfalse : contains (node bv bp bl br) av = false := by
                simpa using hib
              rw [hfalse, xorTail_false]
              obtain ⟨h1, h2, h3⟩ := dedup_root_props hvZ
              exact ⟨h1, fun x hx => hmZ x (h2 x hx), fun x hx => hpZ x (h3 x hx)⟩
        · rw [if_neg hap]
          have hbpap : bp ≤ ap := not_lt.mp hap
          split
          · rename_i heq
            exact ⟨valid_delete_all _ hvb,
              fun x hx => Or.inr (mem_toList_delete_all_subset _ _ x hx),
              fun x hx => Or.inr (prios_delete_all_subset _ _ x hx)⟩
          · rename_i cv cp cl cr heq
            have hvc : valid (node cv cp cl cr) = true := by
              rw [← heq]
              exact valid_delete_all _ hva
            have hmc : ∀ x ∈ toList (node cv cp cl cr), x ∈ toList (node av ap al ar) := by
              rw [← heq]
              exact mem_toList_delete_all_subset _ _
            have hpc : ∀ x ∈ prios (node cv cp cl cr), x ∈ prios (node av ap al ar) := by
              rw [← heq]
              exact prios_delete_all_subset _ _
            have hsc : size (node cv cp cl cr) ≤ size (node av ap al ar) := by
              rw [← heq]
              exact size_delete_all_le _ _
            have hbc := (valid_iff.mp hvc).1
            have hpc' := (valid_iff.mp hvc).2.2
            have hX := ih (split (node cv cp cl cr) bv).1 bl
              (by
                have h2 := size_split (node cv cp cl cr) bv
                simp only [size] at hlt hsc h2 ⊢
                omega)
              (valid_split bv hvc).1 hvbl
            have hY := ih (split (node cv cp cl cr) bv).2 br
              (by
                have h2 := size_split (node cv cp cl cr) bv
                simp only [size] at hlt hsc h2 ⊢
                omega)
              (valid_split bv hvc).2 hvbr
            obtain ⟨hvX, hmX, hpX⟩ := hX
            obtain ⟨hvY, hmY, hpY⟩ := hY
            have hmsplit := mem_split bv hpc' hbc
            have hpsplit := prios_mem_split bv hpc' hbc
            rw [bst_node_iff] at hbb
            rw [heap_node_iff] at hhb
            rw [posPrio_node_iff] at hpb
            have hXle : ∀ x ∈ toList (symdiff (split (node cv cp cl cr) bv).1 bl),
                x ≤ bv := by
              intro x hx
              rcases hmX x hx with hx | hx
              · exact split_fst_le bv hpc' hbc x hx
              · exact hbb.1 x hx
            have hYge : ∀ x ∈ toList (symdiff (split (node cv cp cl cr) bv).2 br),
                bv ≤ x := by
              intro x hx
              rcases hmY x hx with hx | hx
              · exact le_of_lt (split_snd_gt bv hpc' hbc x hx)
              · exact hbb.2.1 x hx
            have hXp : ∀ x ∈ prios (symdiff (split (node cv cp cl cr) bv).1 bl),
                bp ≤ x := by
              intro x hx
              rcases hpX x hx with hx | hx
              · exact le_trans hbpap (heap_prio_le hha x (hpc x (hpsplit.1 x hx)))
              · exact hhb.1 x hx
            have hYp : ∀ x ∈ prios (symdiff (split (node cv cp cl cr) bv).2 br),
                bp ≤ x := by
              intro x hx
              rcases hpY x hx with hx | hx
              · exact le_trans hbpap (heap_prio_le hha x (hpc x (hpsplit.2 x hx)))
              · exact hhb.2.1 x hx
            have hvZ := valid_build hvX hvY hpb.1 hXle hYge hXp hYp
            have hmZ : ∀ x ∈ toList (node bv bp
                (symdiff (split (node cv cp cl cr) bv).1 bl)
                (symdiff (split (node cv cp cl cr) bv).2 br)),
                x ∈ toList (node av ap al ar) ∨ x ∈ toList (node bv bp bl br) := by
              intro x hx
              rw [toList, List.mem_append, List.mem_cons] at hx
              rcases hx with hx | hx | hx
              · rcases hmX x hx with hx | hx
                · exact Or.inl (hmc x (hmsplit.1 x hx))
                · exact Or.inr (by
                    rw [toList, List.mem_append]
                    exact Or.inl hx)
              · exact Or.inr (by
                  rw [toList, List.mem_append, List.mem_cons]
                  exact Or.inr (Or.inl hx))
              · rcases hmY x hx with hx | hx
                · exact Or.inl (hmc x (hmsplit.2 x hx))
                · exact Or.inr (by
                    rw [toList, List.mem_append, List.mem_cons]
                    exact Or.inr (Or.inr hx))
            have hpZ : ∀ x ∈ prios (node bv bp
                (symdiff (split (node cv cp cl cr) bv).1 bl)
                (symdiff (split (node cv cp cl cr) bv).2 br)),
                x ∈ prios (node av ap al ar) ∨ x ∈ prios (node bv bp bl br) := by
              intro x hx
              rw [prios, List.mem_append, List.mem_cons] at hx
              rcases hx with hx | hx | hx
              · rcases hpX x hx with hx | hx
                · exact Or.inl (hpc x (hpsplit.1 x hx))
                · exact Or.inr (by
                    rw [prios, List.mem_append]
                    exact Or.inl hx)
              · exact Or.inr (by
                  rw [prios, List.mem_append, List.mem_cons]
                  exact Or.inr (Or.inl hx))
              · rcases hpY x hx with hx | hx
                · exact Or.inl (hpc x (hpsplit.2 x hx))
                · exact Or.inr (by
                    rw [prios, List.mem_append, List.mem_cons]
                    exact Or.inr (Or.inr hx))
            by_cases hib : contains (node av ap al ar) bv = true
            · rw [hib, xorTail_true]
              exact ⟨valid_delete_all _ hvZ,
                fun x hx => hmZ x (mem_toList_delete_all_subset _ _ x hx),
                fun x hx => hpZ x (prios_delete_all_subset _ _ x hx)⟩
            · have hfalse : contains (node av ap al ar) bv = false := by
                simpa using hib
              rw [hfalse, xorTail_false]
              obtain ⟨h1, h2, h3⟩ := dedup_root_props hvZ
              exact ⟨h1, fun x hx => hmZ x (h2 x hx), fun x hx => hpZ x (h3 x hx)⟩
  exact H (size a + size b + 1) a b (by omega) hva hvb

theorem sub_valid (a b : TN α) (hva : valid a = true) (hvb : valid b = true) :
    valid (sub a b) = true ∧
    (∀ x ∈ toList (sub a b), x ∈ toList a) ∧
    (∀ x ∈ prios (sub a b), x ∈ prios a) := by
  have H : ∀ n (a b : TN α), size a + size b < n →
      valid a = true → valid b = true →
      valid (sub a b) = true ∧
      (∀ x ∈ toList (sub a b), x ∈ toList a) ∧
      (∀ x ∈ prios (sub a b), x ∈ prios a) := by
    intro n
    induction n with
    | zero => intro _ _ h; omega
    | succ n ih =>
      intro a b hlt hva hvb
      match a, b with
      | nil, b =>
        rw [sub]
        exact ⟨valid_nil, by simp [toList], by simp [prios]⟩
      | node av ap al ar, nil =>
        rw [sub]
        exact ⟨hva, fun x hx => hx, fun x hx => hx⟩
      | node av ap al ar, node bv bp bl br =>
        obtain ⟨hvbl, hvbr⟩ := valid_node_parts hvb
        rw [sub]
        split
        · exact ⟨valid_nil, by simp [toList], by simp [prios]⟩
        · rename_i cv cp cl cr heq
          have hvc : valid (node cv cp cl cr) = true := by
            rw [← heq]
            exact valid_delete_all _ hva
          have hmc : ∀ x ∈ toList (node cv cp cl cr), x ∈ toList (node av ap al ar) := by
            rw [← heq]
            exact mem_toList_delete_all_subset _ _
          have hpc : ∀ x ∈ prios (node cv cp cl cr), x ∈ prios (node av ap al ar) := by
            rw [← heq]
            exact prios_delete_all_subset _ _
          have hsc : size (node cv cp cl cr) ≤ size (node av ap al ar) := by
            rw [← heq]
            exact size_delete_all_le _ _
          have hbc := (valid_iff.mp hvc).1
          have hpc' := (valid_iff.mp hvc).2.2
          have hX := ih (split (node cv cp cl cr) bv).1 bl
            (by
              have h2 := size_split (node cv cp cl cr) bv
              simp only [size] at hlt hsc h2 ⊢
              omega)
            (valid_split bv hvc).1 hvbl
          have hY := ih (split (node cv cp cl cr) bv).2 br
            (by
              have h2 := size_split (node cv cp cl cr) bv
              simp only [size] at hlt hsc h2 ⊢
              omega)
            (valid_split bv hvc).2 hvbr
          obtain ⟨hvX, hmX, hpX⟩ := hX
          obtain ⟨hvY, hmY, hpY⟩ := hY
          have hmsplit := mem_split bv hpc' hbc
          have hpsplit := prios_mem_split bv hpc' hbc
          have hXle : ∀ x ∈ toList (sub (split (node cv cp cl cr) bv).1 bl), x ≤ bv :=
            fun x hx => split_fst_le bv hpc' hbc x (hmX x hx)
          have hYge : ∀ x ∈ toList (sub (split (node cv cp cl cr) bv).2 br), bv ≤ x :=
            fun x hx => le_of_lt (split_snd_gt bv hpc' hbc x (hmY x hx))
          have hposa := (valid_iff.mp hva).2.2
          have hbZ : bst (node bv 0
              (sub (split (node cv cp cl cr) bv).1 bl)
              (sub (split (node cv cp cl cr) bv).2 br)) = true := by
            rw [bst_node_iff]
            exact ⟨hXle, hYge, (valid_iff.mp hvX).1, (valid_iff.mp hvY).1⟩
          obtain ⟨hd1, hd2, hd3, hd4⟩ :=
            delete_root_props hbZ (valid_iff.mp hvX).2.1 (valid_iff.mp hvY).2.1
          have hmem : ∀ x ∈ toList (delete_root (node bv 0
              (sub (split (node cv cp cl cr) bv).1 bl)
              (sub (split (node cv cp cl cr) bv).2 br))),
              x ∈ toList (node av ap al ar) := by
            intro x hx
            rcases hd3 x hx with hx | hx
            · exact hmc x (hmsplit.1 x (hmX x hx))
            · exact hmc x (hmsplit.2 x (hmY x hx))
          have hpri : ∀ x ∈ prios (delete_root (node bv 0
              (sub (split (node cv cp cl cr) bv).1 bl)
              (sub (split (node cv cp cl cr) bv).2 br))),
              x ∈ prios (node av ap al ar) := by
            intro x hx
            rcases hd4 x hx with hx | hx
            · exact hpc x (hpsplit.1 x (hpX x hx))
            · exact hpc x (hpsplit.2 x (hpY x hx))
          refine ⟨valid_iff.mpr ⟨hd1, hd2, ?_⟩, hmem, hpri⟩
          rw [posPrio_iff_forall]
          intro x hx
          exact posPrio_iff_forall.mp hposa x (hpri x hx)
  exact H (size a + size b + 1) a b (by omega) hva hvb


theorem valid_insert {t : TN α} (v : α) {p : ℚ} (hp : 0 < p) (hv : valid t = true) :
    valid (insert t v p) = true := by
  rw [valid_iff] at hv ⊢
  exact ⟨bst_insert v p hv.1, heap_insert v p hv.2.1, posPrio_insert v hp hv.2.2⟩

theorem valid_treapDelete {t : TN α} (v : α) (hv : valid t = true) :
    valid (treapDelete t v).1 = true := by
  match t with
  | nil => rw [treapDelete]; exact hv
  | node w q l r =>
    rw [treapDelete]
    rcases hd : delete (node w q l r) v with _ | t'
    · exact hv
    · rw [valid_iff] at hv ⊢
      exact ⟨bst_delete hd hv.1, heap_delete hd hv.2.1, posPrio_delete hd hv.2.2⟩

/-- Trees reachable from the empty treap through the mutating operations named by
the specification, each freshly drawn priority lying in `(0, 1)` (a nonzero draw of
`random()`). -/
inductive Reachable : TN α → Prop where
  | empty : Reachable nil
  | ins {t : TN α} {v : α} {p : ℚ} :
      Reachable t → 0 < p → p < 1 → Reachable (insert t v p)
  | del {t : TN α} (v : α) : Reachable t → Reachable (treapDelete t v).1
  | un {a b : TN α} : Reachable a → Reachable b → Reachable (treapOr a b)
  | int {a b : TN α} : Reachable a → Reachable b → Reachable (treapAnd a b)
  | diff {a b : TN α} : Reachable a → Reachable b → Reachable (treapSub a b)
  | sdiff {a b : TN α} : Reachable a → Reachable b → Reachable (treapXor a b)

theorem reachable_valid {t : TN α} (h : Reachable t) : valid t = true := by
  induction h with
  | empty => exact valid_nil
  | ins _ hp _ ih => exact valid_insert _ hp ih
  | del v _ ih => exact valid_treapDelete v ih
  | un _ _ iha ihb =>
    rw [treapOr, copy_eq, copy_eq]
    exact (union_valid _ _ iha ihb).1
  | int _ _ iha ihb =>
    rw [treapAnd, copy_eq, copy_eq]
    exact (inter_valid _ _ iha ihb).1
  | diff _ _ iha ihb =>
    rw [treapSub, copy_eq]
    exact (sub_valid _ _ iha ihb).1
  | sdiff _ _ iha ihb =>
    rw [treapXor, copy_eq, copy_eq]
    exact (symdiff_valid _ _ iha ihb).1

/-- Explicit-priority tree builder: the `Treap(iterable)` constructor inserts the
values one at a time in iteration order (its fetch/insert overlap is serialized, and
design §5 admits the sequential loop); the `random()` draws are passed explicitly. -/
def ofList : TN α → List (α × ℚ) → TN α
  | t, [] => t
  | t, vp :: rest => ofList (insert t vp.1 vp.2) rest


theorem toList_eq_nil_iff {t : TN α} : toList t = [] ↔ t = nil := by
  cases t with
  | nil => simp [toList]
  | node v p l r => simp [toList]

theorem takeWhile_append_split {p : α → Bool} {L1 L2 : List α}
    (h1 : ∀ x ∈ L1, p x = true) (h2 : ∀ x ∈ L2, p x = false) :
    (L1 ++ L2).takeWhile p = L1 ∧ (L1 ++ L2).dropWhile p = L2 := by
  induction L1 with
  | nil =>
    simp only [List.nil_append]
    cases L2 with
    | nil => simp
    | cons y ys =>
      rw [List.takeWhile_cons, List.dropWhile_cons, h2 y (List.mem_cons_self y ys)]
      simp
  | cons x xs ih =>
    obtain ⟨ihtw, ihdw⟩ := ih fun y hy => h1 y (List.mem_cons_of_mem x hy)
    rw [List.cons_append, List.takeWhile_cons, List.dropWhile_cons,
      h1 x (List.mem_cons_self x xs)]
    simp [ihtw, ihdw]

theorem sub_toList (a b : TN α) (hva : valid a = true) (hvb : valid b = true) :
    toList (sub a b) = (toList a).filter (fun x => decide (x ∉ toList b)) := by
  have H : ∀ n (a b : TN α), size a + size b < n →
      valid a = true → valid b = true →
      toList (sub a b) = (toList a).filter (fun x => decide (x ∉ toList b)) := by
    intro n
    induction n with
    | zero => intro _ _ h; omega
    | succ n ih =>
      intro a b hlt hva hvb
      match a, b with
      | nil, b => rw [sub]; simp [toList]
      | node av ap al ar, nil =>
        rw [sub]
        refine (List.filter_eq_self.mpr ?_).symm
        intro x hx
        simp [toList]
      | node av ap al ar, node bv bp bl br =>
        obtain ⟨hvbl, hvbr⟩ := valid_node_parts hvb
        have hba := (valid_iff.mp hva).1
        have hbb := (valid_iff.mp hvb).1
        rw [bst_node_iff] at hbb
        have hbvB : bv ∈ toList (node bv bp bl br) := by
          rw [toList, List.mem_append, List.mem_cons]
          exact Or.inr (Or.inl rfl)
        rw [sub]
        split
        · rename_i heq
          have hempty : (toList (node av ap al ar)).filter (fun x => decide (x ≠ bv)) = [] := by
            rw [← toList_delete_all_eq bv hba, heq, toList]
          refine (List.eq_nil_iff_forall_not_mem.mpr ?_).symm
          intro x hx
          have hmem := List.of_mem_filter hx
          have hx' := List.mem_of_mem_filter hx
          have hxbv : x = bv := by
            by_contra hne
            have : x ∈ (toList (node av ap al ar)).filter (fun y => decide (y ≠ bv)) :=
              List.mem_filter.mpr ⟨hx', by simpa using hne⟩
            rw [hempty] at this
            cases this
          rw [hxbv] at hmem
          simp at hmem
          exact hmem hbvB
        · rename_i cv cp cl cr heq
          have hvc : valid (node cv cp cl cr) = true := by
            rw [← heq]
            exact valid_delete_all _ hva
          have hsc : size (node cv cp cl cr) ≤ size (node av ap al ar) := by
            rw [← heq]
            exact size_delete_all_le _ _
          have hbc := (valid_iff.mp hvc).1
          have hpc' := (valid_iff.mp hvc).2.2
          have hClist : toList (node cv cp cl cr) =
              (toList (node av ap al ar)).filter (fun x => decide (x ≠ bv)) := by
            rw [← heq, toList_delete_all_eq bv hba]
          have hX := ih (split (node cv cp cl cr) bv).1 bl
            (by
              have h2 := size_split (node cv cp cl cr) bv
              simp only [size] at hlt hsc h2 ⊢
              omega)
            (valid_split bv hvc).1 hvbl
          have hY := ih (split (node cv cp cl cr) bv).2 br
            (by
              have h2 := size_split (node cv cp cl cr) bv
              simp only [size] at hlt hsc h2 ⊢
              omega)
            (valid_split bv hvc).2 hvbr
          rw [toList_delete_root, hX, hY]
          rw [split_toList₁ bv hpc' hbc, split_toList₂ bv hpc' hbc]
          -- abbreviations
          have hCnb : ∀ x ∈ toList (node cv cp cl cr), x ≠ bv := by
            intro x hx
            rw [hClist] at hx
            simpa using List.of_mem_filter hx
          have hTWlt : ∀ x ∈ (toList (node cv cp cl cr)).takeWhile
              (fun y => decide (y ≤ bv)), x < bv := by
            intro x hx
            have h1 : x ≤ bv := by
              simpa using List.mem_takeWhile_imp hx
            have h2 : x ≠ bv :=
              hCnb x ((List.takeWhile_sublist (fun y => decide (y ≤ bv))).subset hx)
            exact lt_of_le_of_ne h1 h2
          have hDWgt : ∀ x ∈ (toList (node cv cp cl cr)).dropWhile
              (fun y => decide (y ≤ bv)), bv < x :=
            fun x hx => mem_dropWhile_sorted (sorted_toList hbc) hx
          have hstepA : ((toList (node cv cp cl cr)).takeWhile
                (fun y => decide (y ≤ bv))).filter (fun x => decide (x ∉ toList bl)) =
              ((toList (node cv cp cl cr)).takeWhile
                (fun y => decide (y ≤ bv))).filter
                (fun x => decide (x ∉ toList (node bv bp bl br))) := by
            refine List.filter_congr ?_
            intro x hx
            refine decide_eq_decide.mpr ?_
            have hxlt := hTWlt x hx
            rw [toList, List.mem_append, List.mem_cons]
            constructor
            · intro hnb hc
              rcases hc with hc | hc | hc
              · exact hnb hc
              · exact absurd hc (ne_of_lt hxlt)
              · exact absurd (hbb.2.1 x hc) (not_le.mpr hxlt)
            · intro hnb hc
              exact hnb (Or.inl hc)
          have hstepB : ((toList (node cv cp cl cr)).dropWhile
                (fun y => decide (y ≤ bv))).filter (fun x => decide (x ∉ toList br)) =
              ((toList (node cv cp cl cr)).dropWhile
                (fun y => decide (y ≤ bv))).filter
                (fun x => decide (x ∉ toList (node bv bp bl br))) := by
            refine List.filter_congr ?_
            intro x hx
            refine decide_eq_decide.mpr ?_
            have hxgt := hDWgt x hx
            rw [toList, List.mem_append, List.mem_cons]
            constructor
            · intro hnb hc
              rcases hc with hc | hc | hc
              · exact absurd (hbb.1 x hc) (not_le.mpr hxgt)
              · exact absurd hc.symm (ne_of_lt hxgt)
              · exact hnb hc
            · intro hnb hc
              exact hnb (Or.inr (Or.inr hc))
          rw [hstepA, hstepB, ← List.filter_append, List.takeWhile_append_dropWhile]
          rw [hClist, List.filter_filter]
          refine List.filter_congr ?_
          intro x hx
          by_cases hxbv : x = bv
          · subst hxbv
            simp [hbvB]
          · simp [hxbv]
  exact H (size a + size b + 1) a b (by omega) hva hvb

theorem sub_self {t : TN α} (hv : valid t = true) : sub t t = nil := by
  rw [← toList_eq_nil_iff, sub_toList t t hv hv]
  refine List.filter_eq_nil_iff.mpr ?_
  intro a ha
  simp [ha]

theorem mem_split_of_le {t : TN α} (v : α) (hp : posPrio t = true) (hb : bst t = true)
    {z : α} (hz : z ∈ toList t) (hle : z ≤ v) : z ∈ toList (split t v).1 := by
  have h := toList_split_append v hp hb
  rw [← h, List.mem_append] at hz
  rcases hz with hz | hz
  · exact hz
  · exact absurd (split_snd_gt v hp hb z hz) (not_lt.mpr hle)

theorem mem_split_of_gt {t : TN α} (v : α) (hp : posPrio t = true) (hb : bst t = true)
    {z : α} (hz : z ∈ toList t) (hgt : v < z) : z ∈ toList (split t v).2 := by
  have h := toList_split_append v hp hb
  rw [← h, List.mem_append] at hz
  rcases hz with hz | hz
  · exact absurd (split_fst_le v hp hb z hz) (not_le.mpr hgt)
  · exact hz

/-- Every value of a symmetric difference lies in exactly one of the two operands:
`__xor__` removes every copy of a value shared by both sides and keeps (one copy of)
a value held by only one side. -/
theorem symdiff_mem_xor (a b : TN α) (hva : valid a = true) (hvb : valid b = true) :
    ∀ z ∈ toList (symdiff a b),
      (z ∈ toList a ∧ z ∉ toList b) ∨ (z ∉ toList a ∧ z ∈ toList b) := by
  have H : ∀ n (a b : TN α), size a + size b < n →
      valid a = true → valid b = true →
      ∀ z ∈ toList (symdiff a b),
        (z ∈ toList a ∧ z ∉ toList b) ∨ (z ∉ toList a ∧ z ∈ toList b) := by
    intro n
    induction n with
    | zero => intro _ _ h; omega
    | succ n ih =>
      intro a b hlt hva hvb
      match a, b with
      | nil, nil =>
        rw [symdiff]
        intro z hz
        simp [toList] at hz
      | nil, node bv bp bl br =>
        rw [symdiff]
        intro z hz
        exact Or.inr ⟨by simp [toList], (unique_props hvb).2.1 z hz⟩
      | node av ap al ar, nil =>
        rw [symdiff]
        intro z hz
        exact Or.inl ⟨(unique_props hva).2.1 z hz, by simp [toList]⟩
      | node av ap al ar, node bv bp bl br =>
        obtain ⟨hval, hvar⟩ := valid_node_parts hva
        obtain ⟨hvbl, hvbr⟩ := valid_node_parts hvb
        have hba := (valid_iff.mp hva).1
        have hbb := (valid_iff.mp hvb).1
        rw [symdiff]
        by_cases hap : ap < bp
        · rw [if_pos hap]
          split
          · rename_i heq
            intro z hz
            rw [toList_delete_all_eq av hba, List.mem_filter] at hz
            obtain ⟨hza, hzav⟩ := hz
            have hzav' : z ≠ av := by simpa using hzav
            refine Or.inl ⟨hza, ?_⟩
            intro hzb
            have hzc : z ∈ toList (delete_all (node bv bp bl br) av) := by
              rw [toList_delete_all_eq av hbb, List.mem_filter]
              exact ⟨hzb, by simpa using hzav'⟩
            rw [heq] at hzc
            simp [toList] at hzc
          · rename_i cv cp cl cr heq
            have hvc : valid (node cv cp cl cr) = true := by
              rw [← heq]; exact valid_delete_all _ hvb
            have hsc : size (node cv cp cl cr) ≤ size (node bv bp bl br) := by
              rw [← heq]; exact size_delete_all_le _ _
            have hbc := (valid_iff.mp hvc).1
            have hpc' := (valid_iff.mp hvc).2.2
            have hTc : toList (node cv cp cl cr)
                = (toList (node bv bp bl br)).filter (fun x => decide (x ≠ av)) := by
              rw [← heq]; exact toList_delete_all_eq av hbb
            have hmcIff : ∀ z : α, z ∈ toList (node cv cp cl cr) ↔
                z ∈ toList (node bv bp bl br) ∧ z ≠ av := by
              intro z
              rw [hTc, List.mem_filter]
              simp
            have hX := ih al (split (node cv cp cl cr) av).1
              (by
                have h2 := size_split (node cv cp cl cr) av
                simp only [size] at hlt hsc h2 ⊢
                omega)
              hval (valid_split av hvc).1
            have hY := ih ar (split (node cv cp cl cr) av).2
              (by
                have h2 := size_split (node cv cp cl cr) av
                simp only [size] at hlt hsc h2 ⊢
                omega)
              hvar (valid_split av hvc).2
            have hbaP := hba
            rw [bst_node_iff] at hbaP
            have hallt : ∀ x ∈ toList al, x ≤ av := hbaP.1
            have harge : ∀ x ∈ toList ar, av ≤ x := hbaP.2.1
            have hs1lt : ∀ x ∈ toList (split (node cv cp cl cr) av).1, x < av := by
              intro x hx
              exact lt_of_le_of_ne (split_fst_le av hpc' hbc x hx)
                ((hmcIff x).mp ((mem_split av hpc' hbc).1 x hx)).2
            have hs2gt : ∀ x ∈ toList (split (node cv cp cl cr) av).2, av < x :=
              split_snd_gt av hpc' hbc
            have hmain : ∀ z : α, z ≠ av →
                (z ∈ toList (symdiff al (split (node cv cp cl cr) av).1) ∨
                 z ∈ toList (symdiff ar (split (node cv cp cl cr) av).2)) →
                ((z ∈ toList (node av ap al ar) ∧ z ∉ toList (node bv bp bl br)) ∨
                 (z ∉ toList (node av ap al ar) ∧ z ∈ toList (node bv bp bl br))) := by
              intro z hzav hz
              rcases hz with hz | hz
              · rcases hX z hz with ⟨h1, h2⟩ | ⟨h1, h2⟩
                · refine Or.inl ⟨?_, ?_⟩
                  · rw [toList, List.mem_append]
                    exact Or.inl h1
                  · intro hzb
                    have hzc : z ∈ toList (node cv cp cl cr) :=
                      (hmcIff z).mpr ⟨hzb, hzav⟩
                    exact h2 (mem_split_of_le av hpc' hbc hzc (hallt z h1))
                · refine Or.inr ⟨?_, ((hmcIff z).mp ((mem_split av hpc' hbc).1 z h2)).1⟩
                  intro hza
                  have hzlt : z < av := hs1lt z h2
                  rw [toList, List.mem_append, List.mem_cons] at hza
                  rcases hza with hc | hc | hc
                  · exact h1 hc
                  · exact hzav hc
                  · exact absurd (harge z hc) (not_le.mpr hzlt)
              · rcases hY z hz with ⟨h1, h2⟩ | ⟨h1, h2⟩
                · refine Or.inl ⟨?_, ?_⟩
                  · rw [toList, List.mem_append, List.mem_cons]
                    exact Or.inr (Or.inr h1)
                  · intro hzb
                    have hzc : z ∈ toList (node cv cp cl cr) :=
                      (hmcIff z).mpr ⟨hzb, hzav⟩
                    exact h2 (mem_split_of_gt av hpc' hbc hzc
                      (lt_of_le_of_ne (harge z h1) (Ne.symm hzav)))
                · refine Or.inr ⟨?_, ((hmcIff z).mp ((mem_split av hpc' hbc).2 z h2)).1⟩
                  intro hza
                  have hzgt : av < z := hs2gt z h2
                  rw [toList, List.mem_append, List.mem_cons] at hza
                  rcases hza with hc | hc | hc
                  · exact absurd (hallt z hc) (not_le.mpr hzgt)
                  · exact hzav hc
                  · exact h1 hc
            have hvX := symdiff_valid al (split (node cv cp cl cr) av).1 hval
              (valid_split av hvc).1
            have hvY := symdiff_valid ar (split (node cv cp cl cr) av).2 hvar
              (valid_split av hvc).2
            have hbX := (valid_iff.mp hvX.1).1
            have hbY := (valid_iff.mp hvY.1).1
            have hXle : ∀ x ∈ toList (symdiff al (split (node cv cp cl cr) av).1),
                x ≤ av := by
              intro x hx
              rcases hvX.2.1 x hx with hx | hx
              · exact hallt x hx
              · exact le_of_lt (hs1lt x hx)
            have hYge : ∀ x ∈ toList (symdiff ar (split (node cv cp cl cr) av).2),
                av ≤ x := by
              intro x hx
              rcases hvY.2.1 x hx with hx | hx
              · exact harge x hx
              · exact le_of_lt (hs2gt x hx)
            have hbZ : bst (node av ap
                (symdiff al (split (node cv cp cl cr) av).1)
                (symdiff ar (split (node cv cp cl cr) av).2)) = true :=
              bst_node_iff.mpr ⟨hXle, hYge, hbX, hbY⟩
            by_cases hib : contains (node bv bp bl br) av = true
            · rw [hib, xorTail_true]
              intro z hz
              rw [toList_delete_all_eq av hbZ, List.mem_filter] at hz
              obtain ⟨hz, hzav⟩ := hz
              have hzav' : z ≠ av := by simpa using hzav
              rw [toList, List.mem_append, List.mem_cons] at hz
              rcases hz with hz | hz | hz
              · exact hmain z hzav' (Or.inl hz)
              · exact absurd hz hzav'
              · exact hmain z hzav' (Or.inr hz)
            · have hfalse : contains (node bv bp bl br) av = false := by
                simpa using hib
              rw [hfalse, xorTail_false]
              intro z hz
              rw [toList, List.mem_append, List.mem_cons] at hz
              rcases hz with hz | hz | hz
              · rw [toList_delete_all_eq av hbX, List.mem_filter] at hz
                exact hmain z (by simpa using hz.2) (Or.inl hz.1)
              · subst hz
                refine Or.inl ⟨?_, ?_⟩
                · rw [toList, List.mem_append, List.mem_cons]
                  exact Or.inr (Or.inl rfl)
                · intro hzb
                  exact hib ((contains_iff_mem hbb).mpr hzb)
              · rw [toList_delete_all_eq av hbY, List.mem_filter] at hz
                exact hmain z (by simpa using hz.2) (Or.inr hz.1)
        · rw [if_neg hap]
          split
          · rename_i heq
            intro z hz
            rw [toList_delete_all_eq bv hbb, List.mem_filter] at hz
            obtain ⟨hzb, hzbv⟩ := hz
            have hzbv' : z ≠ bv := by simpa using hzbv
            refine Or.inr ⟨?_, hzb⟩
            intro hza
            have hzc : z ∈ toList (delete_all (node av ap al ar) bv) := by
              rw [toList_delete_all_eq bv hba, List.mem_filter]
              exact ⟨hza, by simpa using hzbv'⟩
            rw [heq] at hzc
            simp [toList] at hzc
          · rename_i cv cp cl cr heq
            have hvc : valid (node cv cp cl cr) = true := by
              rw [← heq]; exact valid_delete_all _ hva
            have hsc : size (node cv cp cl cr) ≤ size (node av ap al ar) := by
              rw [← heq]; exact size_delete_all_le _ _
            have hbc := (valid_iff.mp hvc).1
            have hpc' := (valid_iff.mp hvc).2.2
            have hTc : toList (node cv cp cl cr)
                = (toList (node av ap al ar)).filter (fun x => decide (x ≠ bv)) := by
              rw [← heq]; exact toList_delete_all_eq bv hba
            have hmcIff : ∀ z : α, z ∈ toList (node cv cp cl cr) ↔
                z ∈ toList (node av ap al ar) ∧ z ≠ bv := by
              intro z
              rw [hTc, List.mem_filter]
              simp
            have hX := ih (split (node cv cp cl cr) bv).1 bl
              (by
                have h2 := size_split (node cv cp cl cr) bv
                simp only [size] at hlt hsc h2 ⊢
                omega)
              (valid_split bv hvc).1 hvbl
            have hY := ih (split (node cv cp cl cr) bv).2 br
              (by
                have h2 := size_split (node cv cp cl cr) bv
                simp only [size] at hlt hsc h2 ⊢
                omega)
              (valid_split bv hvc).2 hvbr
            have hbbP := hbb
            rw [bst_node_iff] at hbbP
            have hbllt : ∀ x ∈ toList bl, x ≤ bv := hbbP.1
            have hbrge : ∀ x ∈ toList br, bv ≤ x := hbbP.2.1
            have hs1lt : ∀ x ∈ toList (split (node cv cp cl cr) bv).1, x < bv := by
              intro x hx
              exact lt_of_le_of_ne (split_fst_le bv hpc' hbc x hx)
                ((hmcIff x).mp ((mem_split bv hpc' hbc).1 x hx)).2
            have hs2gt : ∀ x ∈ toList (split (node cv cp cl cr) bv).2, bv < x :=
              split_snd_gt bv hpc' hbc
            have hmain : ∀ z : α, z ≠ bv →
                (z ∈ toList (symdiff (split (node cv cp cl cr) bv).1 bl) ∨
                 z ∈ toList (symdiff (split (node cv cp cl cr) bv).2 br)) →
                ((z ∈ toList (node av ap al ar) ∧ z ∉ toList (node bv bp bl br)) ∨
                 (z ∉ toList (node av ap al ar) ∧ z ∈ toList (node bv bp bl br))) := by
              intro z hzbv hz
              rcases hz with hz | hz
              · rcases hX z hz with ⟨h1, h2⟩ | ⟨h1, h2⟩
                · refine Or.inl ⟨((hmcIff z).mp ((mem_split bv hpc' hbc).1 z h1)).1, ?_⟩
                  intro hzb
                  have hzlt : z < bv := hs1lt z h1
                  rw [toList, List.mem_append, List.mem_cons] at hzb
                  rcases hzb with hc | hc | hc
                  · exact h2 hc
                  · exact hzbv hc
                  · exact absurd (hbrge z hc) (not_le.mpr hzlt)
                · refine Or.inr ⟨?_, ?_⟩
                  · intro hza
                    have hzc : z ∈ toList (node cv cp cl cr) :=
                      (hmcIff z).mpr ⟨hza, hzbv⟩
                    exact h1 (mem_split_of_le bv hpc' hbc hzc (hbllt z h2))
                  · rw [toList, List.mem_append]
                    exact Or.inl h2
              · rcases hY z hz with ⟨h1, h2⟩ | ⟨h1, h2⟩
                · refine Or.inl ⟨((hmcIff z).mp ((mem_split bv hpc' hbc).2 z h1)).1, ?_⟩
                  intro hzb
                  have hzgt : bv < z := hs2gt z h1
                  rw [toList, List.mem_append, List.mem_cons] at hzb
                  rcases hzb with hc | hc | hc
                  · exact absurd (hbllt z hc) (not_le.mpr hzgt)
                  · exact hzbv hc
                  · exact h2 hc
                · refine Or.inr ⟨?_, ?_⟩
                  · intro hza
                    have hzc : z ∈ toList (node cv cp cl cr) :=
                      (hmcIff z).mpr ⟨hza, hzbv⟩
                    exact h1 (mem_split_of_gt bv hpc' hbc hzc
                      (lt_of_le_of_ne (hbrge z h2) (Ne.symm hzbv)))
                  · rw [toList, List.mem_append, List.mem_cons]
                    exact Or.inr (Or.inr h2)
            have hvX := symdiff_valid (split (node cv cp cl cr) bv).1 bl
              (valid_split bv hvc).1 hvbl
            have hvY := symdiff_valid (split (node cv cp cl cr) bv).2 br
              (valid_split bv hvc).2 hvbr
            have hbX := (valid_iff.mp hvX.1).1
            have hbY := (valid_iff.mp hvY.1).1
            have hXle : ∀ x ∈ toList (symdiff (split (node cv cp cl cr) bv).1 bl),
                x ≤ bv := by
              intro x hx
              rcases hvX.2.1 x hx with hx | hx
              · exact le_of_lt (hs1lt x hx)
              · exact hbllt x hx
            have hYge : ∀ x ∈ toList (symdiff (split (node cv cp cl cr) bv).2 br),
                bv ≤ x := by
              intro x hx
              rcases hvY.2.1 x hx with hx | hx
              · exact le_of_lt (hs2gt x hx)
              · exact hbrge x hx
            have hbZ : bst (node bv bp
                (symdiff (split (node cv cp cl cr) bv).1 bl)
                (symdiff (split (node cv cp cl cr) bv).2 br)) = true :=
              bst_node_iff.mpr ⟨hXle, hYge, hbX, hbY⟩
            by_cases hib : contains (node av ap al ar) bv = true
            · rw [hib, xorTail_true]
              intro z hz
              rw [toList_delete_all_eq bv hbZ, List.mem_filter] at hz
              obtain ⟨hz, hzbv⟩ := hz
              have hzbv' : z ≠ bv := by simpa using hzbv
              rw [toList, List.mem_append, List.mem_cons] at hz
              rcases hz with hz | hz | hz
              · exact hmain z hzbv' (Or.inl hz)
              · exact absurd hz hzbv'
              · exact hmain z hzbv' (Or.inr hz)
            · have hfalse : contains (node av ap al ar) bv = false := by
                simpa using hib
              rw [hfalse, xorTail_false]
              intro z hz
              rw [toList, List.mem_append, List.mem_cons] at hz
              rcases hz with hz | hz | hz
              · rw [toList_delete_all_eq bv hbX, List.mem_filter] at hz
                exact hmain z (by simpa using hz.2) (Or.inl hz.1)
              · subst hz
                refine Or.inr ⟨?_, ?_⟩
                · intro hza
                  exact hib ((contains_iff_mem hba).mpr hza)
                · rw [toList, List.mem_append, List.mem_cons]
                  exact Or.inr (Or.inl rfl)
              · rw [toList_delete_all_eq bv hbY, List.mem_filter] at hz
                exact hmain z (by simpa using hz.2) (Or.inr hz.1)
  exact H (size a + size b + 1) a b (by omega) hva hvb

theorem symdiff_self {t : TN α} (hv : valid t = true) : symdiff t t = nil := by
  rw [← toList_eq_nil_iff]
  by_contra hne
  obtain ⟨z, hz⟩ := List.exists_mem_of_ne_nil _ hne
  rcases symdiff_mem_xor t t hv hv z hz with ⟨h1, h2⟩ | ⟨h1, h2⟩
  · exact h2 h1
  · exact h1 h2

theorem nodup_node_parts {v : α} {p : ℚ} {l r : TN α}
    (hnd : (toList (node v p l r)).Nodup) :
    (toList l).Nodup ∧ (toList r).Nodup ∧ v ∉ toList l ∧ v ∉ toList r := by
  rw [toList, List.nodup_append] at hnd
  obtain ⟨h1, h2, h3⟩ := hnd
  obtain ⟨h4, h5⟩ := List.nodup_cons.mp h2
  exact ⟨h1, h5, fun hm => h3 hm (List.mem_cons_self v (toList r)), h4⟩

theorem bst_nodup_strict {v : α} {p : ℚ} {l r : TN α}
    (hb : bst (node v p l r) = true) (hnd : (toList (node v p l r)).Nodup) :
    (∀ x ∈ toList l, x < v) ∧ (∀ x ∈ toList r, v < x) := by
  obtain ⟨-, -, hvl, hvr⟩ := nodup_node_parts hnd
  rw [bst_node_iff] at hb
  constructor
  · intro x hx
    exact lt_of_le_of_ne (hb.1 x hx) (fun he => hvl (he ▸ hx))
  · intro x hx
    exact lt_of_le_of_ne (hb.2.1 x hx) (fun he => hvr (he ▸ hx))

theorem filter_ne_root_of_nodup {v : α} {p : ℚ} {l r : TN α}
    (hnd : (toList (node v p l r)).Nodup) :
    (toList (node v p l r)).filter (fun x => decide (x ≠ v)) = toList l ++ toList r := by
  obtain ⟨-, -, hvl, hvr⟩ := nodup_node_parts hnd
  rw [toList, List.filter_append, List.filter_cons]
  have hvv : (decide (v ≠ v) = true) = False := by simp
  rw [if_neg (by simp)]
  have h1 : (toList l).filter (fun x => decide (x ≠ v)) = toList l :=
    List.filter_eq_self.mpr fun a ha =>
      decide_eq_true (fun he : a = v => hvl (he ▸ ha))
  have h2 : (toList r).filter (fun x => decide (x ≠ v)) = toList r :=
    List.filter_eq_self.mpr fun a ha =>
      decide_eq_true (fun he : a = v => hvr (he ▸ ha))
  rw [h1, h2]

theorem split_parts_eq {c : TN α} (v : α) (hvc : valid c = true)
    {L R : List α} (hc : toList c = L ++ R)
    (hL : ∀ x ∈ L, x < v) (hR : ∀ x ∈ R, v < x) :
    toList (split c v).1 = L ∧ toList (split c v).2 = R := by
  have hb := (valid_iff.mp hvc).1
  have hp := (valid_iff.mp hvc).2.2
  rw [split_toList₁ v hp hb, split_toList₂ v hp hb, hc]
  exact takeWhile_append_split
    (fun x hx => decide_eq_true (le_of_lt (hL x hx)))
    (fun x hx => decide_eq_false (not_le.mpr (hR x hx)))

/-- `a | b` on duplicate-free, value-equal operands returns exactly the common value
sequence: each recursive step keeps the winning root and pairs its children with the
matching halves of the other operand. -/
theorem union_idem_toList (a b : TN α) (hva : valid a = true) (hvb : valid b = true)
    (hnd : (toList a).Nodup) (hab : toList a = toList b) :
    toList (union a b) = toList a := by
  have H : ∀ n (a b : TN α), size a + size b < n →
      valid a = true → valid b = true →
      (toList a).Nodup → toList a = toList b →
      toList (union a b) = toList a := by
    intro n
    induction n with
    | zero => intro _ _ h; omega
    | succ n ih =>
      intro a b hlt hva hvb hnd hab
      match a, b with
      | nil, nil =>
        rw [union]
      | nil, node bv bp bl br =>
        simp [toList] at hab
      | node av ap al ar, nil =>
        simp [toList] at hab
      | node av ap al ar, node bv bp bl br =>
        obtain ⟨hval, hvar⟩ := valid_node_parts hva
        obtain ⟨hvbl, hvbr⟩ := valid_node_parts hvb
        have hba := (valid_iff.mp hva).1
        have hbb := (valid_iff.mp hvb).1
        have hndb : (toList (node bv bp bl br)).Nodup := hab ▸ hnd
        obtain ⟨hndal, hndar, havl, havr⟩ := nodup_node_parts hnd
        obtain ⟨hndbl, hndbr, hbvl, hbvr⟩ := nodup_node_parts hndb
        obtain ⟨hlta, hgta⟩ := bst_nodup_strict hba hnd
        obtain ⟨hltb, hgtb⟩ := bst_nodup_strict hbb hndb
        have hfa := filter_ne_root_of_nodup (v := av) (p := ap) (l := al) (r := ar) hnd
        have hfb := filter_ne_root_of_nodup (v := bv) (p := bp) (l := bl) (r := br) hndb
        have havmem : av ∈ toList (node av ap al ar) := by
          rw [toList, List.mem_append, List.mem_cons]
          exact Or.inr (Or.inl rfl)
        have hbvmem : bv ∈ toList (node bv bp bl br) := by
          rw [toList, List.mem_append, List.mem_cons]
          exact Or.inr (Or.inl rfl)
        rw [union]
        by_cases hap : ap < bp
        · rw [if_pos hap]
          have hcb : contains (node bv bp bl br) av = true :=
            (contains_iff_mem hbb).mpr (by rw [← hab]; exact havmem)
          split
          · rename_i heq
            rw [if_pos hcb] at heq
            have h0 : toList al ++ toList ar = [] := by
              rw [← hfa, hab, ← toList_delete_all_eq av hbb, heq, toList]
            obtain ⟨h2, h3⟩ := List.append_eq_nil.mp h0
            rw [toList_eq_nil_iff.mp h2, toList_eq_nil_iff.mp h3,
              delete_all_of_not_contains (by simp [contains])]
          · rename_i cv cp cl cr heq
            rw [if_pos hcb] at heq
            have hvc : valid (node cv cp cl cr) = true := by
              rw [← heq]; exact valid_delete_all _ hvb
            have hsc : size (node cv cp cl cr) ≤ size (node bv bp bl br) := by
              rw [← heq]; exact size_delete_all_le _ _
            have hTc : toList (node cv cp cl cr) = toList al ++ toList ar := by
              rw [← heq, toList_delete_all_eq av hbb, ← hab, hfa]
            obtain ⟨hs1, hs2⟩ := split_parts_eq av hvc hTc hlta hgta
            have hdal : delete_all al av = al :=
              delete_all_of_not_contains
                (fun h => havl ((contains_iff_mem (valid_iff.mp hval).1).mp h))
            have hdar : delete_all ar av = ar :=
              delete_all_of_not_contains
                (fun h => havr ((contains_iff_mem (valid_iff.mp hvar).1).mp h))
            rw [hdal, hdar]
            have hIH1 : toList (union al (split (node cv cp cl cr) av).1) = toList al :=
              ih al (split (node cv cp cl cr) av).1
                (by
                  have h2 := size_split (node cv cp cl cr) av
                  simp only [size] at hlt hsc h2 ⊢
                  omega)
                hval (valid_split av hvc).1 hndal hs1.symm
            have hIH2 : toList (union ar (split (node cv cp cl cr) av).2) = toList ar :=
              ih ar (split (node cv cp cl cr) av).2
                (by
                  have h2 := size_split (node cv cp cl cr) av
                  simp only [size] at hlt hsc h2 ⊢
                  omega)
                hvar (valid_split av hvc).2 hndar hs2.symm
            rw [toList, hIH1, hIH2, toList]
        · rw [if_neg hap]
          have hca : contains (node av ap al ar) bv = true :=
            (contains_iff_mem hba).mpr (by rw [hab]; exact hbvmem)
          split
          · rename_i heq
            rw [if_pos hca] at heq
            have h0 : toList bl ++ toList br = [] := by
              rw [← hfb, ← hab, ← toList_delete_all_eq bv hba, heq, toList]
            obtain ⟨h2, h3⟩ := List.append_eq_nil.mp h0
            rw [hab, toList_eq_nil_iff.mp h2, toList_eq_nil_iff.mp h3,
              delete_all_of_not_contains (by simp [contains])]
          · rename_i cv cp cl cr heq
            rw [if_pos hca] at heq
            have hvc : valid (node cv cp cl cr) = true := by
              rw [← heq]; exact valid_delete_all _ hva
            have hsc : size (node cv cp cl cr) ≤ size (node av ap al ar) := by
              rw [← heq]; exact size_delete_all_le _ _
            have hTc : toList (node cv cp cl cr) = toList bl ++ toList br := by
              rw [← heq, toList_delete_all_eq bv hba, hab, hfb]
            obtain ⟨hs1, hs2⟩ := split_parts_eq bv hvc hTc hltb hgtb
            have hdbl : delete_all bl bv = bl :=
              delete_all_of_not_contains
                (fun h => hbvl ((contains_iff_mem (valid_iff.mp hvbl).1).mp h))
            have hdbr : delete_all br bv = br :=
              delete_all_of_not_contains
                (fun h => hbvr ((contains_iff_mem (valid_iff.mp hvbr).1).mp h))
            rw [hdbl, hdbr]
            have hIH1 : toList (union (split (node cv cp cl cr) bv).1 bl)
                = toList (split (node cv cp cl cr) bv).1 :=
              ih (split (node cv cp cl cr) bv).1 bl
                (by
                  have h2 := size_split (node cv cp cl cr) bv
                  simp only [size] at hlt hsc h2 ⊢
                  omega)
                (valid_split bv hvc).1 hvbl (by rw [hs1]; exact hndbl) (by rw [hs1])
            have hIH2 : toList (union (split (node cv cp cl cr) bv).2 br)
                = toList (split (node cv cp cl cr) bv).2 :=
              ih (split (node cv cp cl cr) bv).2 br
                (by
                  have h2 := size_split (node cv cp cl cr) bv
                  simp only [size] at hlt hsc h2 ⊢
                  omega)
                (valid_split bv hvc).2 hvbr (by rw [hs2]; exact hndbr) (by rw [hs2])
            rw [toList, hIH1, hIH2, hs1, hs2, hab, toList]
  exact H (size a + size b + 1) a b (by omega) hva hvb hnd hab

/-- `a & b` on duplicate-free, value-equal operands returns exactly the common value
sequence (every root value is shared, so each `in_both` test succeeds). -/
theorem inter_idem_toList (a b : TN α) (hva : valid a = true) (hvb : valid b = true)
    (hnd : (toList a).Nodup) (hab : toList a = toList b) :
    toList (inter a b) = toList a := by
  have H : ∀ n (a b : TN α), size a + size b < n →
      valid a = true → valid b = true →
      (toList a).Nodup → toList a = toList b →
      toList (inter a b) = toList a := by
    intro n
    induction n with
    | zero => intro _ _ h; omega
    | succ n ih =>
      intro a b hlt hva hvb hnd hab
      match a, b with
      | nil, b =>
        rw [inter]
      | node av ap al ar, nil =>
        simp [toList] at hab
      | node av ap al ar, node bv bp bl br =>
        obtain ⟨hval, hvar⟩ := valid_node_parts hva
        obtain ⟨hvbl, hvbr⟩ := valid_node_parts hvb
        have hba := (valid_iff.mp hva).1
        have hbb := (valid_iff.mp hvb).1
        have hndb : (toList (node bv bp bl br)).Nodup := hab ▸ hnd
        obtain ⟨hndal, hndar, havl, havr⟩ := nodup_node_parts hnd
        obtain ⟨hndbl, hndbr, hbvl, hbvr⟩ := nodup_node_parts hndb
        obtain ⟨hlta, hgta⟩ := bst_nodup_strict hba hnd
        obtain ⟨hltb, hgtb⟩ := bst_nodup_strict hbb hndb
        have hfa := filter_ne_root_of_nodup (v := av) (p := ap) (l := al) (r := ar) hnd
        have hfb := filter_ne_root_of_nodup (v := bv) (p := bp) (l := bl) (r := br) hndb
        have havmem : av ∈ toList (node av ap al ar) := by
          rw [toList, List.mem_append, List.mem_cons]
          exact Or.inr (Or.inl rfl)
        have hbvmem : bv ∈ toList (node bv bp bl br) := by
          rw [toList, List.mem_append, List.mem_cons]
          exact Or.inr (Or.inl rfl)
        rw [inter]
        by_cases hap : ap < bp
        · rw [if_pos hap]
          have hcb : contains (node bv bp bl br) av = true :=
            (contains_iff_mem hbb).mpr (by rw [← hab]; exact havmem)
          split
          · rename_i heq
            rw [if_pos hcb] at heq
            have h0 : toList al ++ toList ar = [] := by
              rw [← hfa, hab, ← toList_delete_all_eq av hbb, heq, toList]
            obtain ⟨h2, h3⟩ := List.append_eq_nil.mp h0
            rw [toList_eq_nil_iff.mp h2, toList_eq_nil_iff.mp h3,
              delete_all_of_not_contains (by simp [contains])]
          · rename_i cv cp cl cr heq
            rw [if_pos hcb] at heq
            have hvc : valid (node cv cp cl cr) = true := by
              rw [← heq]; exact valid_delete_all _ hvb
            have hsc : size (node cv cp cl cr) ≤ size (node bv bp bl br) := by
              rw [← heq]; exact size_delete_all_le _ _
            have hTc : toList (node cv cp cl cr) = toList al ++ toList ar := by
              rw [← heq, toList_delete_all_eq av hbb, ← hab, hfa]
            obtain ⟨hs1, hs2⟩ := split_parts_eq av hvc hTc hlta hgta
            have hdal : delete_all al av = al :=
              delete_all_of_not_contains
                (fun h => havl ((contains_iff_mem (valid_iff.mp hval).1).mp h))
            have hdar : delete_all ar av = ar :=
              delete_all_of_not_contains
                (fun h => havr ((contains_iff_mem (valid_iff.mp hvar).1).mp h))
            rw [hcb, interTail_true, hdal, hdar]
            have hIH1 : toList (inter al (split (node cv cp cl cr) av).1) = toList al :=
              ih al (split (node cv cp cl cr) av).1
                (by
                  have h2 := size_split (node cv cp cl cr) av
                  simp only [size] at hlt hsc h2 ⊢
                  omega)
                hval (valid_split av hvc).1 hndal hs1.symm
            have hIH2 : toList (inter ar (split (node cv cp cl cr) av).2) = toList ar :=
              ih ar (split (node cv cp cl cr) av).2
                (by
                  have h2 := size_split (node cv cp cl cr) av
                  simp only [size] at hlt hsc h2 ⊢
                  omega)
                hvar (valid_split av hvc).2 hndar hs2.symm
            rw [toList, hIH1, hIH2, toList]
        · rw [if_neg hap]
          have hca : contains (node av ap al ar) bv = true :=
            (contains_iff_mem hba).mpr (by rw [hab]; exact hbvmem)
          split
          · rename_i heq
            rw [if_pos hca] at heq
            have h0 : toList bl ++ toList br = [] := by
              rw [← hfb, ← hab, ← toList_delete_all_eq bv hba, heq, toList]
            obtain ⟨h2, h3⟩ := List.append_eq_nil.mp h0
            rw [hab, toList_eq_nil_iff.mp h2, toList_eq_nil_iff.mp h3,
              delete_all_of_not_contains (by simp [contains])]
          · rename_i cv cp cl cr heq
            rw [if_pos hca] at heq
            have hvc : valid (node cv cp cl cr) = true := by
              rw [← heq]; exact valid_delete_all _ hva
            have hsc : size (node cv cp cl cr) ≤ size (node av ap al ar) := by
              rw [← heq]; exact size_delete_all_le _ _
            have hTc : toList (node cv cp cl cr) = toList bl ++ toList br := by
              rw [← heq, toList_delete_all_eq bv hba, hab, hfb]
            obtain ⟨hs1, hs2⟩ := split_parts_eq bv hvc hTc hltb hgtb
            have hdbl : delete_all bl bv = bl :=
              delete_all_of_not_contains
                (fun h => hbvl ((contains_iff_mem (valid_iff.mp hvbl).1).mp h))
            have hdbr : delete_all br bv = br :=
              delete_all_of_not_contains
                (fun h => hbvr ((contains_iff_mem (valid_iff.mp hvbr).1).mp h))
            rw [hca, interTail_true, hdbl, hdbr]
            have hIH1 : toList (inter (split (node cv cp cl cr) bv).1 bl)
                = toList (split (node cv cp cl cr) bv).1 :=
              ih (split (node cv cp cl cr) bv).1 bl
                (by
                  have h2 := size_split (node cv cp cl cr) bv
                  simp only [size] at hlt hsc h2 ⊢
                  omega)
                (valid_split bv hvc).1 hvbl (by rw [hs1]; exact hndbl) (by rw [hs1])
            have hIH2 : toList (inter (split (node cv cp cl cr) bv).2 br)
                = toList (split (node cv cp cl cr) bv).2 :=
              ih (split (node cv cp cl cr) bv).2 br
                (by
                  have h2 := size_split (node cv cp cl cr) bv
                  simp only [size] at hlt hsc h2 ⊢
                  omega)
                (valid_split bv hvc).2 hvbr (by rw [hs2]; exact hndbr) (by rw [hs2])
            rw [toList, hIH1, hIH2, hs1, hs2, hab, toList]
  exact H (size a + size b + 1) a b (by omega) hva hvb hnd hab

/-- The rational 1/2 in reduced form (a possible `random()` draw). -/
def half : ℚ := ⟨1, 2, by decide, Nat.coprime_one_left 2⟩

/-- The rational 1/4 in reduced form (a possible `random()` draw). -/
def quarter : ℚ := ⟨1, 4, by decide, Nat.coprime_one_left 4⟩

/-- A valid treap holding the multiset {1, 1} (explicit positive priorities). -/
def t11 : TN ℤ := node 1 1 nil (node 1 2 nil nil)

/-- A valid treap holding {1, 2, 3, 4, 5} (explicit positive priorities). -/
def t15 : TN ℤ :=
  node 2 1 (node 1 2 nil nil) (node 4 2 (node 3 3 nil nil) (node 5 3 nil nil))

/-- A valid treap holding {1, 2}, its root priority below `b7`'s. -/
def a7 : TN ℤ := node 1 1 nil (node 2 2 nil nil)

/-- A valid treap holding {1}, its priority above `a7`'s root priority. -/
def b7 : TN ℤ := node 1 2 nil nil

/-- The module-level names `src/treap_sort.py` binds: its `from … import …` lines
(lines 7-11), the type-variable and protocol definitions (lines 13-37) and its
classes and function (`TreapValues`, `TreapNode`, `Treap`, `OrderedSet`,
`treap_sort`).  This is the namespace `from treap_sort import …` resolves against. -/
def treap_sort_module_names : List String :=
  ["annotations", "runtime_checkable", "Generic", "Iterable", "Iterator", "Optional",
   "Protocol", "T_contra", "TypeVar", "Union", "random", "ThreadPoolExecutor",
   "zip_longest", "S_contra", "LessThan", "GreaterThan", "LessEqual", "GreaterEqual",
   "Comparable", "T", "TreapValues", "TreapNode", "Treap", "OrderedSet", "treap_sort"]

/-- The names `src/heap_sort.py` line 10 (`from treap_sort import S, T`) asks
`treap_sort` for; resolution of `S` fails, so importing `heap_sort` raises
`ImportError` before `heap_sort` itself is ever defined. -/
def heap_sort_imported_names : List String := ["S", "T"]

theorem delete_all_step {t t' : TN α} {v : α} (hc : contains t v = true)
    (h : delete t v = some t') : delete_all t v = delete_all t' v := by
  have hg : (delete t v).get (isSome_delete hc) = t' :=
    Option.some_inj.mp (by rw [Option.some_get, h])
  rw [delete_all_of_contains hc, hg]

theorem da_nil_one : delete_all (nil : TN ℤ) 1 = nil :=
  delete_all_of_not_contains (by decide)

theorem da_node12 : delete_all (node (1:ℤ) 2 nil nil) 1 = nil := by
  have e1 : delete (node (1:ℤ) 2 nil nil) 1 = some nil :=
    delete_left_nil (by decide) (by decide)
  rw [delete_all_step (by decide) e1, delete_all_of_not_contains (by decide)]

theorem da_t11 : delete_all t11 1 = nil := by
  have d1 : delete t11 1 = some (node 1 2 nil nil) := by
    simp only [t11]
    exact delete_left_nil (by decide) (by decide)
  rw [delete_all_step (by decide) d1, da_node12]

theorem uq_t11 : unique t11 = node 1 1 nil nil := by
  simp only [t11]
  rw [unique, da_nil_one, da_node12, unique]

/-- One unfolding of `__or__` when the left root's priority does not win and removing
its value empties the right operand. -/
theorem union_ge_nil {av bv : α} {ap bp : ℚ} {al ar bl br : TN α}
    (hap : ¬ ap < bp) (hc : contains (node av ap al ar) bv = true)
    (hd : delete_all (node av ap al ar) bv = nil) :
    union (node av ap al ar) (node bv bp bl br) =
      node bv bp (delete_all bl bv) (delete_all br bv) := by
  rw [union, if_neg hap]
  split
  · rfl
  · rename_i cv cp cl cr heq
    rw [if_pos hc, hd] at heq
    cases heq

/-- One unfolding of `__and__` when the left root's priority wins and removing its
value empties the right operand: the early `return` hands back the (deduplicated)
left operand, values the right operand never held included. -/
theorem inter_lt_nil {av bv : α} {ap bp : ℚ} {al ar bl br : TN α}
    (hap : ap < bp) (hc : contains (node bv bp bl br) av = true)
    (hd : delete_all (node bv bp bl br) av = nil) :
    inter (node av ap al ar) (node bv bp bl br) =
      node av ap (delete_all al av) (delete_all ar av) := by
  rw [inter, if_pos hap]
  split
  · rfl
  · rename_i cv cp cl cr heq
    rw [if_pos hc, hd] at heq
    cases heq

theorem hand_a7b7 : treapAnd a7 b7 = a7 := by
  rw [treapAnd, copy_eq, copy_eq]
  have h2 : delete_all (node (2:ℤ) 2 nil nil) 1 = node 2 2 nil nil :=
    delete_all_of_not_contains (by decide)
  calc inter a7 b7 = node 1 1 (delete_all nil 1) (delete_all (node 2 2 nil nil) 1) := by
        simp only [a7, b7]
        exact inter_lt_nil (by decide) (by decide) (by simpa [b7] using da_node12)
    _ = a7 := by
        rw [da_nil_one, h2]
        rfl

theorem insLe_perm (v : α) (L : List α) : (insLe v L).Perm (v :: L) := by
  induction L with
  | nil => exact List.Perm.refl _
  | cons x xs ih =>
    rw [insLe]
    by_cases hx : x ≤ v
    · rw [if_pos hx]
      exact (ih.cons x).trans (List.Perm.swap v x xs)
    · rw [if_neg hx]

/-- The `Treap` constructor (modelled by `ofList`) keeps the tree valid and holds
exactly the inserted values. -/
theorem ofList_valid_perm (l : List (α × ℚ)) (t : TN α) (hv : valid t = true)
    (hp : ∀ vp ∈ l, 0 < vp.2) :
    valid (ofList t l) = true ∧
    (toList (ofList t l)).Perm (l.map Prod.fst ++ toList t) := by
  induction l generalizing t with
  | nil =>
    rw [ofList]
    exact ⟨hv, by simp⟩
  | cons vp rest ih =>
    rw [ofList]
    have hv' := valid_insert vp.1 (hp vp (List.mem_cons_self _ _)) hv
    obtain ⟨h1, h2⟩ := ih (insert t vp.1 vp.2) hv'
      (fun x hx => hp x (List.mem_cons_of_mem _ hx))
    refine ⟨h1, ?_⟩
    have h3 : toList (insert t vp.1 vp.2) = insLe vp.1 (toList t) :=
      toList_insert vp.1 vp.2 (valid_iff.mp hv).1
    rw [h3] at h2
    refine h2.trans ?_
    rw [List.map_cons, List.cons_append]
    exact (List.Perm.append_left _ (insLe_perm vp.1 (toList t))).trans List.perm_middle

theorem unique_toList_of_nodup {t : TN α} (hv : valid t = true)
    (hnd : (toList t).Nodup) : toList (unique t) = toList t := by
  have H : ∀ n (t : TN α), size t < n → valid t = true → (toList t).Nodup →
      toList (unique t) = toList t := by
    intro n
    induction n with
    | zero => intro _ h; omega
    | succ n ih =>
      intro t hlt hv hnd
      match t with
      | nil => rw [unique]
      | node w q l r =>
        obtain ⟨hvl, hvr⟩ := valid_node_parts hv
        obtain ⟨hndl, hndr, hwl, hwr⟩ := nodup_node_parts hnd
        have hdl : delete_all l w = l := delete_all_of_not_contains
          (fun h => hwl ((contains_iff_mem (valid_iff.mp hvl).1).mp h))
        have hdr : delete_all r w = r := delete_all_of_not_contains
          (fun h => hwr ((contains_iff_mem (valid_iff.mp hvr).1).mp h))
        rw [unique, hdl, hdr, toList, toList,
          ih l (by simp only [size] at hlt ⊢; omega) hvl hndl,
          ih r (by simp only [size] at hlt ⊢; omega) hvr hndr]
  exact H (size t + 1) t (by omega) hv hnd

theorem union_nil_toList {a : TN α} (hv : valid a = true)
    (hnd : (toList a).Nodup) : toList (union a nil) = toList a := by
  match a with
  | nil => rw [union]
  | node av ap al ar =>
    rw [union]
    exact unique_toList_of_nodup hv hnd

/-- Claim C1 (amended): `split(v)` puts the values `≤ v` into the left result and the
values `> v` into the right result — values equal to `v` land in the LEFT result, not
the right one as the specification says, because the synthetic `0.0`-priority node is
inserted AFTER existing equal values ("equal goes right") and so ends up to their
right before rotating to the root.  Accordingly the `[1,2,3,4,5]` scenario splits at
`3` into `[1,2,3]` and `[4,5]`. -/
theorem C1_split_le_gt (t : TN ℤ) (v : ℤ) (hv : valid t = true) :
    (∀ x ∈ toList (split t v).1, x ≤ v) ∧ (∀ x ∈ toList (split t v).2, v < x) ∧
    toList (split t15 3).1 = [1, 2, 3] ∧ toList (split t15 3).2 = [4, 5] := by
  obtain ⟨hb, hh, hp⟩ := valid_iff.mp hv
  exact ⟨split_fst_le v hp hb, split_snd_gt v hp hb, by decide, by decide⟩

/-- Claim C1 witness: the amended statement instantiated at the `[1,2,3,4,5]`
scenario tree. -/
theorem C1_split_le_gt_witness :
    valid t15 = true ∧
    ((∀ x ∈ toList (split t15 3).1, x ≤ 3) ∧ (∀ x ∈ toList (split t15 3).2, 3 < x) ∧
     toList (split t15 3).1 = [1, 2, 3] ∧ toList (split t15 3).2 = [4, 5]) :=
  ⟨by decide, C1_split_le_gt t15 3 (by decide)⟩

/-- Claim C1 counterexample to the specified postcondition: splitting the
`[1,2,3,4,5]` tree at `3` leaves `3` in the LEFT result (the spec promises the left
result strictly precedes `3` and that the scenario gives left `{1,2}`, right
`{3,4,5}`). -/
theorem C1_split_cx :
    (3:ℤ) ∈ toList (split t15 3).1 ∧ toList (split t15 3).1 ≠ [1, 2] ∧
    toList (split t15 3).2 ≠ [3, 4, 5] := by
  decide

/-- Claim C2 (code bug): `Treap.delete` falls through its missing `return` and raises
`ValueError(f"{value} not in treap")` on every call — even when the value was present
and was in fact removed.  `treapDelete` returns the final root paired with the error
kind that escapes; the error component is `notFound` for every input, and on the
one-node tree holding `1` the call `delete(1)` removes the value AND raises. -/
theorem C2_delete_always_raises :
    (∀ (t : TN ℤ) (v : ℤ), (treapDelete t v).2 = PyErr.notFound) ∧
    contains (node (1:ℤ) 1 nil nil) 1 = true ∧
    treapDelete (node (1:ℤ) 1 nil nil) 1 = (nil, PyErr.notFound) := by
  refine ⟨?_, by decide, ?_⟩
  · intro t v
    match t with
    | nil => rfl
    | node w q l r =>
      rw [treapDelete]
      rcases hd : delete (node w q l r) v with _ | t' <;> rfl
  · have hdel : delete (node (1:ℤ) 1 nil nil) 1 = some nil :=
      delete_left_nil (by decide) (by decide)
    rw [treapDelete, hdel]

/-- Claim C3 (amended): every tree reachable through the mutating operations named by
the specification (insert with a fresh `random()` priority, tree-level delete, and
the four set-algebra combinators) satisfies the WEAK order invariant (left subtree
values ≤ node value ≤ right subtree values) and the heap invariant — but not the
spec's strict form in which values equal to a node's value sit only to its right:
rotations carry equal values into left subtrees. -/
theorem C3_reachable_invariants (t : TN ℤ) (h : Reachable t) :
    bst t = true ∧ heap t = true := by
  have hv := reachable_valid h
  exact ⟨(valid_iff.mp hv).1, (valid_iff.mp hv).2.1⟩

/-- Claim C3 witness: the invariants of the amended statement at a concrete reachable
tree (one insert with priority 1/2 into the empty treap). -/
theorem C3_reachable_invariants_witness :
    bst (insert (nil : TN ℤ) 3 half) = true ∧ heap (insert (nil : TN ℤ) 3 half) = true :=
  C3_reachable_invariants _ (Reachable.ins Reachable.empty (by decide) (by decide))

/-- Claim C3 counterexample to the spec's strict order invariant: inserting `3` with
priority 1/2 and then `3` again with priority 1/4 rotates the second `3` above the
first, leaving an equal value in a LEFT subtree; the reachable result violates the
"equal values are to the right" discipline. -/
theorem C3_strict_order_cx :
    Reachable (insert (insert (nil : TN ℤ) 3 half) 3 quarter) ∧
    strictBst (insert (insert (nil : TN ℤ) 3 half) 3 quarter) = false :=
  ⟨Reachable.ins (Reachable.ins Reachable.empty (by decide) (by decide))
      (by decide) (by decide),
   by decide⟩

/-- Claim C4 (code bug): `heap_sort.py` line 10 reads `from treap_sort import S, T`,
but `treap_sort.py` binds no module-level name `S`, so importing the heap adapter
raises `ImportError` and it can never yield anything — the first conjunct records
that `"S"` is among the names `heap_sort` imports but not among the names
`treap_sort` defines.  The treap adapter itself does meet the sorting contract on its
`key=None, reverse=False` path (`iter(Treap(iterable))`): for every input list and
positive priority draws the produced value sequence is sorted and a permutation of
the input, and the `[1,7,8,0,4,6,2,3,5]` scenario yields `[0,…,8]`. -/
theorem C4_sort_adapters :
    ("S" ∉ treap_sort_module_names ∧ "S" ∈ heap_sort_imported_names) ∧
    (∀ (l : List ℤ) (ps : List ℚ), l.length = ps.length → (∀ p ∈ ps, 0 < p) →
      (toList (ofList nil (l.zip ps))).Sorted (· ≤ ·) ∧
      (toList (ofList nil (l.zip ps))).Perm l) ∧
    toList (ofList (nil : TN ℤ)
      [((1:ℤ),(5:ℚ)),(7,3),(8,8),(0,2),(4,7),(6,4),(2,9),(3,1),(5,6)]) =
      [0,1,2,3,4,5,6,7,8] := by
  refine ⟨⟨by decide, by decide⟩, ?_, by decide⟩
  intro l ps hlen hp
  have hzip : ∀ vp ∈ l.zip ps, 0 < vp.2 := fun vp hv => hp vp.2 (List.of_mem_zip hv).2
  obtain ⟨hval, hperm⟩ := ofList_valid_perm (l.zip ps) nil valid_nil hzip
  constructor
  · exact sorted_toList (valid_iff.mp hval).1
  · refine hperm.trans ?_
    rw [List.map_fst_zip l ps (le_of_eq hlen)]
    simp [toList]

/-- Claim C4 witness: the sorting conjunct instantiated at `[3,1,2]` with priorities
`[5,6,7]`. -/
theorem C4_sort_adapters_witness :
    ([(3:ℤ),1,2].length = ([5,6,7] : List ℚ).length ∧
      (∀ p ∈ ([5,6,7] : List ℚ), 0 < p)) ∧
    ((toList (ofList nil ([(3:ℤ),1,2].zip ([5,6,7] : List ℚ)))).Sorted (· ≤ ·) ∧
     (toList (ofList nil ([(3:ℤ),1,2].zip ([5,6,7] : List ℚ)))).Perm [3,1,2]) :=
  ⟨⟨by decide, by decide⟩, C4_sort_adapters.2.1 [3,1,2] [5,6,7] (by decide) (by decide)⟩

/-- Claim C5 (amended): the empty-operand boundary behaviours the code actually has.
`a | empty` returns `a` deduplicated, so it equals `a`'s value sequence exactly when
`a` is duplicate-free; `empty & a` is empty; `isdisjoint` with an empty operand is
`True` for every coin oracle; and on an empty treap `search` and `delete` raise the
`"… not in treap"` `ValueError` (the `NotFound` kind), while only `min_`/`max_` raise
the `"empty treap has no …"` kind the specification promises for all four. -/
theorem C5_empty_boundaries :
    (∀ a : TN ℤ, valid a = true → (toList a).Nodup → toList (treapOr a nil) = toList a) ∧
    (∀ a : TN ℤ, treapAnd nil a = nil) ∧
    (∀ (coin : TN ℤ → TN ℤ → Bool) (a : TN ℤ),
      isdisjointT coin a nil = true ∧ isdisjointT coin nil a = true) ∧
    (∀ v : ℤ, searchT nil v = Except.error PyErr.notFound ∧
      treapDelete (nil : TN ℤ) v = (nil, PyErr.notFound)) ∧
    minT (nil : TN ℤ) = Except.error PyErr.empty ∧
    maxT (nil : TN ℤ) = Except.error PyErr.empty := by
  refine ⟨?_, ?_, ?_, ?_, rfl, rfl⟩
  · intro a hv hnd
    rw [treapOr, copy_eq, copy_eq]
    exact union_nil_toList hv hnd
  · intro a
    rw [treapAnd, copy_eq, copy_eq, inter]
  · intro coin a
    exact ⟨by cases a <;> rfl, rfl⟩
  · intro v
    exact ⟨rfl, rfl⟩

/-- Claim C5 witness: the `a | empty` conjunct instantiated at the duplicate-free
tree `t15`. -/
theorem C5_empty_boundaries_witness :
    valid t15 = true ∧ (toList t15).Nodup ∧ toList (treapOr t15 nil) = toList t15 :=
  ⟨by decide, by decide, C5_empty_boundaries.1 t15 (by decide) (by decide)⟩

/-- Claim C5 counterexample to the specified boundary behaviour: for the two-node
tree holding `{1, 1}`, `a | empty` collapses the duplicates to `[1]` instead of
preserving `a`'s value sequence `[1, 1]`, and `search` on an empty treap raises the
`NotFound` kind, not the promised `EmptyError` kind. -/
theorem C5_empty_cx :
    toList (treapOr t11 nil) = [1] ∧ toList t11 = [1, 1] ∧
    searchT (nil : TN ℤ) 0 = Except.error PyErr.notFound ∧
    PyErr.notFound ≠ PyErr.empty := by
  have h : union t11 nil = unique t11 := by
    simp only [t11]
    rw [union]
  refine ⟨?_, by decide, rfl, by decide⟩
  rw [treapOr, copy_eq, copy_eq, h, uq_t11]
  rfl

/-- Claim C6 (amended): the idempotence laws as the code satisfies them.  `a | a` and
`a & a` reproduce `a`'s value sequence when `a` is duplicate-free (the set-valued
combinators deduplicate, so a tree with duplicates comes back shortened), and for
every structurally valid tree `a ^ a` and `a - a` are empty. -/
theorem C6_idempotence :
    (∀ a : TN ℤ, valid a = true → (toList a).Nodup →
      toList (treapOr a a) = toList a ∧ toList (treapAnd a a) = toList a) ∧
    (∀ a : TN ℤ, valid a = true → treapXor a a = nil ∧ treapSub a a = nil) := by
  constructor
  · intro a hv hnd
    constructor
    · rw [treapOr, copy_eq]
      exact union_idem_toList a a hv hv hnd rfl
    · rw [treapAnd, copy_eq]
      exact inter_idem_toList a a hv hv hnd rfl
  · intro a hv
    constructor
    · rw [treapXor, copy_eq]
      exact symdiff_self hv
    · rw [treapSub, copy_eq]
      exact sub_self hv

/-- Claim C6 witness: all four idempotence laws at the duplicate-free five-value tree
`t15`. -/
theorem C6_idempotence_witness :
    valid t15 = true ∧ (toList t15).Nodup ∧
    (toList (treapOr t15 t15) = toList t15 ∧ toList (treapAnd t15 t15) = toList t15) ∧
    (treapXor t15 t15 = nil ∧ treapSub t15 t15 = nil) :=
  ⟨by decide, by decide, C6_idempotence.1 t15 (by decide) (by decide),
    C6_idempotence.2 t15 (by decide)⟩

/-- Claim C6 counterexample to idempotence "for any tree a (including trees with
duplicate values)": for the tree holding the multiset `{1, 1}`, `a | a` evaluates to
`[1]`, not `a`'s value sequence `[1, 1]`. -/
theorem C6_union_self_cx : toList (treapOr t11 t11) = [1] ∧ toList t11 = [1, 1] := by
  have hor : union t11 t11 = node 1 1 nil nil := by
    rw [show union t11 t11 = node 1 1 (delete_all nil 1) (delete_all (node 1 2 nil nil) 1) from by
      simp only [t11]
      exact union_ge_nil (by decide) (by decide) (by simpa [t11] using da_t11)]
    rw [da_nil_one, da_node12]
  rw [treapOr, copy_eq, hor]
  exact ⟨rfl, by decide⟩

/-- Claim C7 (code bug): `(a & b) <= b` fails.  With `a` holding `{1, 2}` (root
priority below `b`'s) and `b` holding `{1}`, the `__and__` recursion empties the
other operand and its early `return` keeps `a`'s remaining subtree, so `a & b`
evaluates to `[1, 2]` although `2` is not in `b`, and the subset test
`(a & b) <= b` returns `False`. -/
theorem C7_and_subset_violation :
    toList (treapAnd a7 b7) = [1, 2] ∧ (2:ℤ) ∉ toList b7 ∧
    leE (treapAnd a7 b7) b7 = Except.ok false := by
  have hsub : toList (sub a7 b7) = [2] := by
    rw [sub_toList a7 b7 (by decide) (by decide)]
    decide
  have hne : sub a7 b7 ≠ nil := by
    intro h
    rw [h] at hsub
    exact absurd hsub (by decide)
  refine ⟨by rw [hand_a7b7]; decide, by decide, ?_⟩
  rw [hand_a7b7]
  show leE a7 b7 = Except.ok false
  have h : leE a7 b7 = Except.ok (decide (sub (copy a7) b7 = nil)) := by
    simp only [a7]
    rw [leE]
  rw [h, copy_eq, decide_eq_false hne]

/-- Claim C8: `join(left, right)` concatenates the two in-order value sequences and
never raises; under the spec's (unchecked) precondition that every value of `left` is
≤ every value of `right` this makes `join` the inverse of `split`.  (The model proves
the concatenation identity even without the precondition.) -/
theorem C8_join_concat (a b : TN ℤ)
    (h : ∀ x ∈ toList a, ∀ y ∈ toList b, x ≤ y) :
    toList (join a b) = toList a ++ toList b :=
  toList_join a b

/-- Claim C8 witness: joining the one-node trees holding `1` and `2`. -/
theorem C8_join_concat_witness :
    (∀ x ∈ toList (node (1:ℤ) 1 nil nil), ∀ y ∈ toList (node (2:ℤ) 1 nil nil), x ≤ y) ∧
    toList (join (node (1:ℤ) 1 nil nil) (node (2:ℤ) 1 nil nil)) =
      toList (node (1:ℤ) 1 nil nil) ++ toList (node (2:ℤ) 1 nil nil) :=
  ⟨by decide, C8_join_concat _ _ (by decide)⟩

/-- Claim C10: comparing with an empty `Treap` on the side whose root gets `copy()`d
raises `AttributeError` instead of returning the subset verdict: `a <= b` and
`a < b` (hence `a.issubset(b)`, which is literally `self <= other`) with `a` empty,
and `b >= a` and `b > a` (hence `b.issuperset(a)`) with `a` empty, all call
`None.copy()` inside the node-level comparison. -/
theorem C10_empty_comparisons : ∀ b : TN ℤ,
    leE nil b = Except.error PyErr.attr ∧ ltE nil b = Except.error PyErr.attr ∧
    geE b nil = Except.error PyErr.attr ∧ gtE b nil = Except.error PyErr.attr := by
  intro b
  cases b <;> exact ⟨rfl, rfl, rfl, rfl⟩

end TN

end TreapSort
